import Mathlib

/-!
Shallow embedding of the feature-dependency graph resolver of `src/features.rs`
(crate `cargo_toml`), together with proofs checking the natural-language
specification's claims against it.

Modelling conventions:
* `BTreeMap`/`BTreeSet` are modelled as sorted association lists / sorted
  lists (`alterS`, `insSorted`, ...), so that map equality is canonical.
* The intermediate `HashMap` of features is modelled as the same canonical
  sorted association list; the three places where the Rust code iterates a
  `HashMap` in unspecified order take the iteration order as an explicit
  list parameter (see `Resolver.parseWith`), so that independence from the
  hash iteration order is a provable statement rather than an artifact.
* Machine integers do not occur; all counts are `Nat`.
* `FeatureDependency::detail`'s `unwrap()` is modelled as an `Option`;
  the invariant that resolver-produced maps never hit the `none` case is
  proved separately.
-/

/-- Maximum number of features and dependencies, to protect against DoS
(`const MAX_ITEMS: usize = 2048` in `src/features.rs`). -/
def MAX_ITEMS : Nat := 2048

/-! ## A kernel-computable strict comparison

Core `String.lt` is decided through UTF-8 iterators, which the kernel cannot
evaluate; the model's sorted containers therefore compare keys through a
`Bool`-valued comparison that is proved to agree with the `LinearOrder`. -/

/-- Structural strict comparison on char lists, agreeing with `List.lt`. -/
def listLtb : List Char → List Char → Bool
  | _, [] => false
  | [], _ :: _ => true
  | a :: as, b :: bs => if a < b then true else if b < a then false else listLtb as bs

theorem listLtb_lex : ∀ a b : List Char, listLtb a b = true ↔ List.Lex (· < ·) a b := by
  intro a b
  induction a generalizing b with
  | nil =>
    cases b with
    | nil =>
      simp only [listLtb]
      exact ⟨fun h => absurd h Bool.false_ne_true, fun h => by cases h⟩
    | cons x xs =>
      simp only [listLtb]
      exact ⟨fun _ => List.Lex.nil, fun _ => by trivial⟩
  | cons c cs ih =>
    cases b with
    | nil =>
      simp only [listLtb]
      exact ⟨fun h => absurd h Bool.false_ne_true, fun h => by cases h⟩
    | cons x xs =>
      simp only [listLtb]
      by_cases hcx : c < x
      · rw [if_pos hcx]
        exact ⟨fun _ => List.Lex.rel hcx, fun _ => by trivial⟩
      · rw [if_neg hcx]
        by_cases hxc : x < c
        · rw [if_pos hxc]
          constructor
          · intro h
            exact absurd h Bool.false_ne_true
          · intro h
            cases h with
            | cons h' => exact absurd hxc (lt_irrefl _)
            | rel h' => exact absurd h' hcx
        · rw [if_neg hxc]
          have hcxeq : c = x := le_antisymm (not_lt.mp hxc) (not_lt.mp hcx)
          subst hcxeq
          rw [ih xs]
          constructor
          · intro h
            exact List.Lex.cons h
          · intro h
            cases h with
            | cons h' => exact h'
            | rel h' => exact absurd h' hcx

/-- A `Bool` comparison that the kernel can evaluate, agreeing with `<`. -/
class LtB (κ : Type) [LinearOrder κ] : Type where
  ltb : κ → κ → Bool
  ltb_iff : ∀ a b : κ, ltb a b = true ↔ a < b

@[simp]
theorem ltb_iff_lt {κ : Type} [LinearOrder κ] [LtB κ] {a b : κ} :
    (LtB.ltb a b = true) ↔ a < b := LtB.ltb_iff a b

instance : LtB String where
  ltb a b := listLtb a.data b.data
  ltb_iff a b := by
    rw [String.lt_iff_toList_lt]
    exact listLtb_lex a.data b.data

/-! ## Sorted lists and sorted association lists (model of BTreeSet / BTreeMap) -/

/-- Insert into a sorted list without duplicates (model of `BTreeSet::insert`). -/
def insSorted {κ : Type} [DecidableEq κ] [LinearOrder κ] [LtB κ] (k : κ) : List κ → List κ
  | [] => [k]
  | x :: t =>
    if LtB.ltb k x then k :: x :: t else if k = x then x :: t else x :: insSorted k t

/-- Remove every occurrence of an element (model of `BTreeSet::remove`;
on duplicate-free lists this is exactly single removal). -/
def eraseS {κ : Type} [DecidableEq κ] (k : κ) : List κ → List κ
  | [] => []
  | x :: t => if x = k then eraseS k t else x :: eraseS k t

/-- `a.extend(b)` on sets: insert every element of `b` into `a`. -/
def unionS {κ : Type} [DecidableEq κ] [LinearOrder κ] [LtB κ] (a b : List κ) : List κ :=
  b.foldl (fun acc x => insSorted x acc) a

/-- First-match association lookup (model of `BTreeMap::get` / `HashMap::get`). -/
def lookupS {κ α : Type} [DecidableEq κ] (k : κ) : List (κ × α) → Option α
  | [] => none
  | e :: t => if k = e.1 then some e.2 else lookupS k t

/-- Update-or-insert at a key, keeping the list sorted
(model of the `entry(k)` API family of `BTreeMap`/`HashMap`). -/
def alterS {κ α : Type} [DecidableEq κ] [LinearOrder κ] [LtB κ] (k : κ) (f : Option α → α) :
    List (κ × α) → List (κ × α)
  | [] => [(k, f none)]
  | e :: t =>
    if LtB.ltb k e.1 then (k, f none) :: e :: t
    else if k = e.1 then (e.1, f (some e.2)) :: t
    else e :: alterS k f t

/-- Insert-or-replace (model of `HashMap::insert` / collecting pairs). -/
def insertS {κ α : Type} [DecidableEq κ] [LinearOrder κ] [LtB κ] (k : κ) (v : α) (l : List (κ × α)) :
    List (κ × α) :=
  alterS k (fun _ => v) l

/-- Update the value at a key only when present (model of `HashMap::get_mut`).
Never inserts. -/
def modifyS {κ α : Type} [DecidableEq κ] (k : κ) (f : α → α) : List (κ × α) → List (κ × α)
  | [] => []
  | e :: t => if e.1 = k then (e.1, f e.2) :: t else e :: modifyS k f t

/-- Remove every entry with the given key (model of `HashMap::remove`). -/
def eraseKeyS {κ α : Type} [DecidableEq κ] (k : κ) : List (κ × α) → List (κ × α)
  | [] => []
  | e :: t => if e.1 = k then eraseKeyS k t else e :: eraseKeyS k t

/-- Map over all values in place (model of `values_mut()` iteration). -/
def mapValS {κ α : Type} (f : κ → α → α) (l : List (κ × α)) : List (κ × α) :=
  l.map (fun e => (e.1, f e.1 e.2))

/-- Keys of an association list. -/
def keysS {κ α : Type} (l : List (κ × α)) : List κ := l.map Prod.fst

/-- Key membership as a `Bool` (model of `contains_key`). -/
def containsKeyS {κ α : Type} [DecidableEq κ] (k : κ) (l : List (κ × α)) : Bool :=
  (lookupS k l).isSome

/-! ## Character-list helpers for the feature micro-syntax

The Rust code works on `&str`; the model works on `String.data` so that the
splitting functions are plain structural recursions. -/

/-- `action.splitn(2, '/')`: the part before the first `/`, and (when a `/`
is present) everything after it. -/
def breakSlash : List Char → List Char × Option (List Char)
  | [] => ([], none)
  | c :: t =>
    if c = '/' then ([], some t)
    else
      let r := breakSlash t
      (c :: r.1, r.2)

/-- `strip_prefix("dep:")`. -/
def stripDepColon : List Char → Option (List Char)
  | a :: b :: c :: d :: rest =>
    if a = 'd' ∧ b = 'e' ∧ c = 'p' ∧ d = ':' then some rest else none
  | _ => none

/-- `strip_suffix('?')`. -/
def stripQMark : List Char → Option (List Char)
  | [] => none
  | [c] => if c = '?' then some [] else none
  | c :: c' :: t => (stripQMark (c' :: t)).map (fun r => c :: r)

/-- `key.starts_with('_')`: the hidden-feature naming convention. -/
def kIsHidden (k : String) : Bool :=
  match k.data with
  | c :: _ => c = '_'
  | [] => false

/-! ## Data model (`src/features.rs`) -/

/-- `enum Kind { Normal, Build, Dev }`. -/
inductive Kind : Type
  | Normal
  | Build
  | Dev
deriving DecidableEq, Repr

/-- Derived `Ord` on `Kind` is by declaration order: `Normal < Build < Dev`. -/
def Kind.toNat : Kind → Nat
  | .Normal => 0
  | .Build => 1
  | .Dev => 2

/-- `struct TargetKey { kind: Kind, target: Option<&str> }`; the derived order
is lexicographic, with `None < Some` on the target. -/
structure TargetKey : Type where
  kind : Kind
  target : Option String
deriving DecidableEq, Repr

/-- Only the fields of `DependencyDetail` read by the feature resolver are
modelled (`optional`, `default_features`, `features`, `package`). -/
structure DependencyDetail : Type where
  package : Option String
  optional : Bool
  default_features : Bool
  features : List String
deriving DecidableEq, Repr

/-- Only the field of `InheritedDependencyDetail` read by the resolver
(`optional`) is modelled. -/
structure InheritedDependencyDetail : Type where
  optional : Bool
deriving DecidableEq, Repr

/-- `enum Dependency { Simple, Inherited, Detailed }` from `src/cargo_toml.rs`. -/
inductive Dependency : Type
  | Simple (version : String)
  | Inherited (d : InheritedDependencyDetail)
  | Detailed (d : DependencyDetail)
deriving DecidableEq, Repr

/-- `Dependency::detail`. -/
def Dependency.detail : Dependency → Option DependencyDetail
  | .Detailed d => some d
  | .Simple _ => none
  | .Inherited _ => none

/-- `Dependency::optional`. -/
def Dependency.optional : Dependency → Bool
  | .Simple _ => false
  | .Detailed d => d.optional
  | .Inherited d => d.optional

/-- `Dependency::package`. -/
def Dependency.package : Dependency → Option String
  | .Detailed d => d.package
  | .Simple _ => none
  | .Inherited _ => none

/-- `struct DepAction` — how an enabled feature affects the dependency. -/
structure DepAction : Type where
  is_conditional : Bool
  is_dep_only : Bool
  dep_features : List String
deriving DecidableEq, Repr

/-- `struct Feature` — a feature from `[features]` with all the details. -/
structure Feature : Type where
  key : String
  enables_deps : List (String × DepAction)
  enables_features : List String
  enabled_by : List String
  required_by_bins : List String
  explicit : Bool
deriving DecidableEq, Repr

/-- `struct FeatureDependency` — a dependency referenced by a feature. -/
structure FeatureDependency : Type where
  crate_name : String
  targets : List (TargetKey × Dependency)
deriving DecidableEq, Repr

/-- `struct Product` (only the fields read by the resolver). -/
structure Product : Type where
  name : Option String
  required_features : List String
deriving DecidableEq, Repr

/-- A `[target."cfg".*dependencies]` group. -/
structure TargetDeps : Type where
  dependencies : List (String × Dependency)
  build_dependencies : List (String × Dependency)
  dev_dependencies : List (String × Dependency)
deriving DecidableEq, Repr

/-- The manifest view read by `Resolver::parse`.  The association lists stand
for `BTreeMap`s, listed in their sorted iteration order. -/
structure Manifest : Type where
  package_name : String
  features : List (String × List String)
  dependencies : List (String × Dependency)
  build_dependencies : List (String × Dependency)
  dev_dependencies : List (String × Dependency)
  target : List (String × TargetDeps)
  bin : List Product

/-- `struct Resolver` — the only configuration is the optional
keep-this-hidden-feature predicate. -/
structure Resolver : Type where
  always_keep : Option (String → Bool)

/-- `struct Features` — the parse result. -/
structure FeaturesResult : Type where
  features : List (String × Feature)
  dependencies : List (String × FeatureDependency)
  removed_hidden_features : Bool
  hidden_features : List (String × List String)

/-- `FeatureDependency::detail`: first entry of the (sorted) `targets` map.
The Rust code `unwrap()`s; the `none` case models the panic. -/
def FeatureDependency.detail (fd : FeatureDependency) : Option (Dependency × Kind) :=
  match fd.targets with
  | [] => none
  | e :: _ => some (e.2, e.1.kind)

/-- `FeatureDependency::dep`. -/
def FeatureDependency.dep (fd : FeatureDependency) : Option Dependency :=
  (fd.detail).map Prod.fst

/-! ## The derived `Ord` on `TargetKey`

Rust's `#[derive(Ord)]` on `TargetKey` compares `kind` first (declaration
order `Normal < Build < Dev`) and then `target`, with `None < Some` and
strings bytewise.  We realise it by lifting along an injective encoding. -/

/-- Encoding of `TargetKey` realising the derived lexicographic order. -/
def TargetKey.enc (tk : TargetKey) : Lex (Nat × WithBot String) :=
  toLex (tk.kind.toNat, match tk.target with
    | none => (⊥ : WithBot String)
    | some s => (s : WithBot String))

theorem Kind.toNat_inj : Function.Injective Kind.toNat := by
  intro a b h
  cases a <;> cases b <;> first | rfl | exact absurd h (by decide)

theorem TargetKey.enc_inj : Function.Injective TargetKey.enc := by
  intro a b h
  have hp : (a.kind.toNat, (match a.target with
      | none => (⊥ : WithBot String) | some s => (s : WithBot String)))
      = (b.kind.toNat, (match b.target with
      | none => (⊥ : WithBot String) | some s => (s : WithBot String))) := by
    have := congrArg ofLex h
    simpa [TargetKey.enc] using this
  have h1 : a.kind = b.kind := Kind.toNat_inj (congrArg Prod.fst hp)
  have h2 := congrArg Prod.snd hp
  cases a with
  | mk ak at' =>
    cases b with
    | mk bk bt =>
      simp only at h1 h2
      subst h1
      cases at' with
      | none =>
        cases bt with
        | none => rfl
        | some s => exact absurd h2 (by exact fun hx => WithBot.bot_ne_coe hx)
      | some s =>
        cases bt with
        | none => exact absurd h2 (by exact fun hx => WithBot.coe_ne_bot hx)
        | some s' => exact congrArg _ (congrArg _ (WithBot.coe_inj.mp h2))

instance : LinearOrder TargetKey := LinearOrder.lift' TargetKey.enc TargetKey.enc_inj

/-- Kernel-computable comparison realising the derived `TargetKey` order. -/
def TargetKey.ltb (a b : TargetKey) : Bool :=
  if a.kind.toNat < b.kind.toNat then true
  else if b.kind.toNat < a.kind.toNat then false
  else
    match a.target, b.target with
    | none, none => false
    | none, some _ => true
    | some _, none => false
    | some s, some t => listLtb s.data t.data

instance : LtB TargetKey where
  ltb := TargetKey.ltb
  ltb_iff a b := by
    have henc : (a < b) ↔ TargetKey.enc a < TargetKey.enc b := Iff.rfl
    rw [henc]
    unfold TargetKey.enc
    rw [Prod.Lex.lt_iff]
    unfold TargetKey.ltb
    by_cases h1 : a.kind.toNat < b.kind.toNat
    · simp [h1]
    · rw [if_neg h1]
      by_cases h2 : b.kind.toNat < a.kind.toNat
      · rw [if_pos h2]
        simp only []
        constructor
        · intro h
          exact absurd h Bool.false_ne_true
        · intro h
          rcases h with h | ⟨heq, _⟩
          · exact absurd h h1
          · exact absurd h2 (heq ▸ lt_irrefl _)
      · rw [if_neg h2]
        have heq : a.kind.toNat = b.kind.toNat := le_antisymm (not_lt.mp h2) (not_lt.mp h1)
        simp only [heq, lt_irrefl, true_and, false_or]
        cases hat : a.target with
        | none =>
          cases hbt : b.target with
          | none =>
            constructor
            · intro h
              exact absurd h Bool.false_ne_true
            · intro h
              exact absurd h (lt_irrefl _)
          | some t =>
            constructor
            · intro _
              exact WithBot.bot_lt_coe t
            · intro _
              rfl
        | some s =>
          cases hbt : b.target with
          | none =>
            constructor
            · intro h
              exact absurd h Bool.false_ne_true
            · intro h
              exact absurd h (by simp)
          | some t =>
            constructor
            · intro h
              exact WithBot.coe_lt_coe.mpr ((LtB.ltb_iff s t).mp h)
            · intro h
              exact (LtB.ltb_iff s t).mpr (WithBot.coe_lt_coe.mp h)

/-! ## Stage 1: feature-spec parsing (`Resolver::parse_feature` / `parse_features`) -/

/-- The in-place update performed on an `enables_deps` entry by one action in
`Resolver::parse_feature`:
`entry(atarget).or_insert(DepAction { is_conditional, is_dep_only, .. })`
followed by
`if !is_conditional { is_conditional = false }`,
`if is_dep_only { is_dep_only = true }`,
`if let Some(df) = dep_feature { dep_features.insert(df) }`. -/
def parseFeatureDepUpdate (is_conditional is_dep_only : Bool) (dep_feature : Option String)
    (old : Option DepAction) : DepAction :=
  let a : DepAction :=
    match old with
    | some a => a
    | none => { is_conditional := is_conditional, is_dep_only := is_dep_only, dep_features := [] }
  let a := if !is_conditional then { a with is_conditional := false } else a
  let a := if is_dep_only then { a with is_dep_only := true } else a
  match dep_feature with
  | some df => { a with dep_features := insSorted df a.dep_features }
  | none => a

/-- `Resolver::parse_feature`: parse the action strings of one feature
declaration into a `Feature` node. -/
def parseFeature (feature_key : String) (actions : List String) : String × Feature :=
  let st := (actions.take MAX_ITEMS).foldl
    (fun (st : List (String × DepAction) × List String) action =>
      let br := breakSlash action.data
      let dep_feature := br.2
      let p1 := match stripDepColon br.1 with
        | some k => (k, true)
        | none => (br.1, false)
      let p2 := match stripQMark p1.1 with
        | some k => (k, true)
        | none => (p1.1, false)
      let atarget := String.mk p2.1
      let is_conditional := p2.2
      -- dep/feature is old syntax; it does not mean dep-only
      let is_dep_only := p1.2
      if is_dep_only || dep_feature.isSome then
        (alterS atarget
          (parseFeatureDepUpdate is_conditional is_dep_only (dep_feature.map String.mk)) st.1,
         st.2)
      else
        (st.1, insSorted atarget st.2))
    ([], [])
  (feature_key,
   { key := feature_key
     enables_features := st.2
     required_by_bins := []
     enables_deps := st.1
     explicit := true
     enabled_by := [] })

/-- `Resolver::parse_features`: parse every declared feature, chaining an
empty `"default"` when the manifest declared none. -/
def parseFeatures (entries : List (String × List String)) (has_explicit_default : Bool) :
    List (String × Feature) :=
  ((entries ++ (if has_explicit_default then ([] : List (String × List String))
      else [("default", ([] : List String))])).map
      (fun e => parseFeature e.1 e.2)).foldl
    (fun acc e => insertS e.1 e.2 acc) []

/-! ## Stage 2: dependency-only classification (`Resolver::named_using_dep_syntax`)

The Rust function iterates the features `HashMap` twice; here the iteration
order is the order of the `entries` argument. -/

/-- Which dependency names are affected by use of the dep-only marker.
Explicit feature keys are seeded `false`, then every `enables_deps` action
ORs in its `is_dep_only` flag. -/
def namedUsingDepSyn (entries : List (String × Feature)) : List (String × Bool) :=
  let seeded := entries.foldl (fun acc e => insertS e.1 false acc) []
  entries.foldl
    (fun acc e =>
      e.2.enables_deps.foldl
        (fun acc da =>
          alterS da.1
            (fun o =>
              match o with
              | some v => v || da.2.is_dep_only
              | none => da.2.is_dep_only) acc)
        acc)
    seeded

/-! ## Stage 3: dependency registration and implicit features
(`Resolver::add_dependency` / `add_implied_optional_deps` / `add_dependencies`) -/

/-- `Resolver::add_dependency`. -/
def addDependency (features : List (String × Feature))
    (deps_for_features : List (String × FeatureDependency))
    (named_uds : Option Bool) (dep_kind : Kind) (only_for_target : Option String)
    (key : String) (dep : Dependency) :
    List (String × Feature) × List (String × FeatureDependency) :=
  let is_optional := dep.optional
  if !is_optional && named_uds.isNone && (lookupS key deps_for_features).isNone then
    (features, deps_for_features)
  else
    let deps' := alterS key
      (fun o =>
        let entry := match o with
          | some e => e
          | none => { crate_name := (dep.package).getD key, targets := [] }
        { entry with
          targets := alterS ({ kind := dep_kind, target := only_for_target } : TargetKey)
            (fun t => match t with | some d => d | none => dep) entry.targets })
      deps_for_features
    let features' :=
      if is_optional && !(named_uds = some true : Bool) then
        alterS key
          (fun o =>
            match o with
            | some f => f
            | none =>
              { key := key
                enables_features := []
                enables_deps := [(key,
                  { is_dep_only := false, is_conditional := false, dep_features := [] })]
                explicit := false
                enabled_by := []
                required_by_bins := [] })
          features
      else features
    (features', deps')

/-- `Resolver::add_implied_optional_deps`: register every dependency of one
section (capped at `MAX_ITEMS`). -/
def addImpliedOptionalDeps (features : List (String × Feature))
    (deps_for_features : List (String × FeatureDependency))
    (crate_deps : List (String × Dependency)) (named : List (String × Bool))
    (dep_kind : Kind) (only_for_target : Option String) :
    List (String × Feature) × List (String × FeatureDependency) :=
  (crate_deps.take MAX_ITEMS).foldl
    (fun (st : List (String × Feature) × List (String × FeatureDependency)) e =>
      addDependency st.1 st.2 (lookupS e.1 named) dep_kind only_for_target e.1 e.2)
    (features, deps_for_features)

/-- `Resolver::add_dependencies`: all sections in the fixed order
normal, build, per-target (normal, build), dev, per-target dev.
`named` is `named_using_dep_syntax` of the current features (hoisted to a
parameter so its hash-iteration order can be made explicit in `parseWith`). -/
def addDependencies (named : List (String × Bool)) (features : List (String × Feature))
    (m : Manifest) : List (String × Feature) × List (String × FeatureDependency) :=
  let st := addImpliedOptionalDeps features [] m.dependencies named Kind.Normal none
  let st := addImpliedOptionalDeps st.1 st.2 m.build_dependencies named Kind.Build none
  let st := m.target.foldl
    (fun st tgt =>
      let st := addImpliedOptionalDeps st.1 st.2 tgt.2.dependencies named Kind.Normal (some tgt.1)
      addImpliedOptionalDeps st.1 st.2 tgt.2.build_dependencies named Kind.Build (some tgt.1))
    st
  let st := addImpliedOptionalDeps st.1 st.2 m.dev_dependencies named Kind.Dev none
  m.target.foldl
    (fun st tgt =>
      addImpliedOptionalDeps st.1 st.2 tgt.2.dev_dependencies named Kind.Dev (some tgt.1))
    st

/-! ## `Resolver::set_required_by_bins` -/

/-- Record, on each feature, the binaries that require it. -/
def setRequiredByBins (features : List (String × Feature)) (bin : List Product)
    (package_name : String) : List (String × Feature) :=
  bin.foldl
    (fun fs b =>
      b.required_features.foldl
        (fun fs f =>
          let bin_name := b.name.getD package_name
          modifyS f (fun ft => { ft with required_by_bins := ft.required_by_bins ++ [bin_name] }) fs)
        fs)
    features

/-! ## Stage 4: redundancy pruning
(`Resolver::remove_redundant_dep_action_features`) -/

/-- Drop `dep_features` entries duplicating the dependency's own declared
defaults or feature list. -/
def removeRedundantDepActionFeatures (features : List (String × Feature))
    (dependencies : List (String × FeatureDependency)) : List (String × Feature) :=
  mapValS
    (fun _ f =>
      { f with
        enables_deps := f.enables_deps.map
          (fun da =>
            if da.2.dep_features.isEmpty then da
            else
              match (lookupS da.1 dependencies).bind
                  (fun d => (d.dep).bind Dependency.detail) with
              | some dep =>
                (da.1,
                 { da.2 with
                   dep_features := da.2.dep_features.filter
                     (fun dep_f =>
                       (!dep.default_features || !(dep_f = "default" : Bool)) &&
                       !(dep.features.contains dep_f)) })
              | none => da) })
    features

/-! ## Stage 5: graph linking (`Resolver::set_enabled_by`)

The `all_enabled_by` accumulation iterates the features `HashMap`; the
iteration order is the `entries` argument. -/

/-- Accumulate the reverse-edge index `all_enabled_by`. -/
def allEnabledBy (entries : List (String × Feature)) : List (String × List String) :=
  entries.foldl
    (fun acc e =>
      let acc := e.2.enables_features.foldl
        (fun acc action_key =>
          if !(action_key = e.1 : Bool) then
            alterS action_key (fun o => insSorted e.1 (o.getD [])) acc
          else acc)
        acc
      e.2.enables_deps.foldl
        (fun acc da =>
          if !da.2.is_conditional && !da.2.is_dep_only && !(da.1 = e.1 : Bool) then
            alterS da.1 (fun o => insSorted e.1 (o.getD [])) acc
          else acc)
        acc)
    []

/-- `Resolver::set_enabled_by`: write the accumulated index back into the
features that exist. -/
def setEnabledBy (entries : List (String × Feature)) (features : List (String × Feature)) :
    List (String × Feature) :=
  (allEnabledBy entries).foldl
    (fun fs e => modifyS e.1 (fun f => { f with enabled_by := e.2 }) fs)
    features

/-! ## Stage 6: hidden-node inlining (`Resolver::remove_hidden_features`) -/

/-- The merge applied when splicing a hidden feature's dep action into a
predecessor that already has an action for the same key
(the `and_modify` closure in `remove_hidden_features`). -/
def spliceDepMerge (old ja : DepAction) : DepAction :=
  let old := if !ja.is_conditional then { old with is_conditional := false } else old
  let old := if ja.is_dep_only then { old with is_dep_only := true } else old
  { old with dep_features := unionS old.dep_features ja.dep_features }

/-- Remove one hidden feature, splicing its edges into its neighbours
(the body of the `features_to_remove` loop). -/
def removeOneHidden (st : List (String × Feature) × List (String × List String))
    (key : String) : List (String × Feature) × List (String × List String) :=
  match lookupS key st.1 with
  | none => st
  | some janky =>
    let fs := eraseKeyS key st.1
    let fs := janky.enabled_by.foldl
      (fun fs parent_key =>
        modifyS parent_key
          (fun parent =>
            let parent := { parent with enabled_by := eraseS janky.key parent.enabled_by }
            let parent := { parent with
              enables_features :=
                eraseS janky.key (unionS parent.enables_features janky.enables_features) }
            { parent with
              enables_deps := janky.enables_deps.foldl
                (fun ed ja =>
                  alterS ja.1
                    (fun o =>
                      match o with
                      | some old => spliceDepMerge old ja.2
                      | none => ja.2) ed)
                parent.enables_deps })
          fs)
      fs
    let fs := janky.enables_features.foldl
      (fun fs f =>
        modifyS f
          (fun child =>
            let child := { child with
              enabled_by := eraseS janky.key (unionS child.enabled_by janky.enabled_by) }
            { child with
              required_by_bins := (janky.required_by_bins.take 10).foldl
                (fun rb bin => if rb.contains bin then rb else rb ++ [bin])
                child.required_by_bins })
          fs)
      fs
    let fs := janky.enables_deps.foldl
      (fun fs da =>
        if !da.2.is_dep_only && !(janky.enables_features.contains da.1) then
          modifyS da.1
            (fun d =>
              { d with enabled_by := eraseS janky.key (unionS d.enabled_by janky.enabled_by) })
            fs
        else fs)
      fs
    (fs, alterS janky.key (fun o => unionS (o.getD []) janky.enables_features) st.2)

/-- `Resolver::remove_hidden_features`.  `candidate_keys` is the hash-order
iteration of `features.keys()`; the removal set itself is a sorted
`BTreeSet`, built here by sorted insertion. -/
def removeHiddenFeatures (r : Resolver) (candidate_keys : List String)
    (features : List (String × Feature)) :
    List (String × Feature) × List (String × List String) :=
  let features_to_remove := candidate_keys.foldl
    (fun acc k =>
      if kIsHidden k && !((r.always_keep).elim false (fun cb => cb k)) then insSorted k acc
      else acc)
    []
  if features_to_remove.isEmpty then (features, [])
  else features_to_remove.foldl removeOneHidden (features, [])

/-! ## The resolver entry point (`Resolver::parse`) -/

/-- `Resolver::parse`, with the three hash-iteration orders made explicit:
`σn` reorders the features entries seen by `named_using_dep_syntax`,
`σe` the entries seen by `set_enabled_by`, and `σh` the keys seen by
`remove_hidden_features`.  The canonical `parse` instantiates all three with
`id`; any functions producing permutations model other hash orders. -/
def Resolver.parseWith (r : Resolver)
    (σn σe : List (String × Feature) → List (String × Feature))
    (σh : List String → List String) (m : Manifest) : FeaturesResult :=
  let features := parseFeatures (m.features.take MAX_ITEMS)
    (containsKeyS "default" m.features)
  let named := namedUsingDepSyn (σn features)
  let st := addDependencies named features m
  let features := st.1
  let dependencies := st.2
  let features := setRequiredByBins features m.bin m.package_name
  let features := removeRedundantDepActionFeatures features dependencies
  let features := setEnabledBy (σe features) features
  let hf := removeHiddenFeatures r (σh (keysS features)) features
  { features := hf.1
    dependencies := dependencies
    removed_hidden_features := !hf.2.isEmpty
    hidden_features := hf.2 }

/-- `Resolver::parse` with the canonical (sorted) iteration orders. -/
def Resolver.parse (r : Resolver) (m : Manifest) : FeaturesResult :=
  r.parseWith id id id m

/-! ## Stage 7: closure computation (`Feature::enables_recursive`)

The Rust recursion is bounded by the visited set; the model carries explicit
fuel bounding the recursion depth (one unit per newly visited node), with
`none` marking fuel exhaustion.  `Feature.enablesRecursive` supplies fuel
strictly larger than any possible visit count. -/

/-- `Feature::add_to_set`.  The loop over `self.enables_features` is the
final fold, threading the two accumulators and recursing one fuel level
down for each newly visited feature. -/
def addToSet (features : List (String × Feature)) :
    Nat → Feature → List (String × Feature) →
    List (String × List (String × DepAction)) →
    Option (List (String × Feature) × List (String × List (String × DepAction)))
  | fuel, self, features_set, deps_set =>
    if (lookupS self.key features_set).isSome then some (features_set, deps_set)
    else
      match fuel with
      | 0 => none
      | fuel + 1 =>
        let features_set := insertS self.key self features_set
        let deps_set := self.enables_deps.foldl
          (fun ds da =>
            if !da.2.is_conditional then
              alterS da.1 (fun o => (o.getD []) ++ [(self.key, da.2)]) ds
            else ds)
          deps_set
        self.enables_features.foldl
          (fun acc c =>
            match acc with
            | none => none
            | some st =>
              match lookupS c features with
              | some f => addToSet features fuel f st.1 st.2
              | none => some st)
          (some (features_set, deps_set))

/-- `Feature::enables_recursive`.  The fuel `features.length + 2` strictly
exceeds the deepest possible recursion (each level inserts a fresh key drawn
from the stored features plus the start feature). -/
def Feature.enablesRecursive (self : Feature) (features : List (String × Feature)) :
    Option (List (String × Feature) × List (String × List (String × DepAction))) :=
  addToSet features (features.length + 2) self [] []

/-! ## Small helper lemmas about the micro-syntax functions -/

theorem breakSlash_of_not_mem (l : List Char) (h : '/' ∉ l) : breakSlash l = (l, none) := by
  induction l with
  | nil => rfl
  | cons c t ih =>
    have hc : ¬(c = '/') := fun hc => h (hc ▸ List.mem_cons_self c t)
    have ht : '/' ∉ t := fun hm => h (List.mem_cons_of_mem c hm)
    simp [breakSlash, hc, ih ht]

theorem stripQMark_append_q (l : List Char) : stripQMark (l ++ ['?']) = some l := by
  induction l with
  | nil => rfl
  | cons c t ih =>
    cases t with
    | nil => rfl
    | cons c' t' =>
      show (stripQMark ((c' :: t') ++ ['?'])).map (fun r => c :: r) = some (c :: c' :: t')
      rw [ih]
      rfl

theorem stripDepColon_append_q (l : List Char) (h : stripDepColon l = none) :
    stripDepColon (l ++ ['?']) = none := by
  match l with
  | [] => rfl
  | [a] => rfl
  | [a, b] => rfl
  | [a, b, c] =>
    show (if a = 'd' ∧ b = 'e' ∧ c = 'p' ∧ '?' = ':' then _ else none) = none
    simp
  | a :: b :: c :: d :: t =>
    show (if a = 'd' ∧ b = 'e' ∧ c = 'p' ∧ d = ':' then _ else none) = none
    by_cases hc : a = 'd' ∧ b = 'e' ∧ c = 'p' ∧ d = ':'
    · exact absurd h (by simp [stripDepColon, hc])
    · simp [hc]

/-! ## Claim C6 — the DepAction merge rule -/

/-- C6: when the same dependency key is referenced by several actions within
one feature, `parse_feature`'s entry update yields `is_conditional` false as
soon as any occurrence is unconditional, `is_dep_only` true as soon as any
occurrence sets it, and the union of the sub-feature names; the splice merge
used by `remove_hidden_features` obeys exactly the same rule. -/
theorem C6_depaction_merge :
    (∀ (a : DepAction) (c d : Bool) (df : Option String),
      parseFeatureDepUpdate c d df (some a) =
        { is_conditional := a.is_conditional && c
          is_dep_only := a.is_dep_only || d
          dep_features := match df with
            | some s => insSorted s a.dep_features
            | none => a.dep_features }) ∧
    (∀ old ja : DepAction,
      spliceDepMerge old ja =
        { is_conditional := old.is_conditional && ja.is_conditional
          is_dep_only := old.is_dep_only || ja.is_dep_only
          dep_features := unionS old.dep_features ja.dep_features }) := by
  constructor
  · intro a c d df
    cases c <;> cases d <;> cases df <;> cases a <;>
      simp [parseFeatureDepUpdate]
  · intro old ja
    cases hoc : ja.is_conditional <;> cases hod : ja.is_dep_only <;> cases old <;>
      simp_all [spliceDepMerge]

/-! ## Claim C5 — classification of a feature action (corrected) -/

/-- C5 counterexample: the action `"name?"` (bare name, trailing `?`, no
`dep:`, no `/`) is NOT recorded as a conditional `DepAction`; the parser
strips the `?` and records a plain feature-enables-feature edge to `"name"`. -/
theorem C5_counterexample :
    (parseFeature "f" ["name?"]).2.enables_deps = [] ∧
    (parseFeature "f" ["name?"]).2.enables_features = ["name"] := by
  constructor <;> rfl

/-- C5 (amended): an action is recorded as a `DepAction` iff its target part
carries a `dep:` marker or a sub-feature follows a `/`; a trailing `?` alone
does not force a `DepAction` — a bare name with a trailing `?` is recorded as
a plain feature edge with the `?` stripped. -/
theorem C5_amended :
    (∀ key nm : String, '/' ∉ nm.data → stripDepColon nm.data = none →
      (parseFeature key [nm ++ "?"]).2.enables_deps = [] ∧
      (parseFeature key [nm ++ "?"]).2.enables_features = [nm]) ∧
    (∀ key s : String,
      ¬((parseFeature key [s]).2.enables_deps = []) ↔
        ((stripDepColon (breakSlash s.data).1).isSome = true ∨
          (breakSlash s.data).2.isSome = true)) := by
  constructor
  · intro key nm hs hd
    have hdata : (nm ++ "?").data = nm.data ++ ['?'] := rfl
    have hnot : '/' ∉ nm.data ++ ['?'] := by
      intro hm
      rcases List.mem_append.mp hm with h | h
      · exact hs h
      · simp at h
    have hbs : breakSlash (nm.data ++ ['?']) = (nm.data ++ ['?'], none) :=
      breakSlash_of_not_mem _ hnot
    have hdc : stripDepColon (nm.data ++ ['?']) = none := stripDepColon_append_q _ hd
    have hq : stripQMark (nm.data ++ ['?']) = some nm.data := stripQMark_append_q _
    have hmk : String.mk nm.data = nm := by cases nm; rfl
    have htk : List.take MAX_ITEMS [nm ++ "?"] = [nm ++ "?"] := rfl
    constructor <;>
      · simp only [parseFeature]
        rw [htk]
        simp only [List.foldl_cons, List.foldl_nil]
        simp [hbs, hdc, hq, hmk, insSorted]
  · intro key s
    have htk : List.take MAX_ITEMS [s] = [s] := rfl
    cases hdc : stripDepColon (breakSlash s.data).1 with
    | some k =>
      simp only [parseFeature]
      rw [htk]
      simp only [List.foldl_cons, List.foldl_nil, hdc]
      cases hq : stripQMark k <;> simp [alterS]
    | none =>
      cases hb : (breakSlash s.data).2 with
      | some df =>
        simp only [parseFeature]
        rw [htk]
        simp only [List.foldl_cons, List.foldl_nil, hdc, hb]
        cases hq : stripQMark (breakSlash s.data).1 <;> simp [alterS]
      | none =>
        simp only [parseFeature]
        rw [htk]
        simp only [List.foldl_cons, List.foldl_nil, hdc, hb]
        cases hq : stripQMark (breakSlash s.data).1 <;> simp

/-- Witness for the amended C5 at the concrete action `"name?"`. -/
theorem C5_amended_witness :
    (parseFeature "f" ["name" ++ "?"]).2.enables_deps = [] ∧
    (parseFeature "f" ["name" ++ "?"]).2.enables_features = ["name"] :=
  C5_amended.1 "f" "name" (by decide) (by decide)

/-! ## Generic association-list lemmas -/

theorem lookupS_eq_none_of_all_ne {κ α : Type} [DecidableEq κ] {k : κ} {l : List (κ × α)}
    (h : ∀ e ∈ l, e.1 ≠ k) : lookupS k l = none := by
  induction l with
  | nil => rfl
  | cons e t ih =>
    have hne : ¬(k = e.1) := fun hk => h e (List.mem_cons_self e t) hk.symm
    simp only [lookupS, if_neg hne]
    exact ih (fun e' he' => h e' (List.mem_cons_of_mem e he'))

/-! ## A manifest with `MAX_ITEMS` features, for cap-related statements -/

/-- The i-th filler feature name: `'a'` followed by four decimal digits,
so all filler names are five characters long. -/
def numKey (n : Nat) : String :=
  ⟨['a', Char.ofNat (48 + n / 1000 % 10), Char.ofNat (48 + n / 100 % 10),
    Char.ofNat (48 + n / 10 % 10), Char.ofNat (48 + n % 10)]⟩

/-- `MAX_ITEMS` filler features `a0000 < a0001 < ...` (in sorted order), all
sorting before `"default"`. -/
def manyFeatures : List (String × List String) :=
  (List.range MAX_ITEMS).map (fun i => (numKey i, []))

theorem numKey_ne_default (n : Nat) : numKey n ≠ "default" := by
  intro h
  have : (numKey n).data.length = ("default" : String).data.length := congrArg (·.data.length) h
  simp [numKey] at this

theorem manyFeatures_no_default : ∀ e ∈ manyFeatures, e.1 ≠ "default" := by
  intro e he
  obtain ⟨i, _, rfl⟩ := List.mem_map.mp he
  exact numKey_ne_default i

theorem manyFeatures_length : manyFeatures.length = MAX_ITEMS := by
  simp [manyFeatures]

/-! ## Claim C8 — totality, malformed-target handling, and cap truncation -/

/-- C8: the resolver is total and degrades gracefully: (1) an action with an
empty target before `/` is recorded under the empty-string key rather than
rejected; (2) each feature's action list is processed only up to `MAX_ITEMS`;
(3) each dependency section is processed only up to `MAX_ITEMS`; (4) `parse`
reads the feature section only through its first `MAX_ITEMS` entries (plus
the full-map `"default"` membership test), so oversized feature sections are
silently truncated, never an error. -/
theorem C8_total_truncating :
    ((parseFeature "f" ["/sub"]).2.enables_deps =
      [("", { is_conditional := false, is_dep_only := false, dep_features := ["sub"] })]) ∧
    (∀ (key : String) (actions : List String),
      parseFeature key actions = parseFeature key (actions.take MAX_ITEMS)) ∧
    (∀ (features : List (String × Feature)) (deps : List (String × FeatureDependency))
        (crate_deps : List (String × Dependency)) (named : List (String × Bool))
        (kind : Kind) (tgt : Option String),
      addImpliedOptionalDeps features deps crate_deps named kind tgt =
        addImpliedOptionalDeps features deps (crate_deps.take MAX_ITEMS) named kind tgt) ∧
    (∀ (r : Resolver) (m₁ m₂ : Manifest),
      m₁.features.take MAX_ITEMS = m₂.features.take MAX_ITEMS →
      containsKeyS "default" m₁.features = containsKeyS "default" m₂.features →
      m₁.package_name = m₂.package_name → m₁.dependencies = m₂.dependencies →
      m₁.build_dependencies = m₂.build_dependencies →
      m₁.dev_dependencies = m₂.dev_dependencies →
      m₁.target = m₂.target → m₁.bin = m₂.bin →
      r.parse m₁ = r.parse m₂) := by
  refine ⟨rfl, ?_, ?_, ?_⟩
  · intro key actions
    simp [parseFeature, List.take_take]
  · intro features deps crate_deps named kind tgt
    simp [addImpliedOptionalDeps, List.take_take]
  · intro r m₁ m₂ h1 h2 h3 h4 h5 h6 h7 h8
    obtain ⟨p1, f1, d1, b1, v1, t1, bin1⟩ := m₁
    obtain ⟨p2, f2, d2, b2, v2, t2, bin2⟩ := m₂
    simp only at h1 h2 h3 h4 h5 h6 h7 h8
    subst h3 h4 h5 h6 h7 h8
    simp only [Resolver.parse, Resolver.parseWith, addDependencies, h1, h2]

set_option maxRecDepth 8000 in
/-- Witness for C8 at a concrete oversized input: a feature section of
`MAX_ITEMS + 1` entries parses identically to its first `MAX_ITEMS` entries. -/
theorem C8_witness :
    Resolver.parse { always_keep := none }
      { package_name := "p", features := manyFeatures ++ [("zz", [])], dependencies := [],
        build_dependencies := [], dev_dependencies := [], target := [], bin := [] } =
    Resolver.parse { always_keep := none }
      { package_name := "p", features := manyFeatures, dependencies := [],
        build_dependencies := [], dev_dependencies := [], target := [], bin := [] } := by
  have hlen : manyFeatures.length = MAX_ITEMS := manyFeatures_length
  have htake : (manyFeatures ++ [(("zz" : String), ([] : List String))]).take MAX_ITEMS
      = manyFeatures.take MAX_ITEMS := by
    rw [← hlen, List.take_left, List.take_length]
  have hcontains : containsKeyS "default" (manyFeatures ++ [(("zz" : String), ([] : List String))])
      = containsKeyS "default" manyFeatures := by
    have h1 : lookupS "default" (manyFeatures ++ [(("zz" : String), ([] : List String))]) = none := by
      refine lookupS_eq_none_of_all_ne ?_
      intro e he
      rcases List.mem_append.mp he with h | h
      · exact manyFeatures_no_default e h
      · rcases List.mem_singleton.mp h with rfl
        decide
    have h2 : lookupS "default" manyFeatures = none :=
      lookupS_eq_none_of_all_ne manyFeatures_no_default
    simp [containsKeyS, h1, h2]
  exact C8_total_truncating.2.2.2 _ _ _ htake hcontains rfl rfl rfl rfl rfl rfl

/-! ## Membership structure of `alterS` -/

theorem mem_alterS {κ α : Type} [DecidableEq κ] [LinearOrder κ] [LtB κ] {k : κ} {f : Option α → α}
    {l : List (κ × α)} :
    ∀ e ∈ alterS k f l,
      e ∈ l ∨ e = (k, f none) ∨ ∃ v, (k, v) ∈ l ∧ e = (k, f (some v)) := by
  induction l with
  | nil =>
    intro e he
    unfold alterS at he
    exact Or.inr (Or.inl (List.mem_singleton.mp he))
  | cons x t ih =>
    intro e he
    unfold alterS at he
    by_cases h1 : LtB.ltb k x.1 = true
    · rw [if_pos h1] at he
      rcases List.mem_cons.mp he with he | he
      · exact Or.inr (Or.inl he)
      · exact Or.inl he
    · rw [if_neg h1] at he
      by_cases h2 : k = x.1
      · rw [if_pos h2] at he
        rcases List.mem_cons.mp he with he | he
        · refine Or.inr (Or.inr ⟨x.2, ?_, ?_⟩)
          · rw [h2]
            exact List.mem_cons_self x t
          · rw [he, h2]
        · exact Or.inl (List.mem_cons_of_mem x he)
      · rw [if_neg h2] at he
        rcases List.mem_cons.mp he with he | he
        · exact Or.inl (he ▸ List.mem_cons_self x t)
        · rcases ih e he with h | h | ⟨v, hv, he'⟩
          · exact Or.inl (List.mem_cons_of_mem x h)
          · exact Or.inr (Or.inl h)
          · exact Or.inr (Or.inr ⟨v, List.mem_cons_of_mem x hv, he'⟩)

/-! ## Claim C3 — cycle-safe closure computation -/

/-- The invariant tracked through the closure walk: every dep-set entry holds
only unconditional actions. -/
def DepsAllUncond (ds : List (String × List (String × DepAction))) : Prop :=
  ∀ e ∈ ds, ∀ x ∈ e.2, x.2.is_conditional = false

theorem depsAllUncond_push (key : String) (deps : List (String × DepAction))
    (dset : List (String × List (String × DepAction))) (h : DepsAllUncond dset) :
    DepsAllUncond (deps.foldl
      (fun ds da =>
        if !da.2.is_conditional then
          alterS da.1 (fun o => (o.getD []) ++ [(key, da.2)]) ds
        else ds)
      dset) := by
  induction deps generalizing dset with
  | nil => exact h
  | cons da rest ih =>
    simp only [List.foldl_cons]
    refine ih _ ?_
    by_cases hc : !da.2.is_conditional
    · simp only [if_pos hc]
      intro e he x hx
      rcases mem_alterS e he with hm | hm | ⟨v, hv, he'⟩
      · exact h e hm x hx
      · rw [hm] at hx
        simp only [Option.getD_none, List.nil_append, List.mem_singleton] at hx
        subst hx
        simpa using hc
      · rw [he'] at hx
        simp only [Option.getD_some, List.mem_append, List.mem_singleton] at hx
        rcases hx with hx | hx
        · exact h (da.1, v) hv x hx
        · subst hx
          simpa using hc
    · simp only [if_neg hc]
      exact h

theorem addToSet_uncond :
    ∀ (fuel : Nat) (features : List (String × Feature)) (self : Feature) fset dset out,
      addToSet features fuel self fset dset = some out →
      DepsAllUncond dset → DepsAllUncond out.2 := by
  intro fuel
  induction fuel with
  | zero =>
    intro features self fset dset out h hP
    unfold addToSet at h
    by_cases hc : (lookupS self.key fset).isSome
    · rw [if_pos hc] at h
      cases h
      exact hP
    · rw [if_neg hc] at h
      exact Option.noConfusion h
  | succ n ihn =>
    intro features self fset dset out h hP
    unfold addToSet at h
    by_cases hc : (lookupS self.key fset).isSome
    · rw [if_pos hc] at h
      cases h
      exact hP
    · rw [if_neg hc] at h
      have hstep : ∀ (children : List String)
          (acc : Option (List (String × Feature) × List (String × List (String × DepAction)))),
          children.foldl
            (fun acc c =>
              match acc with
              | none => none
              | some st =>
                match lookupS c features with
                | some f => addToSet features n f st.1 st.2
                | none => some st) acc = some out →
          (∀ st, acc = some st → DepsAllUncond st.2) → DepsAllUncond out.2 := by
        intro children
        induction children with
        | nil =>
          intro acc hfold hacc
          exact hacc out hfold
        | cons c rest ih =>
          intro acc hfold hacc
          rw [List.foldl_cons] at hfold
          refine ih _ hfold ?_
          intro st hst
          cases acc with
          | none => exact Option.noConfusion hst
          | some st0 =>
            have hP0 := hacc st0 rfl
            cases hl : lookupS c features with
            | some f =>
              simp only [hl] at hst
              exact ihn features f st0.1 st0.2 st hst hP0
            | none =>
              simp only [hl] at hst
              cases hst
              exact hP0
      exact hstep self.enables_features _ h
        (fun st hst => by
          cases hst
          exact depsAllUncond_push self.key self.enables_deps dset hP)

/-- The three-feature cycle `A enables B`, `B enables C`, `C enables A`. -/
def c3CycleFeatures : List (String × Feature) :=
  parseFeatures [("A", ["B"]), ("B", ["C"]), ("C", ["A"])] true

/-- C3: on the cycle `A → B → C → A`, `enables_recursive` from each of the
three features terminates (returns `some`) with feature set exactly
`{A, B, C}`; and in general the dependency half of any `enables_recursive`
result contains only unconditional actions. -/
theorem C3_cycle_closure :
    ((lookupS "A" c3CycleFeatures).bind
        (fun f => (f.enablesRecursive c3CycleFeatures).map (fun p => keysS p.1)) =
      some ["A", "B", "C"]) ∧
    ((lookupS "B" c3CycleFeatures).bind
        (fun f => (f.enablesRecursive c3CycleFeatures).map (fun p => keysS p.1)) =
      some ["A", "B", "C"]) ∧
    ((lookupS "C" c3CycleFeatures).bind
        (fun f => (f.enablesRecursive c3CycleFeatures).map (fun p => keysS p.1)) =
      some ["A", "B", "C"]) ∧
    (∀ (features : List (String × Feature)) (self : Feature) out,
      self.enablesRecursive features = some out →
      ∀ e ∈ out.2, ∀ x ∈ e.2, x.2.is_conditional = false) := by
  refine ⟨by decide, by decide, by decide, ?_⟩
  intro features self out h
  exact addToSet_uncond (features.length + 2) features self [] [] out h
    (fun e he => absurd he (List.not_mem_nil e))

/-- Two features with an unconditional dependency edge, for the C3 witness. -/
def c3DepFeatures : List (String × Feature) :=
  parseFeatures [("A", ["B", "d/x"]), ("B", ["A"])] true

/-- Witness for C3's general half: the action collected for dependency `d`
when walking from `A` in `c3DepFeatures` is unconditional. -/
theorem C3_witness :
    ({ is_conditional := false, is_dep_only := false,
       dep_features := ["x"] } : DepAction).is_conditional = false :=
  C3_cycle_closure.2.2.2 c3DepFeatures (parseFeature "A" ["B", "d/x"]).2
    ([("A", (parseFeature "A" ["B", "d/x"]).2),
      ("B", (parseFeature "B" ["A"]).2)],
     [("d", [("A", { is_conditional := false, is_dep_only := false, dep_features := ["x"] })])])
    (by decide)
    ("d", [("A", { is_conditional := false, is_dep_only := false, dep_features := ["x"] })])
    (by decide)
    ("A", { is_conditional := false, is_dep_only := false, dep_features := ["x"] })
    (by decide)

/-! ## Sortedness of association lists -/

/-- The key list is strictly increasing (the `BTreeMap` invariant). -/
def KeysSorted {κ α : Type} [LinearOrder κ] (l : List (κ × α)) : Prop :=
  (keysS l).Chain' (· < ·)

theorem alterS_ne_nil {κ α : Type} [DecidableEq κ] [LinearOrder κ] [LtB κ]
    (k : κ) (f : Option α → α) (l : List (κ × α)) : alterS k f l ≠ [] := by
  cases l with
  | nil => simp [alterS]
  | cons e t =>
    unfold alterS
    by_cases h1 : LtB.ltb k e.1 = true
    · simp [h1]
    · rw [if_neg h1]
      by_cases h2 : k = e.1
      · simp [h2]
      · simp [h2]

theorem head_key_alterS {κ α : Type} [DecidableEq κ] [LinearOrder κ] [LtB κ]
    (k : κ) (f : Option α → α) (t : List (κ × α)) :
    (alterS k f t).head?.map Prod.fst = some k ∨
    (alterS k f t).head?.map Prod.fst = t.head?.map Prod.fst := by
  cases t with
  | nil => exact Or.inl rfl
  | cons e t =>
    unfold alterS
    by_cases h1 : LtB.ltb k e.1 = true
    · rw [if_pos h1]
      exact Or.inl rfl
    · rw [if_neg h1]
      by_cases h2 : k = e.1
      · rw [if_pos h2]
        exact Or.inr rfl
      · rw [if_neg h2]
        exact Or.inr rfl

theorem keysSorted_alterS {κ α : Type} [DecidableEq κ] [LinearOrder κ] [LtB κ]
    (k : κ) (f : Option α → α) :
    ∀ l : List (κ × α), KeysSorted l → KeysSorted (alterS k f l) := by
  intro l
  induction l with
  | nil =>
    intro _
    unfold alterS KeysSorted keysS
    simp
  | cons e t ih =>
    intro h
    have hk : keysS (e :: t) = e.1 :: keysS t := rfl
    have hchain : (e.1 :: keysS t).Chain' (· < ·) := h
    have htail : (keysS t).Chain' (· < ·) := hchain.tail
    unfold alterS
    by_cases h1 : LtB.ltb k e.1 = true
    · rw [if_pos h1]
      have hklt : k < e.1 := ltb_iff_lt.mp h1
      show ((k, f none).1 :: keysS (e :: t)).Chain' (· < ·)
      rw [hk]
      exact List.Chain'.cons hklt hchain
    · rw [if_neg h1]
      by_cases h2 : k = e.1
      · rw [if_pos h2]
        exact h
      · rw [if_neg h2]
        have hlt : e.1 < k := by
          rcases lt_trichotomy k e.1 with hc | hc | hc
          · exact absurd (ltb_iff_lt.mpr hc) h1
          · exact absurd hc h2
          · exact hc
        show (e.1 :: keysS (alterS k f t)).Chain' (· < ·)
        rw [List.chain'_cons']
        refine ⟨?_, ih htail⟩
        intro y hy
        rw [show keysS (alterS k f t) = (alterS k f t).map Prod.fst from rfl,
          List.head?_map] at hy
        have hy' : (alterS k f t).head?.map Prod.fst = some y := Option.mem_def.mp hy
        rcases head_key_alterS k f t with hc | hc
        · rw [hy'] at hc
          injection hc with hv
          rw [hv]
          exact hlt
        · rw [hy'] at hc
          cases t with
          | nil =>
            simp at hc
          | cons e2 t2 =>
            simp only [List.head?_cons, Option.map_some] at hc
            have : y = e2.1 := by injection hc
            rw [this]
            exact (List.chain'_cons.mp hchain).1

theorem lookupS_mem {κ α : Type} [DecidableEq κ] {k : κ} {v : α} :
    ∀ {l : List (κ × α)}, lookupS k l = some v → (k, v) ∈ l := by
  intro l
  induction l with
  | nil => intro h; exact absurd h (by simp [lookupS])
  | cons e t ih =>
    intro h
    unfold lookupS at h
    by_cases he : k = e.1
    · rw [if_pos he] at h
      have : v = e.2 := by injection h; simp_all
      rw [he, this]
      exact List.mem_cons_self e t
    · rw [if_neg he] at h
      exact List.mem_cons_of_mem e (ih h)

/-! ## Claim C10 — resolver-produced dependencies have usable `detail()` -/

/-- Well-formedness of the dependencies map: every stored `FeatureDependency`
has a non-empty, key-sorted `targets` map. -/
def DepsWF (deps : List (String × FeatureDependency)) : Prop :=
  ∀ e ∈ deps, e.2.targets ≠ [] ∧ KeysSorted e.2.targets

theorem addDependency_wf (features : List (String × Feature))
    (deps : List (String × FeatureDependency)) (named_uds : Option Bool) (dep_kind : Kind)
    (only_for_target : Option String) (key : String) (dep : Dependency)
    (h : DepsWF deps) :
    DepsWF (addDependency features deps named_uds dep_kind only_for_target key dep).2 := by
  unfold addDependency
  by_cases hret : (!dep.optional && named_uds.isNone &&
      (lookupS key deps).isNone : Bool) = true
  · rw [if_pos hret]
    exact h
  · rw [if_neg hret]
    simp only []
    intro e he
    rcases mem_alterS e he with hm | hm | ⟨v, hv, hm⟩
    · exact h e hm
    · rw [hm]
      refine ⟨alterS_ne_nil _ _ _, keysSorted_alterS _ _ _ ?_⟩
      unfold KeysSorted keysS
      simp
    · rw [hm]
      exact ⟨alterS_ne_nil _ _ _, keysSorted_alterS _ _ _ (h (key, v) hv).2⟩

theorem addImplied_wf (features : List (String × Feature))
    (deps : List (String × FeatureDependency)) (crate_deps : List (String × Dependency))
    (named : List (String × Bool)) (dep_kind : Kind) (only_for_target : Option String)
    (h : DepsWF deps) :
    DepsWF (addImpliedOptionalDeps features deps crate_deps named dep_kind only_for_target).2 := by
  unfold addImpliedOptionalDeps
  generalize (crate_deps.take MAX_ITEMS) = l
  induction l generalizing features deps with
  | nil => exact h
  | cons e t ih =>
    simp only [List.foldl_cons]
    exact ih _ _ (addDependency_wf _ _ _ _ _ _ _ h)

theorem addDependencies_wf (named : List (String × Bool))
    (features : List (String × Feature)) (m : Manifest) :
    DepsWF (addDependencies named features m).2 := by
  unfold addDependencies
  have h0 : DepsWF ([] : List (String × FeatureDependency)) := by
    intro e he
    exact absurd he (List.not_mem_nil e)
  have hTgt1 : ∀ (tl : List (String × TargetDeps))
      (st : List (String × Feature) × List (String × FeatureDependency)), DepsWF st.2 →
      DepsWF ((tl.foldl (fun st tgt =>
        let st := addImpliedOptionalDeps st.1 st.2 tgt.2.dependencies named Kind.Normal (some tgt.1)
        addImpliedOptionalDeps st.1 st.2 tgt.2.build_dependencies named Kind.Build
          (some tgt.1)) st)).2 := by
    intro tl
    induction tl with
    | nil => intro st h; exact h
    | cons tgt tl ih =>
      intro st h
      simp only [List.foldl_cons]
      exact ih _ (addImplied_wf _ _ _ _ _ _ (addImplied_wf _ _ _ _ _ _ h))
  have hTgt2 : ∀ (tl : List (String × TargetDeps))
      (st : List (String × Feature) × List (String × FeatureDependency)), DepsWF st.2 →
      DepsWF ((tl.foldl (fun st tgt =>
        addImpliedOptionalDeps st.1 st.2 tgt.2.dev_dependencies named Kind.Dev
          (some tgt.1)) st)).2 := by
    intro tl
    induction tl with
    | nil => intro st h; exact h
    | cons tgt tl ih =>
      intro st h
      simp only [List.foldl_cons]
      exact ih _ (addImplied_wf _ _ _ _ _ _ h)
  exact hTgt2 m.target _
    (addImplied_wf _ _ _ _ _ _
      (hTgt1 m.target _
        (addImplied_wf _ _ _ _ _ _
          (addImplied_wf _ _ _ _ _ _ h0))))

/-- C10: every `FeatureDependency` in `parse`'s dependencies map has a
non-empty `targets` map, so `detail()`/`dep()` never panic (never hit the
modelled `none`), and `detail()` returns the entry whose `TargetKey` is
smallest in the derived order (`Normal < Build < Dev`, untargeted before
targeted within a kind). -/
theorem C10_detail_min :
    ∀ (r : Resolver) (m : Manifest) (k : String) (fd : FeatureDependency),
      lookupS k (r.parse m).dependencies = some fd →
      fd.targets ≠ [] ∧
      ∃ tk d rest, fd.targets = (tk, d) :: rest ∧
        FeatureDependency.detail fd = some (d, tk.kind) ∧
        FeatureDependency.dep fd = some d ∧
        ∀ p ∈ fd.targets, tk ≤ p.1 := by
  intro r m k fd hl
  have hdeps : (r.parse m).dependencies =
      (addDependencies (namedUsingDepSyn (parseFeatures (m.features.take MAX_ITEMS)
        (containsKeyS "default" m.features)))
        (parseFeatures (m.features.take MAX_ITEMS) (containsKeyS "default" m.features)) m).2 :=
    rfl
  rw [hdeps] at hl
  have hwf := addDependencies_wf _ _ m (e := (k, fd)) (lookupS_mem hl)
  have hne : fd.targets ≠ [] := hwf.1
  have hsort : KeysSorted fd.targets := hwf.2
  cases ht : fd.targets with
  | nil => exact absurd ht hne
  | cons e rest =>
    obtain ⟨tk, d⟩ := e
    rw [ht] at hsort
    refine ⟨List.cons_ne_nil _ _, tk, d, rest, rfl, ?_, ?_, ?_⟩
    · unfold FeatureDependency.detail
      rw [ht]
    · unfold FeatureDependency.dep FeatureDependency.detail
      rw [ht]
      rfl
    · intro p hp
      rcases List.mem_cons.mp hp with hp | hp
      · rw [hp]
      · unfold KeysSorted at hsort
        simp only [keysS, List.map_cons] at hsort
        have hpair := List.chain'_iff_pairwise.mp hsort
        have hall := (List.pairwise_cons.mp hpair).1
        exact le_of_lt (hall p.1 (List.mem_map_of_mem Prod.fst hp))

/-- Witness for C10 at a concrete manifest with one optional dependency
declared in two sections: `detail()` picks the `Normal` entry. -/
theorem C10_witness :
    ((lookupS "d" ((Resolver.mk none).parse
      { package_name := "p", features := [],
        dependencies := [("d", Dependency.Detailed
          { package := none, optional := true, default_features := true, features := [] })],
        build_dependencies := [("d", Dependency.Detailed
          { package := none, optional := true, default_features := true, features := [] })],
        dev_dependencies := [], target := [], bin := [] }).dependencies).map
      (fun fd => fd.targets ≠ [])) = some True := by
  have h := C10_detail_min (Resolver.mk none)
    { package_name := "p", features := [],
      dependencies := [("d", Dependency.Detailed
        { package := none, optional := true, default_features := true, features := [] })],
      build_dependencies := [("d", Dependency.Detailed
        { package := none, optional := true, default_features := true, features := [] })],
      dev_dependencies := [], target := [], bin := [] } "d"
  cases hl : lookupS "d" ((Resolver.mk none).parse
      { package_name := "p", features := [],
        dependencies := [("d", Dependency.Detailed
          { package := none, optional := true, default_features := true, features := [] })],
        build_dependencies := [("d", Dependency.Detailed
          { package := none, optional := true, default_features := true, features := [] })],
        dev_dependencies := [], target := [], bin := [] }).dependencies with
  | none => exact absurd hl (by decide)
  | some fd =>
    have := (h fd hl).1
    simp [this]

/-! ## Lookup lemmas for the container operations -/

theorem lookup_alterS_ne {κ α : Type} [DecidableEq κ] [LinearOrder κ] [LtB κ]
    {kd k : κ} (hne : kd ≠ k) (g : Option α → α) :
    ∀ l : List (κ × α), lookupS kd (alterS k g l) = lookupS kd l := by
  intro l
  induction l with
  | nil => simp [alterS, lookupS, hne]
  | cons e t ih =>
    by_cases h1 : LtB.ltb k e.1 = true
    · simp [alterS, h1, lookupS, hne]
    · by_cases h2 : k = e.1
      · simp [alterS, h1, h2, lookupS, hne, h2 ▸ hne]
      · simp [alterS, h1, h2, lookupS, ih]

theorem lookupS_none_of_lt_head {κ α : Type} [DecidableEq κ] [LinearOrder κ]
    {k : κ} {l : List (κ × α)}
    (hlt : ∀ x ∈ keysS l, k < x) : lookupS k l = none := by
  refine lookupS_eq_none_of_all_ne ?_
  intro e he hk
  exact absurd (hlt e.1 (List.mem_map_of_mem Prod.fst he)) (hk ▸ lt_irrefl _)

theorem lookup_alterS_self {κ α : Type} [DecidableEq κ] [LinearOrder κ] [LtB κ]
    (k : κ) (g : Option α → α) :
    ∀ l : List (κ × α), KeysSorted l →
      lookupS k (alterS k g l) = some (g (lookupS k l)) := by
  intro l
  induction l with
  | nil =>
    intro _
    simp [alterS, lookupS]
  | cons e t ih =>
    intro hs
    have hchain : (e.1 :: keysS t).Chain' (· < ·) := hs
    by_cases h1 : LtB.ltb k e.1 = true
    · have hklt : k < e.1 := ltb_iff_lt.mp h1
      have hne : ¬(k = e.1) := fun hc => absurd hklt (hc ▸ lt_irrefl _)
      have hnone : lookupS k (e :: t) = none := by
        refine lookupS_none_of_lt_head ?_
        intro x hx
        rcases List.mem_cons.mp hx with hx | hx
        · rw [hx]; exact hklt
        · have hpair := List.chain'_iff_pairwise.mp hchain
          exact lt_trans hklt ((List.pairwise_cons.mp hpair).1 x hx)
      rw [hnone]
      simp [alterS, h1, lookupS]
    · by_cases h2 : k = e.1
      · simp [alterS, h1, h2, lookupS]
      · simp [alterS, h1, h2, lookupS, ih hchain.tail]

theorem lookup_modifyS {κ α : Type} [DecidableEq κ] (kd k : κ) (g : α → α) :
    ∀ l : List (κ × α),
      lookupS kd (modifyS k g l) = if kd = k then (lookupS kd l).map g else lookupS kd l := by
  intro l
  induction l with
  | nil =>
    by_cases h : kd = k <;> simp [modifyS, lookupS, h]
  | cons e t ih =>
    by_cases h1 : e.1 = k
    · by_cases h2 : kd = e.1
      · simp [modifyS, h1, lookupS, h2, h2.trans h1]
      · have h3 : ¬(kd = k) := fun hc => h2 (hc.trans h1.symm)
        simp [modifyS, h1, lookupS, h2, h3]
    · by_cases h2 : kd = e.1
      · have h3 : ¬(kd = k) := fun hc => h1 (h2 ▸ hc.symm ▸ rfl)
        simp [modifyS, h1, lookupS, h2, h3]
      · simp [modifyS, h1, lookupS, h2, ih]

theorem lookup_mapValS {κ α : Type} [DecidableEq κ] (kd : κ) (g : κ → α → α) :
    ∀ l : List (κ × α),
      lookupS kd (mapValS g l) = (lookupS kd l).map (g kd) := by
  intro l
  induction l with
  | nil => rfl
  | cons e t ih =>
    by_cases h : kd = e.1
    · simp [mapValS, lookupS, h]
    · simp only [mapValS, List.map_cons]
      show lookupS kd ((e.1, g e.1 e.2) :: mapValS g t) = _
      simp [lookupS, h, ih]

theorem lookup_eraseKeyS {κ α : Type} [DecidableEq κ] (kd k : κ) :
    ∀ l : List (κ × α),
      lookupS kd (eraseKeyS k l) = if kd = k then none else lookupS kd l := by
  intro l
  induction l with
  | nil =>
    by_cases h : kd = k <;> simp [eraseKeyS, lookupS, h]
  | cons e t ih =>
    by_cases h2 : kd = k
    · subst h2
      by_cases h1 : e.1 = kd
      · simp [eraseKeyS, h1, ih]
      · have h4 : ¬(kd = e.1) := fun hc => h1 hc.symm
        simp [eraseKeyS, h1, lookupS, h4, ih]
    · by_cases h1 : e.1 = k
      · have h4 : ¬(kd = e.1) := fun hc => h2 (hc.trans h1)
        simp [eraseKeyS, h1, ih, h2, lookupS, h4]
      · by_cases h3 : kd = e.1
        · simp [eraseKeyS, h1, lookupS, h3, h2]
        · simp [eraseKeyS, h1, lookupS, h3, h2, ih]

/-! ## Generic fold-preservation lemmas -/

theorem foldl_preserves {γ β : Type} {P : γ → Prop} {step : γ → β → γ}
    (hstep : ∀ acc x, P acc → P (step acc x)) :
    ∀ (xs : List β) (acc : γ), P acc → P (xs.foldl step acc) := by
  intro xs
  induction xs with
  | nil => intro acc h; exact h
  | cons x t ih =>
    intro acc h
    simp only [List.foldl_cons]
    exact ih _ (hstep acc x h)

theorem foldl_preserves_mem {γ β : Type} {P : γ → Prop} {step : γ → β → γ} :
    ∀ (xs : List β), (∀ acc x, x ∈ xs → P acc → P (step acc x)) →
    ∀ (acc : γ), P acc → P (xs.foldl step acc) := by
  intro xs
  induction xs with
  | nil => intro _ acc h; exact h
  | cons x t ih =>
    intro hstep acc h
    simp only [List.foldl_cons]
    exact ih (fun acc y hy => hstep acc y (List.mem_cons_of_mem x hy)) _
      (hstep acc x (List.mem_cons_self x t) h)

/-! ## Sortedness of the pipeline's maps -/

theorem keysSorted_nil {κ α : Type} [LinearOrder κ] : KeysSorted ([] : List (κ × α)) := by
  unfold KeysSorted keysS
  simp

theorem keysSorted_insertS {κ α : Type} [DecidableEq κ] [LinearOrder κ] [LtB κ]
    (k : κ) (v : α) (l : List (κ × α)) (h : KeysSorted l) : KeysSorted (insertS k v l) :=
  keysSorted_alterS _ _ _ h

theorem keysSorted_parseFeatures (l : List (String × List String)) (hd : Bool) :
    KeysSorted (parseFeatures l hd) := by
  unfold parseFeatures
  exact @foldl_preserves _ _ KeysSorted _ (fun acc e h => keysSorted_insertS _ _ _ h) _ _
    keysSorted_nil

theorem keysSorted_namedUsingDepSyn (entries : List (String × Feature)) :
    KeysSorted (namedUsingDepSyn entries) := by
  unfold namedUsingDepSyn
  refine @foldl_preserves _ _ KeysSorted _ (fun acc e h => ?_) _ _
    (@foldl_preserves _ _ KeysSorted _ (fun acc e h => keysSorted_insertS _ _ _ h) _ _
      keysSorted_nil)
  exact @foldl_preserves _ _ KeysSorted _ (fun acc da h => keysSorted_alterS _ _ _ h) _ _ h

/-! ## Characterisation of `named_using_dep_syntax` (the dep-only direction) -/

theorem named_inner_true (kd : String) :
    ∀ (das : List (String × DepAction)) (acc : List (String × Bool)),
      KeysSorted acc → lookupS kd acc = some true →
      lookupS kd (das.foldl
        (fun acc da =>
          alterS da.1
            (fun o =>
              match o with
              | some v => v || da.2.is_dep_only
              | none => da.2.is_dep_only) acc)
        acc) = some true := by
  intro das
  induction das with
  | nil => intro acc _ h; exact h
  | cons da rest ih =>
    intro acc hs h
    simp only [List.foldl_cons]
    refine ih _ (keysSorted_alterS _ _ _ hs) ?_
    by_cases hk : da.1 = kd
    · subst hk
      rw [lookup_alterS_self _ _ _ hs, h]
      simp
    · rw [lookup_alterS_ne (fun hc => hk hc.symm) _ _]
      exact h

theorem named_inner_hit (kd : String) (a : DepAction) (ha : a.is_dep_only = true) :
    ∀ (das : List (String × DepAction)) (acc : List (String × Bool)),
      KeysSorted acc → (kd, a) ∈ das →
      lookupS kd (das.foldl
        (fun acc da =>
          alterS da.1
            (fun o =>
              match o with
              | some v => v || da.2.is_dep_only
              | none => da.2.is_dep_only) acc)
        acc) = some true := by
  intro das
  induction das with
  | nil =>
    intro acc _ hm
    exact absurd hm (List.not_mem_nil _)
  | cons da rest ih =>
    intro acc hs hm
    simp only [List.foldl_cons]
    rcases List.mem_cons.mp hm with hm | hm
    · have hk : da.1 = kd := by rw [← hm]
      have hdo : da.2.is_dep_only = true := by rw [← hm]; exact ha
      refine named_inner_true kd rest _ (keysSorted_alterS _ _ _ hs) ?_
      subst hk
      rw [lookup_alterS_self _ _ _ hs, hdo]
      cases lookupS da.1 acc with
      | none => rfl
      | some v => simp
    · exact ih _ (keysSorted_alterS _ _ _ hs) hm

theorem named_outer_true (kd : String) :
    ∀ (entries : List (String × Feature)) (acc : List (String × Bool)),
      KeysSorted acc → lookupS kd acc = some true →
      lookupS kd (entries.foldl
        (fun acc e =>
          e.2.enables_deps.foldl
            (fun acc da =>
              alterS da.1
                (fun o =>
                  match o with
                  | some v => v || da.2.is_dep_only
                  | none => da.2.is_dep_only) acc)
            acc)
        acc) = some true := by
  intro entries
  induction entries with
  | nil => intro acc _ h; exact h
  | cons e t ih =>
    intro acc hs h
    simp only [List.foldl_cons]
    exact ih _
      (@foldl_preserves _ _ KeysSorted _ (fun acc da hsa => keysSorted_alterS _ _ _ hsa) _ _ hs)
      (named_inner_true kd _ _ hs h)

/-- If some parsed feature references `kd` with the dep-only marker, the
classification map answers `some true` at `kd`. -/
theorem named_true (kd : String) (entries : List (String × Feature))
    (p : String × Feature) (hp : p ∈ entries) (a : DepAction)
    (hl : lookupS kd p.2.enables_deps = some a) (ha : a.is_dep_only = true) :
    lookupS kd (namedUsingDepSyn entries) = some true := by
  unfold namedUsingDepSyn
  generalize hstart : (entries.foldl (fun acc e => insertS e.1 false acc) []) = acc0
  have hs0 : KeysSorted acc0 := by
    rw [← hstart]
    exact @foldl_preserves _ _ KeysSorted _ (fun acc e h => keysSorted_insertS _ _ _ h) _ _
      keysSorted_nil
  clear hstart
  induction entries generalizing acc0 with
  | nil => exact absurd hp (List.not_mem_nil _)
  | cons e t ih =>
    simp only [List.foldl_cons]
    rcases List.mem_cons.mp hp with he | he
    · subst he
      exact named_outer_true kd t _
        (@foldl_preserves _ _ KeysSorted _ (fun acc da hsa => keysSorted_alterS _ _ _ hsa) _ _ hs0)
        (named_inner_hit kd a ha _ _ hs0 (lookupS_mem hl))
    · exact ih he _
        (@foldl_preserves _ _ KeysSorted _ (fun acc da hsa => keysSorted_alterS _ _ _ hsa) _ _ hs0)

/-! ## Claim C4 — dep-only references suppress implicit features -/

/-- At key `kd`, any stored feature is explicit (declared in `[features]`). -/
def ExplicitAt (kd : String) (fs : List (String × Feature)) : Prop :=
  ∀ g, lookupS kd fs = some g → g.explicit = true

theorem parseFeature_explicit (k : String) (as : List String) :
    (parseFeature k as).2.explicit = true := rfl

theorem explicitAt_parseFeatures (kd : String) (l : List (String × List String)) (hd : Bool) :
    ExplicitAt kd (parseFeatures l hd) := by
  have hall : ∀ e ∈ parseFeatures l hd, e.2.explicit = true := by
    unfold parseFeatures
    refine @foldl_preserves_mem _ _
      (fun (acc : List (String × Feature)) => ∀ e ∈ acc, e.2.explicit = true) _ _
      (fun acc x hx hP => ?_) _ (fun e he => absurd he (List.not_mem_nil e))
    intro e he
    rcases mem_alterS e he with hm | hm | ⟨v, _, hm⟩
    · exact hP e hm
    · rw [hm]
      obtain ⟨q, _, rfl⟩ := List.mem_map.mp hx
      rfl
    · rw [hm]
      obtain ⟨q, _, rfl⟩ := List.mem_map.mp hx
      rfl
  intro g hg
  exact hall (kd, g) (lookupS_mem hg)

theorem explicitAt_addDependency (kd : String) (features : List (String × Feature))
    (deps : List (String × FeatureDependency)) (nud : Option Bool) (kind : Kind)
    (tgt : Option String) (key : String) (dep : Dependency)
    (hkey : key = kd → nud = some true)
    (h : ExplicitAt kd features) :
    ExplicitAt kd (addDependency features deps nud kind tgt key dep).1 := by
  unfold addDependency
  by_cases hret : (!dep.optional && nud.isNone && (lookupS key deps).isNone : Bool) = true
  · rw [if_pos hret]
    exact h
  · rw [if_neg hret]
    dsimp only
    by_cases hcond : (dep.optional && !(nud = some true : Bool) : Bool) = true
    · rw [if_pos hcond]
      by_cases hk : key = kd
      · exfalso
        have hnud := hkey hk
        rw [hnud] at hcond
        simp at hcond
      · intro g hg
        rw [lookup_alterS_ne (fun hc => hk hc.symm) _ _] at hg
        exact h g hg
    · rw [if_neg hcond]
      exact h

theorem explicitAt_addImplied (kd : String) (features : List (String × Feature))
    (deps : List (String × FeatureDependency)) (crate_deps : List (String × Dependency))
    (named : List (String × Bool)) (kind : Kind) (tgt : Option String)
    (hnamed : lookupS kd named = some true)
    (h : ExplicitAt kd features) :
    ExplicitAt kd (addImpliedOptionalDeps features deps crate_deps named kind tgt).1 := by
  unfold addImpliedOptionalDeps
  refine @foldl_preserves _ _
    (fun (st : List (String × Feature) × List (String × FeatureDependency)) =>
      ExplicitAt kd st.1) _ ?_ _ _ h
  intro st e hP
  refine explicitAt_addDependency kd st.1 st.2 _ _ _ _ _ (fun hk => ?_) hP
  rw [hk, hnamed]

theorem explicitAt_addDependencies (kd : String) (named : List (String × Bool))
    (features : List (String × Feature)) (m : Manifest)
    (hnamed : lookupS kd named = some true)
    (h : ExplicitAt kd features) :
    ExplicitAt kd (addDependencies named features m).1 := by
  unfold addDependencies
  have hTgt1 : ∀ (tl : List (String × TargetDeps))
      (st : List (String × Feature) × List (String × FeatureDependency)), ExplicitAt kd st.1 →
      ExplicitAt kd ((tl.foldl (fun st tgt =>
        let st := addImpliedOptionalDeps st.1 st.2 tgt.2.dependencies named Kind.Normal (some tgt.1)
        addImpliedOptionalDeps st.1 st.2 tgt.2.build_dependencies named Kind.Build
          (some tgt.1)) st)).1 := by
    intro tl st h0
    refine @foldl_preserves _ _ (fun st => ExplicitAt kd st.1) _ ?_ tl st h0
    intro st tgt hP
    exact explicitAt_addImplied kd _ _ _ _ _ _ hnamed
      (explicitAt_addImplied kd _ _ _ _ _ _ hnamed hP)
  have hTgt2 : ∀ (tl : List (String × TargetDeps))
      (st : List (String × Feature) × List (String × FeatureDependency)), ExplicitAt kd st.1 →
      ExplicitAt kd ((tl.foldl (fun st tgt =>
        addImpliedOptionalDeps st.1 st.2 tgt.2.dev_dependencies named Kind.Dev
          (some tgt.1)) st)).1 := by
    intro tl st h0
    refine @foldl_preserves _ _ (fun st => ExplicitAt kd st.1) _ ?_ tl st h0
    intro st tgt hP
    exact explicitAt_addImplied kd _ _ _ _ _ _ hnamed hP
  exact hTgt2 m.target _
    (explicitAt_addImplied kd _ _ _ _ _ _ hnamed
      (hTgt1 m.target _
        (explicitAt_addImplied kd _ _ _ _ _ _ hnamed
          (explicitAt_addImplied kd _ _ _ _ _ _ hnamed h))))

theorem explicitAt_modifyS (kd k : String) (g : Feature → Feature) (l : List (String × Feature))
    (h : ExplicitAt kd l) (hg : ∀ f, (g f).explicit = f.explicit) :
    ExplicitAt kd (modifyS k g l) := by
  intro x hx
  rw [lookup_modifyS] at hx
  by_cases hk : kd = k
  · rw [if_pos hk] at hx
    cases hl : lookupS kd l with
    | none => rw [hl] at hx; exact absurd hx (by simp)
    | some f =>
      rw [hl] at hx
      injection hx with hx
      rw [← hx, hg f]
      exact h f hl
  · rw [if_neg hk] at hx
    exact h x hx

theorem explicitAt_setRequiredByBins (kd : String) (features : List (String × Feature))
    (bin : List Product) (pn : String) (h : ExplicitAt kd features) :
    ExplicitAt kd (setRequiredByBins features bin pn) := by
  unfold setRequiredByBins
  refine @foldl_preserves _ _ (ExplicitAt kd) _ ?_ _ _ h
  intro fs b hP
  refine @foldl_preserves _ _ (ExplicitAt kd) _ ?_ _ _ hP
  intro fs2 f hP2
  apply explicitAt_modifyS
  · exact hP2
  · exact fun _ => rfl

theorem explicitAt_removeRedundant (kd : String) (features : List (String × Feature))
    (deps : List (String × FeatureDependency)) (h : ExplicitAt kd features) :
    ExplicitAt kd (removeRedundantDepActionFeatures features deps) := by
  unfold removeRedundantDepActionFeatures
  intro x hx
  rw [lookup_mapValS] at hx
  cases hl : lookupS kd features with
  | none => rw [hl] at hx; exact absurd hx (by simp)
  | some f =>
    rw [hl] at hx
    injection hx with hx
    rw [← hx]
    exact h f hl

theorem explicitAt_setEnabledBy (kd : String) (entries features : List (String × Feature))
    (h : ExplicitAt kd features) : ExplicitAt kd (setEnabledBy entries features) := by
  unfold setEnabledBy
  refine @foldl_preserves _ _ (ExplicitAt kd) _ ?_ _ _ h
  intro fs e hP
  apply explicitAt_modifyS
  · exact hP
  · exact fun _ => rfl

theorem explicitAt_removeOneHidden (kd : String)
    (st : List (String × Feature) × List (String × List String)) (key : String)
    (h : ExplicitAt kd st.1) : ExplicitAt kd (removeOneHidden st key).1 := by
  unfold removeOneHidden
  cases hl : lookupS key st.1 with
  | none => exact h
  | some janky =>
    dsimp only
    have h1 : ExplicitAt kd (eraseKeyS key st.1) := by
      intro x hx
      rw [lookup_eraseKeyS] at hx
      by_cases hk : kd = key
      · rw [if_pos hk] at hx
        exact absurd hx (by simp)
      · rw [if_neg hk] at hx
        exact h x hx
    refine @foldl_preserves _ _ (ExplicitAt kd) _ ?_ _ _
      (@foldl_preserves _ _ (ExplicitAt kd) _ ?_ _ _
        (@foldl_preserves _ _ (ExplicitAt kd) _ ?_ _ _ h1))
    · intro fs da hP
      by_cases hc : (!da.2.is_dep_only && !(janky.enables_features.contains da.1) : Bool) = true
      · rw [if_pos hc]
        apply explicitAt_modifyS
        · exact hP
        · exact fun _ => rfl
      · rw [if_neg hc]
        exact hP
    · intro fs f hP
      apply explicitAt_modifyS
      · exact hP
      · exact fun _ => rfl
    · intro fs pk hP
      apply explicitAt_modifyS
      · exact hP
      · exact fun _ => rfl

theorem explicitAt_removeHidden (kd : String) (r : Resolver) (ks : List String)
    (features : List (String × Feature)) (h : ExplicitAt kd features) :
    ExplicitAt kd (removeHiddenFeatures r ks features).1 := by
  unfold removeHiddenFeatures
  by_cases he : (ks.foldl (fun acc k =>
      if kIsHidden k && !((r.always_keep).elim false (fun cb => cb k)) then insSorted k acc
      else acc) []).isEmpty = true
  · rw [if_pos he]
    exact h
  · rw [if_neg he]
    exact @foldl_preserves _ _
      (fun (st : List (String × Feature) × List (String × List String)) =>
        ExplicitAt kd st.1) _
      (fun st k hP => explicitAt_removeOneHidden kd st k hP) _ (features, []) h

/-- C4: if any parsed feature references dependency key `kd` with the
dep-only marker, then the final features map never holds a synthesized
(non-explicit) node at `kd`: any feature there is explicit. -/
theorem C4_dep_only_suppresses_implicit (r : Resolver) (m : Manifest) (kd : String)
    (p : String × Feature)
    (hp : p ∈ parseFeatures (m.features.take MAX_ITEMS) (containsKeyS "default" m.features))
    (a : DepAction) (hl : lookupS kd p.2.enables_deps = some a) (ha : a.is_dep_only = true) :
    ∀ g, lookupS kd (r.parse m).features = some g → g.explicit = true := by
  have hnamed := named_true kd _ p hp a hl ha
  exact explicitAt_removeHidden kd r _ _
    (explicitAt_setEnabledBy kd _ _
      (explicitAt_removeRedundant kd _ _
        (explicitAt_setRequiredByBins kd _ m.bin m.package_name
          (explicitAt_addDependencies kd _ _ m hnamed
            (explicitAt_parseFeatures kd (m.features.take MAX_ITEMS)
              (containsKeyS "default" m.features))))))

/-- Concrete optional dependency for the C4 witness manifest. -/
def c4dep : Dependency :=
  Dependency.Detailed (DependencyDetail.mk none true true [])

/-- C4 witness manifest: feature `f = ["dep:x"]`, explicit feature `x = []`,
optional dependency `x`. -/
def c4m : Manifest :=
  Manifest.mk "pkg" [("f", ["dep:x"]), ("x", [])] [("x", c4dep)] [] [] [] []

/-- The parsed entry for `f` in the C4 witness manifest. -/
def c4p : String × Feature :=
  ("f", Feature.mk "f" [("x", DepAction.mk false true [])] [] [] [] true)

/-- C4 witness: in the concrete manifest, `f` references `x` with the
dep-only marker, and every feature the final map holds at key `x` is
explicit. -/
theorem C4_witness :
    (c4p ∈ parseFeatures (c4m.features.take MAX_ITEMS) (containsKeyS "default" c4m.features)
      ∧ lookupS "x" c4p.2.enables_deps = some (DepAction.mk false true [])
      ∧ (DepAction.mk false true []).is_dep_only = true)
    ∧ ∀ g, lookupS "x" ((Resolver.mk none).parse c4m).features = some g →
        g.explicit = true :=
  ⟨⟨by decide, by decide, by decide⟩,
    C4_dep_only_suppresses_implicit (Resolver.mk none) c4m "x" c4p (by decide)
      (DepAction.mk false true []) (by decide) (by decide)⟩

/-! ## Claim C2 — presence of the `"default"` key in the result -/

theorem lookupS_append_of_all_ne {κ α : Type} [DecidableEq κ] {k : κ}
    {l1 : List (κ × α)} (l2 : List (κ × α)) (h : ∀ e ∈ l1, e.1 ≠ k) :
    lookupS k (l1 ++ l2) = lookupS k l2 := by
  induction l1 with
  | nil => rfl
  | cons e t ih =>
    have he : e.1 ≠ k := h e (List.mem_cons_self e t)
    show (if k = e.1 then some e.2 else lookupS k (t ++ l2)) = lookupS k l2
    rw [if_neg (fun hk => he hk.symm)]
    exact ih (fun x hx => h x (List.mem_cons_of_mem e hx))

theorem nokey_insert_fold (kd : String) (l : List (String × Feature))
    (hl : ∀ e ∈ l, e.1 ≠ kd) :
    lookupS kd (l.foldl (fun acc e => insertS e.1 e.2 acc) []) = none := by
  refine @foldl_preserves_mem _ _
    (fun (acc : List (String × Feature)) => lookupS kd acc = none) _ l
    (fun acc e he hacc => ?_) [] rfl
  exact (lookup_alterS_ne (fun h => hl e he h.symm) _ acc).trans hacc

theorem nokey_parseFeatures_true (kd : String) (entries : List (String × List String))
    (hne : ∀ e ∈ entries, e.1 ≠ kd) :
    lookupS kd (parseFeatures entries true) = none := by
  unfold parseFeatures
  apply nokey_insert_fold
  intro e he
  obtain ⟨x, hx, rfl⟩ := List.mem_map.mp he
  have hx2 : x ∈ entries := by simpa using hx
  exact hne x hx2

theorem nokey_removeRedundant (kd : String) (features : List (String × Feature))
    (deps : List (String × FeatureDependency)) (h : lookupS kd features = none) :
    lookupS kd (removeRedundantDepActionFeatures features deps) = none := by
  unfold removeRedundantDepActionFeatures
  rw [lookup_mapValS, h]
  rfl

theorem nokey_setEnabledBy (kd : String) (entries features : List (String × Feature))
    (h : lookupS kd features = none) :
    lookupS kd (setEnabledBy entries features) = none := by
  unfold setEnabledBy
  refine @foldl_preserves _ _
    (fun (fs : List (String × Feature)) => lookupS kd fs = none) _ ?_ _ _ h
  intro fs e hP
  rw [lookup_modifyS]
  by_cases hk : kd = e.1
  · rw [if_pos hk, hP]; rfl
  · rw [if_neg hk]; exact hP

theorem nokey_removeOneHidden (kd : String)
    (st : List (String × Feature) × List (String × List String)) (key : String)
    (h : lookupS kd st.1 = none) : lookupS kd (removeOneHidden st key).1 = none := by
  unfold removeOneHidden
  cases hl : lookupS key st.1 with
  | none => exact h
  | some janky =>
    dsimp only
    have h1 : lookupS kd (eraseKeyS key st.1) = none := by
      rw [lookup_eraseKeyS]
      by_cases hk : kd = key
      · rw [if_pos hk]
      · rw [if_neg hk]; exact h
    refine @foldl_preserves _ _
      (fun (fs : List (String × Feature)) => lookupS kd fs = none) _ ?_ _ _
      (@foldl_preserves _ _
        (fun (fs : List (String × Feature)) => lookupS kd fs = none) _ ?_ _ _
        (@foldl_preserves _ _
          (fun (fs : List (String × Feature)) => lookupS kd fs = none) _ ?_ _ _ h1))
    · intro fs da hP
      by_cases hc : (!da.2.is_dep_only && !(janky.enables_features.contains da.1) : Bool) = true
      · rw [if_pos hc, lookup_modifyS]
        by_cases hk : kd = da.1
        · rw [if_pos hk, hP]; rfl
        · rw [if_neg hk]; exact hP
      · rw [if_neg hc]; exact hP
    · intro fs f hP
      rw [lookup_modifyS]
      by_cases hk : kd = f
      · rw [if_pos hk, hP]; rfl
      · rw [if_neg hk]; exact hP
    · intro fs pk hP
      rw [lookup_modifyS]
      by_cases hk : kd = pk
      · rw [if_pos hk, hP]; rfl
      · rw [if_neg hk]; exact hP

theorem nokey_removeHidden (kd : String) (r : Resolver) (ks : List String)
    (features : List (String × Feature)) (h : lookupS kd features = none) :
    lookupS kd (removeHiddenFeatures r ks features).1 = none := by
  unfold removeHiddenFeatures
  by_cases he : (ks.foldl (fun acc k =>
      if kIsHidden k && !((r.always_keep).elim false (fun cb => cb k)) then insSorted k acc
      else acc) []).isEmpty = true
  · rw [if_pos he]
    exact h
  · rw [if_neg he]
    exact @foldl_preserves _ _
      (fun (st : List (String × Feature) × List (String × List String)) =>
        lookupS kd st.1 = none) _
      (fun st k hP => nokey_removeOneHidden kd st k hP) _ (features, []) h

theorem nokey_parse (r : Resolver) (m : Manifest) (kd : String)
    (hfe : lookupS kd (parseFeatures (m.features.take MAX_ITEMS)
      (containsKeyS "default" m.features)) = none)
    (hd : m.dependencies = []) (hb : m.build_dependencies = [])
    (hv : m.dev_dependencies = []) (ht : m.target = []) (hbin : m.bin = []) :
    lookupS kd (r.parse m).features = none := by
  obtain ⟨pn, fe, d, b, v, t, bin⟩ := m
  simp only at hfe hd hb hv ht hbin
  subst hd hb hv ht hbin
  exact nokey_removeHidden kd r _ _
    (nokey_setEnabledBy kd _ _
      (nokey_removeRedundant kd _ _ hfe))

/-- C2 input: `MAX_ITEMS` filler features sorting before `"default"`,
followed by an explicitly declared `"default"`; no dependency sections. -/
def c2m : Manifest :=
  Manifest.mk "p" (manyFeatures ++ [("default", ["x"])]) [] [] [] [] []

/-- C2: the claimed invariant fails.  The manifest declares `"default"`
(`contains_key` over the full map is true), yet the parsed result has no
`"default"` entry: `parse_features` truncates the iterated entries at
`MAX_ITEMS` before the chained `"default"` fallback, while the fallback
test `contains_key` consults the untruncated map, so a declared
`"default"` beyond the cap is both skipped and not re-synthesized. -/
theorem C2_default_missing :
    containsKeyS "default" c2m.features = true ∧
    lookupS "default" ((Resolver.mk none).parse c2m).features = none := by
  have happ : lookupS "default" (manyFeatures ++ [(("default" : String), (["x"] : List String))])
      = some ["x"] := by
    rw [lookupS_append_of_all_ne _ manyFeatures_no_default]
    show (if ("default" : String) = "default" then some ["x"] else none) = some ["x"]
    rw [if_pos rfl]
  constructor
  · show (lookupS "default" (manyFeatures ++ [(("default" : String), (["x"] : List String))])).isSome
      = true
    rw [happ]
    rfl
  · refine nokey_parse _ _ _ ?_ rfl rfl rfl rfl rfl
    have htake : (c2m.features).take MAX_ITEMS = manyFeatures := by
      show (manyFeatures ++ [(("default" : String), (["x"] : List String))]).take MAX_ITEMS
        = manyFeatures
      rw [← manyFeatures_length, List.take_left]
    have hcont : containsKeyS "default" c2m.features = true := by
      show (lookupS "default"
        (manyFeatures ++ [(("default" : String), (["x"] : List String))])).isSome = true
      rw [happ]
      rfl
    rw [htake, hcont]
    exact nokey_parseFeatures_true _ _ manyFeatures_no_default

/-! ## Claim C7 — the `enabled_by` reverse index -/

theorem mem_insSorted {κ : Type} [DecidableEq κ] [LinearOrder κ] [LtB κ] (k x : κ) :
    ∀ l : List κ, (x ∈ insSorted k l ↔ x = k ∨ x ∈ l) := by
  intro l
  induction l with
  | nil => simp [insSorted]
  | cons e t ih =>
    unfold insSorted
    by_cases h1 : LtB.ltb k e = true
    · rw [if_pos h1]
      simp [List.mem_cons]
    · rw [if_neg h1]
      by_cases h2 : k = e
      · rw [if_pos h2]
        subst h2
        simp [List.mem_cons]
      · rw [if_neg h2]
        simp [List.mem_cons, ih]
        tauto

theorem keysSorted_nodup {κ α : Type} [LinearOrder κ] {l : List (κ × α)}
    (h : KeysSorted l) : (keysS l).Nodup :=
  (List.chain'_iff_pairwise.mp h).imp ne_of_lt

theorem mem_modifyS {κ α : Type} [DecidableEq κ] {k : κ} {g : α → α} :
    ∀ {l : List (κ × α)} {e : κ × α}, e ∈ modifyS k g l →
      e ∈ l ∨ ∃ v, (e.1, v) ∈ l ∧ e = (e.1, g v) := by
  intro l
  induction l with
  | nil =>
    intro e he
    exact absurd he (List.not_mem_nil e)
  | cons a t ih =>
    intro e he
    unfold modifyS at he
    by_cases h1 : a.1 = k
    · rw [if_pos h1] at he
      rcases List.mem_cons.mp he with he | he
      · subst he
        exact Or.inr ⟨a.2, List.mem_cons_self a t, rfl⟩
      · exact Or.inl (List.mem_cons_of_mem a he)
    · rw [if_neg h1] at he
      rcases List.mem_cons.mp he with he | he
      · exact Or.inl (he ▸ List.mem_cons_self a t)
      · rcases ih he with h | ⟨v, hv, hev⟩
        · exact Or.inl (List.mem_cons_of_mem a h)
        · exact Or.inr ⟨v, List.mem_cons_of_mem a hv, hev⟩

theorem exists_mem_modifyS {κ α : Type} [DecidableEq κ] {k : κ} {g : α → α}
    {Q : κ × α → Prop} (hQ : ∀ (a : κ) (v : α), Q (a, g v) ↔ Q (a, v)) :
    ∀ l : List (κ × α), ((∃ e ∈ modifyS k g l, Q e) ↔ ∃ e ∈ l, Q e) := by
  intro l
  induction l with
  | nil => simp [modifyS]
  | cons a t ih =>
    unfold modifyS
    by_cases h1 : a.1 = k
    · rw [if_pos h1]
      constructor
      · rintro ⟨e, he, hqe⟩
        rcases List.mem_cons.mp he with he | he
        · subst he
          exact ⟨a, List.mem_cons_self a t, (hQ a.1 a.2).mp hqe⟩
        · exact ⟨e, List.mem_cons_of_mem a he, hqe⟩
      · rintro ⟨e, he, hqe⟩
        rcases List.mem_cons.mp he with he | he
        · subst he
          exact ⟨(e.1, g e.2), List.mem_cons_self _ t, (hQ e.1 e.2).mpr hqe⟩
        · exact ⟨e, List.mem_cons_of_mem _ he, hqe⟩
    · rw [if_neg h1]
      constructor
      · rintro ⟨e, he, hqe⟩
        rcases List.mem_cons.mp he with he | he
        · exact ⟨a, List.mem_cons_self a t, he ▸ hqe⟩
        · obtain ⟨e', he', hq'⟩ := ih.mp ⟨e, he, hqe⟩
          exact ⟨e', List.mem_cons_of_mem a he', hq'⟩
      · rintro ⟨e, he, hqe⟩
        rcases List.mem_cons.mp he with he | he
        · exact ⟨a, List.mem_cons_self a _, he ▸ hqe⟩
        · obtain ⟨e', he', hq'⟩ := ih.mpr ⟨e, he, hqe⟩
          exact ⟨e', List.mem_cons_of_mem a he', hq'⟩

theorem keysSorted_adder_fold {β : Type} (c : β → Bool) (key : β → String) (v : String) :
    ∀ (js : List β) (acc : List (String × List String)), KeysSorted acc →
      KeysSorted (js.foldl (fun acc j =>
        if c j = true then alterS (key j) (fun o => insSorted v (o.getD [])) acc else acc) acc) := by
  intro js acc h
  refine @foldl_preserves _ _ (fun (a : List (String × List String)) => KeysSorted a) _ ?_ js acc h
  intro a j hP
  show KeysSorted (if c j = true then alterS (key j) (fun o => insSorted v (o.getD [])) a else a)
  by_cases hc : c j = true
  · rw [if_pos hc]
    exact keysSorted_alterS _ _ a hP
  · rw [if_neg hc]
    exact hP

theorem mem_adder_fold {β : Type} (c : β → Bool) (key : β → String) (v : String) (x k : String) :
    ∀ (js : List β) (acc : List (String × List String)), KeysSorted acc →
      (x ∈ (lookupS k (js.foldl (fun acc j =>
          if c j = true then alterS (key j) (fun o => insSorted v (o.getD [])) acc else acc)
          acc)).getD []
        ↔ (x = v ∧ js.any (fun j => c j && (key j = k : Bool)) = true)
          ∨ x ∈ (lookupS k acc).getD []) := by
  intro js
  induction js with
  | nil =>
    intro acc _
    simp
  | cons j js ih =>
    intro acc hs
    rw [List.foldl_cons]
    by_cases hc : c j = true
    · rw [if_pos hc, ih _ (keysSorted_alterS _ _ acc hs)]
      by_cases hk : key j = k
      · rw [hk, lookup_alterS_self k _ acc hs]
        simp only [Option.getD_some]
        rw [mem_insSorted]
        simp only [List.any_cons, hc, hk, Bool.or_eq_true, Bool.and_eq_true, decide_eq_true_eq,
          Bool.true_and]
        tauto
      · rw [lookup_alterS_ne (fun h => hk h.symm) _ acc]
        simp only [List.any_cons, hc, Bool.or_eq_true, Bool.and_eq_true, decide_eq_true_eq,
          Bool.true_and]
        tauto
    · rw [if_neg hc, ih _ hs]
      simp only [List.any_cons, Bool.or_eq_true, Bool.and_eq_true]
      have hcf : ¬(c j = true) := hc
      tauto

/-- The forward-edge rule of `set_enabled_by`, as a Boolean on one feature
entry: the entry enables `k` through a plain feature edge or through an
unconditional, non-dep-only dependency action (self-edges excluded). -/
def enablesKeyB (e : String × Feature) (k : String) : Bool :=
  e.2.enables_features.any (fun a => !(a = e.1 : Bool) && (a = k : Bool)) ||
  e.2.enables_deps.any (fun da =>
    (!da.2.is_conditional && !da.2.is_dep_only && !(da.1 = e.1 : Bool)) && (da.1 = k : Bool))

theorem mem_allEnabledBy_aux (x k : String) :
    ∀ (es : List (String × Feature)) (acc : List (String × List String)), KeysSorted acc →
      (x ∈ (lookupS k (es.foldl (fun acc e =>
          e.2.enables_deps.foldl (fun acc da =>
            if (!da.2.is_conditional && !da.2.is_dep_only && !(da.1 = e.1 : Bool)) = true then
              alterS da.1 (fun o => insSorted e.1 (o.getD [])) acc
            else acc)
            (e.2.enables_features.foldl (fun acc a =>
              if (!(a = e.1 : Bool)) = true then
                alterS a (fun o => insSorted e.1 (o.getD [])) acc
              else acc) acc)) acc)).getD []
        ↔ es.any (fun e => (x = e.1 : Bool) && enablesKeyB e k) = true
          ∨ x ∈ (lookupS k acc).getD []) := by
  intro es
  induction es with
  | nil =>
    intro acc _
    simp
  | cons e es ih =>
    intro acc hs
    rw [List.foldl_cons]
    have hacc1 : KeysSorted (e.2.enables_features.foldl (fun acc a =>
        if (!(a = e.1 : Bool)) = true then
          alterS a (fun o => insSorted e.1 (o.getD [])) acc
        else acc) acc) :=
      keysSorted_adder_fold (fun a => !(a = e.1 : Bool)) (fun a => a) e.1
        e.2.enables_features acc hs
    have hacc2 : KeysSorted (e.2.enables_deps.foldl (fun acc da =>
        if (!da.2.is_conditional && !da.2.is_dep_only && !(da.1 = e.1 : Bool)) = true then
          alterS da.1 (fun o => insSorted e.1 (o.getD [])) acc
        else acc)
        (e.2.enables_features.foldl (fun acc a =>
          if (!(a = e.1 : Bool)) = true then
            alterS a (fun o => insSorted e.1 (o.getD [])) acc
          else acc) acc)) :=
      keysSorted_adder_fold (fun da =>
          !da.2.is_conditional && !da.2.is_dep_only && !(da.1 = e.1 : Bool))
        (fun da => da.1) e.1 e.2.enables_deps _ hacc1
    rw [ih _ hacc2]
    have h2 := mem_adder_fold (fun da =>
        !da.2.is_conditional && !da.2.is_dep_only && !(da.1 = e.1 : Bool))
      (fun da => da.1) e.1 x k e.2.enables_deps _ hacc1
    simp only [] at h2
    rw [h2]
    have h3 := mem_adder_fold (fun a => !(a = e.1 : Bool)) (fun a => a) e.1 x k
      e.2.enables_features acc hs
    simp only [] at h3
    rw [h3]
    simp only [List.any_cons, Bool.or_eq_true, Bool.and_eq_true, decide_eq_true_eq, enablesKeyB]
    tauto

theorem mem_allEnabledBy (x k : String) (es : List (String × Feature)) :
    x ∈ (lookupS k (allEnabledBy es)).getD [] ↔
      es.any (fun e => (x = e.1 : Bool) && enablesKeyB e k) = true := by
  have h : x ∈ (lookupS k (allEnabledBy es)).getD []
      ↔ es.any (fun e => (x = e.1 : Bool) && enablesKeyB e k) = true
        ∨ x ∈ ((lookupS k ([] : List (String × List String))).getD []) :=
    mem_allEnabledBy_aux x k es [] keysSorted_nil
  have h0 : (lookupS k ([] : List (String × List String))).getD [] = ([] : List String) := rfl
  rw [h0] at h
  simpa using h

theorem keysSorted_allEnabledBy (es : List (String × Feature)) :
    KeysSorted (allEnabledBy es) := by
  have h : ∀ (l : List (String × Feature)) (acc : List (String × List String)),
      KeysSorted acc →
      KeysSorted (l.foldl (fun acc e =>
        e.2.enables_deps.foldl (fun acc da =>
          if (!da.2.is_conditional && !da.2.is_dep_only && !(da.1 = e.1 : Bool)) = true then
            alterS da.1 (fun o => insSorted e.1 (o.getD [])) acc
          else acc)
          (e.2.enables_features.foldl (fun acc a =>
            if (!(a = e.1 : Bool)) = true then
              alterS a (fun o => insSorted e.1 (o.getD [])) acc
            else acc) acc)) acc) := by
    intro l
    induction l with
    | nil => exact fun acc h => h
    | cons e es ih =>
      intro acc hs
      rw [List.foldl_cons]
      refine ih _ ?_
      exact keysSorted_adder_fold (fun da =>
          !da.2.is_conditional && !da.2.is_dep_only && !(da.1 = e.1 : Bool))
        (fun da => da.1) e.1 e.2.enables_deps _
        (keysSorted_adder_fold (fun a => !(a = e.1 : Bool)) (fun a => a) e.1
          e.2.enables_features acc hs)
  exact h es [] keysSorted_nil

theorem lookup_setEB_fold :
    ∀ (A : List (String × List String)) (fs : List (String × Feature)),
      (keysS A).Nodup →
      ∀ (k : String) (f : Feature),
        lookupS k (A.foldl (fun fs e =>
          modifyS e.1 (fun g => { g with enabled_by := e.2 }) fs) fs) = some f →
        (∃ v, lookupS k A = some v ∧ ∃ g, lookupS k fs = some g ∧
          f = { g with enabled_by := v }) ∨
        (lookupS k A = none ∧ lookupS k fs = some f) := by
  intro A
  induction A with
  | nil =>
    intro fs _ k f hf
    exact Or.inr ⟨rfl, hf⟩
  | cons a rest ih =>
    intro fs hnd k f hf
    rw [List.foldl_cons] at hf
    have hnd2 : (keysS rest).Nodup := (List.nodup_cons.mp hnd).2
    have hna : a.1 ∉ keysS rest := (List.nodup_cons.mp hnd).1
    rcases ih _ hnd2 k f hf with ⟨v, hv, g, hg, hfg⟩ | ⟨hA, hfs⟩
    · have hk : k ≠ a.1 := by
        intro hc
        exact hna (hc ▸ List.mem_map.mpr ⟨(k, v), lookupS_mem hv, rfl⟩)
      refine Or.inl ⟨v, ?_, g, ?_, hfg⟩
      · show (if k = a.1 then some a.2 else lookupS k rest) = some v
        rw [if_neg hk]
        exact hv
      · rw [lookup_modifyS, if_neg hk] at hg
        exact hg
    · rw [lookup_modifyS] at hfs
      by_cases hk : k = a.1
      · rw [if_pos hk] at hfs
        cases hl : lookupS k fs with
        | none =>
          rw [hl] at hfs
          exact absurd hfs (by simp)
        | some g =>
          rw [hl] at hfs
          injection hfs with h2
          refine Or.inl ⟨a.2, ?_, g, rfl, h2.symm⟩
          show (if k = a.1 then some a.2 else lookupS k rest) = some a.2
          rw [if_pos hk]
      · rw [if_neg hk] at hfs
        refine Or.inr ⟨?_, hfs⟩
        show (if k = a.1 then some a.2 else lookupS k rest) = none
        rw [if_neg hk]
        exact hA

/-- All `enabled_by` sets are empty (true of every stage before
`set_enabled_by`). -/
def EBEmpty (fs : List (String × Feature)) : Prop :=
  ∀ e ∈ fs, e.2.enabled_by = []

theorem ebempty_parseFeatures (l : List (String × List String)) (hd : Bool) :
    EBEmpty (parseFeatures l hd) := by
  unfold parseFeatures
  refine @foldl_preserves_mem _ _
    (fun (acc : List (String × Feature)) => EBEmpty acc) _ _
    (fun acc x hx hP => ?_) _ (fun e he => absurd he (List.not_mem_nil e))
  intro e he
  rcases mem_alterS e he with hm | hm | ⟨v, _, hm⟩
  · exact hP e hm
  · rw [hm]
    obtain ⟨q, _, rfl⟩ := List.mem_map.mp hx
    rfl
  · rw [hm]
    obtain ⟨q, _, rfl⟩ := List.mem_map.mp hx
    rfl

theorem ebempty_addDependency (features : List (String × Feature))
    (deps : List (String × FeatureDependency)) (nud : Option Bool) (kind : Kind)
    (tgt : Option String) (key : String) (dep : Dependency)
    (h : EBEmpty features) :
    EBEmpty (addDependency features deps nud kind tgt key dep).1 := by
  unfold addDependency
  by_cases hret : (!dep.optional && nud.isNone && (lookupS key deps).isNone : Bool) = true
  · rw [if_pos hret]
    exact h
  · rw [if_neg hret]
    dsimp only
    by_cases hcond : (dep.optional && !(nud = some true : Bool) : Bool) = true
    · rw [if_pos hcond]
      intro e he
      rcases mem_alterS e he with hm | hm | ⟨v, hv, hm⟩
      · exact h e hm
      · rw [hm]
      · rw [hm]
        exact h (key, v) hv
    · rw [if_neg hcond]
      exact h

theorem ebempty_addImplied (features : List (String × Feature))
    (deps : List (String × FeatureDependency)) (crate_deps : List (String × Dependency))
    (named : List (String × Bool)) (kind : Kind) (tgt : Option String)
    (h : EBEmpty features) :
    EBEmpty (addImpliedOptionalDeps features deps crate_deps named kind tgt).1 := by
  unfold addImpliedOptionalDeps
  refine @foldl_preserves _ _
    (fun (st : List (String × Feature) × List (String × FeatureDependency)) =>
      EBEmpty st.1) _ ?_ _ _ h
  intro st e hP
  exact ebempty_addDependency st.1 st.2 _ _ _ _ _ hP

theorem ebempty_addDependencies (named : List (String × Bool))
    (features : List (String × Feature)) (m : Manifest)
    (h : EBEmpty features) :
    EBEmpty (addDependencies named features m).1 := by
  unfold addDependencies
  have hTgt1 : ∀ (tl : List (String × TargetDeps))
      (st : List (String × Feature) × List (String × FeatureDependency)), EBEmpty st.1 →
      EBEmpty ((tl.foldl (fun st tgt =>
        let st := addImpliedOptionalDeps st.1 st.2 tgt.2.dependencies named Kind.Normal
          (some tgt.1)
        addImpliedOptionalDeps st.1 st.2 tgt.2.build_dependencies named Kind.Build
          (some tgt.1)) st)).1 := by
    intro tl st h0
    refine @foldl_preserves _ _
      (fun (st : List (String × Feature) × List (String × FeatureDependency)) =>
        EBEmpty st.1) _ ?_ tl st h0
    intro st tgt hP
    exact ebempty_addImplied _ _ _ _ _ _ (ebempty_addImplied _ _ _ _ _ _ hP)
  have hTgt2 : ∀ (tl : List (String × TargetDeps))
      (st : List (String × Feature) × List (String × FeatureDependency)), EBEmpty st.1 →
      EBEmpty ((tl.foldl (fun st tgt =>
        addImpliedOptionalDeps st.1 st.2 tgt.2.dev_dependencies named Kind.Dev
          (some tgt.1)) st)).1 := by
    intro tl st h0
    refine @foldl_preserves _ _
      (fun (st : List (String × Feature) × List (String × FeatureDependency)) =>
        EBEmpty st.1) _ ?_ tl st h0
    intro st tgt hP
    exact ebempty_addImplied _ _ _ _ _ _ hP
  exact hTgt2 m.target _
    (ebempty_addImplied _ _ _ _ _ _
      (hTgt1 m.target _
        (ebempty_addImplied _ _ _ _ _ _
          (ebempty_addImplied _ _ _ _ _ _ h))))

theorem ebempty_modifyS (k : String) (g : Feature → Feature) (l : List (String × Feature))
    (hg : ∀ f, (g f).enabled_by = f.enabled_by) (h : EBEmpty l) :
    EBEmpty (modifyS k g l) := by
  intro e he
  rcases mem_modifyS he with hm | ⟨v, hv, hm⟩
  · exact h e hm
  · rw [hm]
    show (g v).enabled_by = []
    rw [hg v]
    exact h (e.1, v) hv

theorem ebempty_setRequiredByBins (features : List (String × Feature))
    (bin : List Product) (pn : String) (h : EBEmpty features) :
    EBEmpty (setRequiredByBins features bin pn) := by
  unfold setRequiredByBins
  refine @foldl_preserves _ _ (fun (fs : List (String × Feature)) => EBEmpty fs) _ ?_ _ _ h
  intro fs b hP
  refine @foldl_preserves _ _ (fun (fs : List (String × Feature)) => EBEmpty fs) _ ?_ _ _ hP
  intro fs2 f hP2
  exact ebempty_modifyS _ _ _ (fun _ => rfl) hP2

theorem ebempty_removeRedundant (features : List (String × Feature))
    (deps : List (String × FeatureDependency)) (h : EBEmpty features) :
    EBEmpty (removeRedundantDepActionFeatures features deps) := by
  intro e he
  obtain ⟨q, hq, rfl⟩ := List.mem_map.mp he
  show ({ q.2 with enables_deps := _ } : Feature).enabled_by = []
  exact h q hq

/-- The features just before `set_enabled_by` runs (stages 1–4 of `parse`). -/
def preLinkFeatures (m : Manifest) : List (String × Feature) :=
  let features := parseFeatures (m.features.take MAX_ITEMS) (containsKeyS "default" m.features)
  let named := namedUsingDepSyn features
  let st := addDependencies named features m
  removeRedundantDepActionFeatures (setRequiredByBins st.1 m.bin m.package_name) st.2

/-- The features just after `set_enabled_by` (stage 5 of `parse`). -/
def linkedFeatures (m : Manifest) : List (String × Feature) :=
  setEnabledBy (preLinkFeatures m) (preLinkFeatures m)

theorem parse_features_eq (r : Resolver) (m : Manifest) :
    (r.parse m).features
      = (removeHiddenFeatures r (keysS (linkedFeatures m)) (linkedFeatures m)).1 := rfl

theorem parse_hidden_eq (r : Resolver) (m : Manifest) :
    (r.parse m).hidden_features
      = (removeHiddenFeatures r (keysS (linkedFeatures m)) (linkedFeatures m)).2 := rfl

theorem ebempty_preLink (m : Manifest) : EBEmpty (preLinkFeatures m) := by
  unfold preLinkFeatures
  exact ebempty_removeRedundant _ _
    (ebempty_setRequiredByBins _ _ _
      (ebempty_addDependencies _ _ m (ebempty_parseFeatures _ _)))

theorem removeOneHidden_of_snd_nil
    (st : List (String × Feature) × List (String × List String)) (key : String)
    (h : (removeOneHidden st key).2 = []) : removeOneHidden st key = st := by
  unfold removeOneHidden at h ⊢
  cases hl : lookupS key st.1 with
  | none => rfl
  | some janky =>
    simp only [hl] at h
    exact absurd h (alterS_ne_nil _ _ _)

theorem foldl_removeOneHidden_nil :
    ∀ (ks : List String) (st : List (String × Feature) × List (String × List String)),
      (ks.foldl removeOneHidden st).2 = [] → ks.foldl removeOneHidden st = st := by
  intro ks
  induction ks with
  | nil =>
    intro st _
    rfl
  | cons k ks ih =>
    intro st h
    rw [List.foldl_cons] at h ⊢
    have h1 := ih _ h
    rw [h1] at h ⊢
    exact removeOneHidden_of_snd_nil st k h

theorem removeHidden_of_snd_nil (r : Resolver) (ks : List String)
    (features : List (String × Feature))
    (h : (removeHiddenFeatures r ks features).2 = []) :
    (removeHiddenFeatures r ks features).1 = features := by
  unfold removeHiddenFeatures at h ⊢
  by_cases he : (ks.foldl (fun acc k =>
      if kIsHidden k && !((r.always_keep).elim false (fun cb => cb k)) then insSorted k acc
      else acc) []).isEmpty = true
  · rw [if_pos he]
  · rw [if_neg he] at h ⊢
    rw [foldl_removeOneHidden_nil _ _ h]

theorem exists_mem_setEB {Q : String × Feature → Prop}
    (hQ : ∀ (a : String) (v : Feature) (w : List String),
      Q (a, { v with enabled_by := w }) ↔ Q (a, v)) :
    ∀ (A : List (String × List String)) (fs : List (String × Feature)),
      ((∃ e ∈ A.foldl (fun fs e =>
          modifyS e.1 (fun g => { g with enabled_by := e.2 }) fs) fs, Q e)
        ↔ ∃ e ∈ fs, Q e) := by
  intro A
  induction A with
  | nil =>
    intro fs
    exact Iff.rfl
  | cons a rest ih =>
    intro fs
    rw [List.foldl_cons]
    exact (ih _).trans (exists_mem_modifyS (fun b v => hQ b v a.2) fs)

theorem any_enables_iff (x k : String) (es : List (String × Feature)) :
    (es.any (fun e => (x = e.1 : Bool) && enablesKeyB e k) = true) ↔
      ∃ e ∈ es, e.1 = x ∧ ¬(k = x) ∧
        (k ∈ e.2.enables_features ∨
          ∃ da ∈ e.2.enables_deps, da.1 = k ∧ da.2.is_conditional = false ∧
            da.2.is_dep_only = false) := by
  rw [List.any_eq_true]
  constructor
  · rintro ⟨e, he, hp⟩
    simp only [Bool.and_eq_true, decide_eq_true_eq, enablesKeyB, Bool.or_eq_true,
      List.any_eq_true, Bool.not_eq_true', decide_eq_false_iff_not] at hp
    obtain ⟨hx, hrule⟩ := hp
    rcases hrule with ⟨a, ha, hane, hak⟩ | ⟨da, hda, ⟨⟨hcnd, hdep⟩, hdne⟩, hdk⟩
    · subst hak
      exact ⟨e, he, hx.symm, fun hc => hane (hc.trans hx), Or.inl ha⟩
    · exact ⟨e, he, hx.symm, fun hc => hdne (hdk.trans (hc.trans hx)),
        Or.inr ⟨da, hda, hdk, hcnd, hdep⟩⟩
  · rintro ⟨e, he, hex, hknx, hrule⟩
    refine ⟨e, he, ?_⟩
    simp only [Bool.and_eq_true, decide_eq_true_eq, enablesKeyB, Bool.or_eq_true,
      List.any_eq_true, Bool.not_eq_true', decide_eq_false_iff_not]
    refine ⟨hex.symm, ?_⟩
    rcases hrule with hmem | ⟨da, hda, hdk, hcnd, hdep⟩
    · exact Or.inl ⟨k, hmem, fun hc => hknx (hc.trans hex), rfl⟩
    · exact Or.inr ⟨da, hda, ⟨⟨hcnd, hdep⟩, fun hc => hknx ((hdk.symm.trans hc).trans hex)⟩, hdk⟩

/-- The spec's linker rule, read literally as a derived index over a features
map: the keys `G ≠ fkey` whose feature enables `fkey` through a plain feature
edge or through an unconditional, non-dep-only dependency action.  This
definition follows the SPEC text, to be compared with the code's behaviour. -/
def specDerivedEnabledBy (entries : List (String × Feature)) (fkey : String) : List String :=
  keysS (entries.filter (fun e =>
    !(e.1 = fkey : Bool) &&
    (e.2.enables_features.contains fkey ||
      (match lookupS fkey e.2.enables_deps with
       | some da => !da.is_conditional && !da.is_dep_only
       | none => false))))

/-- C7 counterexample manifest: hidden feature `__h = ["d?/f"]`, explicit
features `d` and `p = ["__h"]`, optional dependency `d`. -/
def c7m : Manifest :=
  Manifest.mk "p" [("__h", ["d?/f"]), ("d", []), ("p", ["__h"])]
    [("d", Dependency.Detailed (DependencyDetail.mk none true true []))] [] [] [] []

/-- C7 counterexample: after hidden-node inlining, `d.enabled_by = ["p"]`
even though the only remaining `p → d` edge is conditional, so the derived
index of the spec's rule over the final graph is empty: `enabled_by` is NOT
recomputed after the inlining mutation. -/
theorem C7_counterexample :
    lookupS "d" ((Resolver.mk none).parse c7m).features
      = some (Feature.mk "d" [] [] ["p"] [] true) ∧
    specDerivedEnabledBy ((Resolver.mk none).parse c7m).features "d" = [] := by
  exact ⟨by decide, by decide⟩

/-- C7 (amended): `enabled_by` is recomputed from scratch by
`set_enabled_by`, but only at that point; the later hidden-node inliner
patches it incrementally.  Whenever the manifest yields no hidden features
(the inliner does not run), every final `enabled_by` set matches the spec's
derived linker rule exactly. -/
theorem C7_amended (r : Resolver) (m : Manifest)
    (hnh : (r.parse m).hidden_features = []) (k : String) (f : Feature)
    (hf : lookupS k (r.parse m).features = some f) (x : String) :
    x ∈ f.enabled_by ↔
      ∃ e ∈ (r.parse m).features, e.1 = x ∧ ¬(k = x) ∧
        (k ∈ e.2.enables_features ∨
          ∃ da ∈ e.2.enables_deps, da.1 = k ∧ da.2.is_conditional = false ∧
            da.2.is_dep_only = false) := by
  rw [parse_hidden_eq] at hnh
  have hfeq : (r.parse m).features = linkedFeatures m := by
    rw [parse_features_eq, removeHidden_of_snd_nil _ _ _ hnh]
  rw [hfeq] at hf ⊢
  have hEB : EBEmpty (preLinkFeatures m) := ebempty_preLink m
  have hnodup : (keysS (allEnabledBy (preLinkFeatures m))).Nodup :=
    keysSorted_nodup (keysSorted_allEnabledBy _)
  have hch := lookup_setEB_fold (allEnabledBy (preLinkFeatures m)) (preLinkFeatures m)
    hnodup k f hf
  have heb : f.enabled_by = (lookupS k (allEnabledBy (preLinkFeatures m))).getD [] := by
    rcases hch with ⟨v, hv, g, hg, hfg⟩ | ⟨hA, hfs⟩
    · rw [hfg, hv]
      rfl
    · rw [hA]
      exact hEB (k, f) (lookupS_mem hfs)
  rw [heb, mem_allEnabledBy]
  exact (any_enables_iff x k (preLinkFeatures m)).trans
    (@exists_mem_setEB (fun e => e.1 = x ∧ ¬(k = x) ∧
        (k ∈ e.2.enables_features ∨
          ∃ da ∈ e.2.enables_deps, da.1 = k ∧ da.2.is_conditional = false ∧
            da.2.is_dep_only = false))
      (fun a v w => Iff.rfl) (allEnabledBy (preLinkFeatures m))
      (preLinkFeatures m)).symm

/-- C7 amended-witness manifest: `a = ["b"]`, `b = []`, nothing hidden. -/
def c7wm : Manifest :=
  Manifest.mk "p" [("a", ["b"]), ("b", [])] [] [] [] [] []

/-- Witness for the amended C7 at a concrete input: `b.enabled_by = ["a"]`
and membership of `"a"` in it coincides with the derived rule. -/
theorem C7_amended_witness :
    (((Resolver.mk none).parse c7wm).hidden_features = [] ∧
      lookupS "b" ((Resolver.mk none).parse c7wm).features
        = some (Feature.mk "b" [] [] ["a"] [] true)) ∧
    ("a" ∈ (Feature.mk "b" [] [] ["a"] [] true).enabled_by ↔
      ∃ e ∈ ((Resolver.mk none).parse c7wm).features, e.1 = "a" ∧ ¬("b" = "a") ∧
        ("b" ∈ e.2.enables_features ∨
          ∃ da ∈ e.2.enables_deps, da.1 = "b" ∧ da.2.is_conditional = false ∧
            da.2.is_dep_only = false)) :=
  ⟨⟨by decide, by decide⟩,
    C7_amended (Resolver.mk none) c7wm (by decide) "b" (Feature.mk "b" [] [] ["a"] [] true)
      (by decide) "a"⟩

/-! ## Claim C1 — hidden-key purging -/

theorem mem_eraseS {κ : Type} [DecidableEq κ] {k x : κ} :
    ∀ {l : List κ}, x ∈ eraseS k l → x ∈ l ∧ x ≠ k := by
  intro l
  induction l with
  | nil =>
    intro h
    exact absurd h (List.not_mem_nil x)
  | cons e t ih =>
    intro h
    unfold eraseS at h
    by_cases he : e = k
    · rw [if_pos he] at h
      obtain ⟨h1, h2⟩ := ih h
      exact ⟨List.mem_cons_of_mem e h1, h2⟩
    · rw [if_neg he] at h
      rcases List.mem_cons.mp h with h | h
      · subst h
        exact ⟨List.mem_cons_self x t, he⟩
      · obtain ⟨h1, h2⟩ := ih h
        exact ⟨List.mem_cons_of_mem e h1, h2⟩

theorem not_mem_eraseS_self {κ : Type} [DecidableEq κ] {k : κ} {l : List κ} :
    k ∉ eraseS k l :=
  fun h => (mem_eraseS h).2 rfl

theorem mem_eraseS_of_ne {κ : Type} [DecidableEq κ] {k x : κ} (hne : x ≠ k) :
    ∀ {l : List κ}, x ∈ l → x ∈ eraseS k l := by
  intro l
  induction l with
  | nil =>
    intro h
    exact absurd h (List.not_mem_nil x)
  | cons e t ih =>
    intro h
    unfold eraseS
    by_cases he : e = k
    · rw [if_pos he]
      rcases List.mem_cons.mp h with h | h
      · exact absurd (h.trans he) hne
      · exact ih h
    · rw [if_neg he]
      rcases List.mem_cons.mp h with h | h
      · exact h ▸ List.mem_cons_self e _
      · exact List.mem_cons_of_mem e (ih h)

theorem mem_unionS {κ : Type} [DecidableEq κ] [LinearOrder κ] [LtB κ] {x : κ} :
    ∀ {b a : List κ}, x ∈ unionS a b → x ∈ a ∨ x ∈ b := by
  intro b
  induction b with
  | nil =>
    intro a h
    exact Or.inl h
  | cons e t ih =>
    intro a h
    rcases ih h with h | h
    · rcases (mem_insSorted e x a).mp h with h | h
      · exact Or.inr (h ▸ List.mem_cons_self e t)
      · exact Or.inl h
    · exact Or.inr (List.mem_cons_of_mem e h)

theorem mem_unionS_left {κ : Type} [DecidableEq κ] [LinearOrder κ] [LtB κ] {x : κ} :
    ∀ {b a : List κ}, x ∈ a → x ∈ unionS a b := by
  intro b
  induction b with
  | nil =>
    intro a h
    exact h
  | cons e t ih =>
    intro a h
    exact ih ((mem_insSorted e x a).mpr (Or.inr h))

theorem mem_unionS_right {κ : Type} [DecidableEq κ] [LinearOrder κ] [LtB κ] {x : κ} :
    ∀ {b a : List κ}, x ∈ b → x ∈ unionS a b := by
  intro b
  induction b with
  | nil =>
    intro a h
    exact absurd h (List.not_mem_nil x)
  | cons e t ih =>
    intro a h
    rcases List.mem_cons.mp h with h | h
    · subst h
      show x ∈ unionS (insSorted x a) t
      exact mem_unionS_left ((mem_insSorted x x a).mpr (Or.inl rfl))
    · show x ∈ unionS (insSorted e a) t
      exact ih h

theorem mem_eraseKeyS {κ α : Type} [DecidableEq κ] {k : κ} {e : κ × α} :
    ∀ {l : List (κ × α)}, e ∈ eraseKeyS k l → e ∈ l ∧ e.1 ≠ k := by
  intro l
  induction l with
  | nil =>
    intro h
    exact absurd h (List.not_mem_nil e)
  | cons a t ih =>
    intro h
    unfold eraseKeyS at h
    by_cases ha : a.1 = k
    · rw [if_pos ha] at h
      obtain ⟨h1, h2⟩ := ih h
      exact ⟨List.mem_cons_of_mem a h1, h2⟩
    · rw [if_neg ha] at h
      rcases List.mem_cons.mp h with h | h
      · subst h
        exact ⟨List.mem_cons_self e t, ha⟩
      · obtain ⟨h1, h2⟩ := ih h
        exact ⟨List.mem_cons_of_mem a h1, h2⟩

theorem lookup_of_mem_nodup {κ α : Type} [DecidableEq κ] {k : κ} {v : α} :
    ∀ {l : List (κ × α)}, (keysS l).Nodup → (k, v) ∈ l → lookupS k l = some v := by
  intro l
  induction l with
  | nil =>
    intro _ h
    exact absurd h (List.not_mem_nil (k, v))
  | cons e t ih =>
    intro hnd h
    show (if k = e.1 then some e.2 else lookupS k t) = some v
    rcases List.mem_cons.mp h with h | h
    · rw [← h]
      rw [if_pos rfl]
    · by_cases hk : k = e.1
      · exfalso
        have : k ∈ keysS t := List.mem_map.mpr ⟨(k, v), h, rfl⟩
        exact (List.nodup_cons.mp hnd).1 (hk ▸ this)
      · rw [if_neg hk]
        exact ih (List.nodup_cons.mp hnd).2 h

theorem lookup_isSome_iff_mem_keys {κ α : Type} [DecidableEq κ] {k : κ} :
    ∀ {l : List (κ × α)}, (lookupS k l).isSome = true ↔ k ∈ keysS l := by
  intro l
  induction l with
  | nil => simp [lookupS, keysS]
  | cons e t ih =>
    show (if k = e.1 then some e.2 else lookupS k t).isSome = true ↔ k ∈ keysS (e :: t)
    by_cases hk : k = e.1
    · rw [if_pos hk]
      simp [keysS, hk]
    · rw [if_neg hk]
      simp only [keysS, List.map_cons, List.mem_cons]
      rw [ih]
      simp [keysS, hk]

theorem keysS_modifyS {κ α : Type} [DecidableEq κ] (k : κ) (g : α → α) :
    ∀ l : List (κ × α), keysS (modifyS k g l) = keysS l := by
  intro l
  induction l with
  | nil => rfl
  | cons e t ih =>
    show keysS (if e.1 = k then (e.1, g e.2) :: t else e :: modifyS k g t) = keysS (e :: t)
    by_cases he : e.1 = k
    · rw [if_pos he]
      rfl
    · rw [if_neg he]
      show e.1 :: keysS (modifyS k g t) = e.1 :: keysS t
      rw [ih]

theorem nodupKeys_eraseKeyS {κ α : Type} [DecidableEq κ] (k : κ) :
    ∀ {l : List (κ × α)}, (keysS l).Nodup → (keysS (eraseKeyS k l)).Nodup := by
  intro l
  induction l with
  | nil =>
    intro _
    simp [eraseKeyS, keysS]
  | cons e t ih =>
    intro hnd
    unfold eraseKeyS
    by_cases he : e.1 = k
    · rw [if_pos he]
      exact ih (List.nodup_cons.mp hnd).2
    · rw [if_neg he]
      show (e.1 :: keysS (eraseKeyS k t)).Nodup
      refine List.nodup_cons.mpr ⟨?_, ih (List.nodup_cons.mp hnd).2⟩
      intro hc
      obtain ⟨p, hp, hpe⟩ := List.mem_map.mp hc
      have hmem := (mem_eraseKeyS hp).1
      exact (List.nodup_cons.mp hnd).1 (List.mem_map.mpr ⟨p, hmem, hpe⟩)

/-- The parent update of `remove_hidden_features` (splice the hidden
feature's edges into a predecessor). -/
def gpar (janky : Feature) (parent : Feature) : Feature :=
  let parent := { parent with enabled_by := eraseS janky.key parent.enabled_by }
  let parent := { parent with
    enables_features :=
      eraseS janky.key (unionS parent.enables_features janky.enables_features) }
  { parent with
    enables_deps := janky.enables_deps.foldl
      (fun ed ja =>
        alterS ja.1
          (fun o =>
            match o with
            | some old => spliceDepMerge old ja.2
            | none => ja.2) ed)
      parent.enables_deps }

/-- The child update of `remove_hidden_features` (inherit the hidden
feature's predecessors). -/
def gchild (janky : Feature) (child : Feature) : Feature :=
  let child := { child with
    enabled_by := eraseS janky.key (unionS child.enabled_by janky.enabled_by) }
  { child with
    required_by_bins := (janky.required_by_bins.take 10).foldl
      (fun rb bin => if rb.contains bin then rb else rb ++ [bin])
      child.required_by_bins }

/-- The dependency-target update of `remove_hidden_features`. -/
def gdep (janky : Feature) (d : Feature) : Feature :=
  { d with enabled_by := eraseS janky.key (unionS d.enabled_by janky.enabled_by) }

/-- The loop over `janky.enabled_by` in `remove_hidden_features`. -/
def parentFold (janky : Feature) (fs : List (String × Feature)) : List (String × Feature) :=
  janky.enabled_by.foldl (fun fs parent_key => modifyS parent_key (gpar janky) fs) fs

/-- The loop over `janky.enables_features` in `remove_hidden_features`. -/
def childFold (janky : Feature) (fs : List (String × Feature)) : List (String × Feature) :=
  janky.enables_features.foldl (fun fs f => modifyS f (gchild janky) fs) fs

/-- The loop over `janky.enables_deps` in `remove_hidden_features`. -/
def depsFold (janky : Feature) (fs : List (String × Feature)) : List (String × Feature) :=
  janky.enables_deps.foldl
    (fun fs da =>
      if !da.2.is_dep_only && !(janky.enables_features.contains da.1) then
        modifyS da.1 (gdep janky) fs
      else fs)
    fs

theorem removeOneHidden_some (st : List (String × Feature) × List (String × List String))
    (key : String) (janky : Feature) (hl : lookupS key st.1 = some janky) :
    removeOneHidden st key =
      (depsFold janky (childFold janky (parentFold janky (eraseKeyS key st.1))),
       alterS janky.key (fun o => unionS (o.getD []) janky.enables_features) st.2) := by
  unfold removeOneHidden
  rw [hl]
  rfl

theorem gpar_eb (janky f : Feature) :
    (gpar janky f).enabled_by = eraseS janky.key f.enabled_by := rfl

theorem gpar_ef (janky f : Feature) :
    (gpar janky f).enables_features
      = eraseS janky.key (unionS f.enables_features janky.enables_features) := rfl

theorem gpar_key (janky f : Feature) : (gpar janky f).key = f.key := rfl

theorem gchild_eb (janky f : Feature) :
    (gchild janky f).enabled_by
      = eraseS janky.key (unionS f.enabled_by janky.enabled_by) := rfl

theorem gchild_ef (janky f : Feature) :
    (gchild janky f).enables_features = f.enables_features := rfl

theorem gchild_key (janky f : Feature) : (gchild janky f).key = f.key := rfl

theorem gdep_eb (janky f : Feature) :
    (gdep janky f).enabled_by
      = eraseS janky.key (unionS f.enabled_by janky.enabled_by) := rfl

theorem gdep_ef (janky f : Feature) :
    (gdep janky f).enables_features = f.enables_features := rfl

theorem gdep_key (janky f : Feature) : (gdep janky f).key = f.key := rfl

theorem mem_parentFold (janky : Feature) :
    ∀ (js : List String) (l : List (String × Feature)) (e : String × Feature),
      e ∈ js.foldl (fun fs parent_key => modifyS parent_key (gpar janky) fs) l →
      e ∈ l ∨ ∃ v, e.2 = gpar janky v := by
  intro js
  induction js with
  | nil =>
    intro l e he
    exact Or.inl he
  | cons j js ih =>
    intro l e he
    rw [List.foldl_cons] at he
    rcases ih _ e he with hm | hm
    · rcases mem_modifyS hm with hm | ⟨v, _, hm⟩
      · exact Or.inl hm
      · exact Or.inr ⟨v, congrArg Prod.snd hm⟩
    · exact Or.inr hm

theorem mem_childFold (janky : Feature) :
    ∀ (js : List String) (l : List (String × Feature)) (e : String × Feature),
      e ∈ js.foldl (fun fs f => modifyS f (gchild janky) fs) l →
      e ∈ l ∨ ∃ v, e.2 = gchild janky v := by
  intro js
  induction js with
  | nil =>
    intro l e he
    exact Or.inl he
  | cons j js ih =>
    intro l e he
    rw [List.foldl_cons] at he
    rcases ih _ e he with hm | hm
    · rcases mem_modifyS hm with hm | ⟨v, _, hm⟩
      · exact Or.inl hm
      · exact Or.inr ⟨v, congrArg Prod.snd hm⟩
    · exact Or.inr hm

theorem mem_depsFold (janky : Feature) :
    ∀ (js : List (String × DepAction)) (l : List (String × Feature)) (e : String × Feature),
      e ∈ js.foldl (fun fs da =>
        if !da.2.is_dep_only && !(janky.enables_features.contains da.1) then
          modifyS da.1 (gdep janky) fs
        else fs) l →
      e ∈ l ∨ ∃ v, e.2 = gdep janky v := by
  intro js
  induction js with
  | nil =>
    intro l e he
    exact Or.inl he
  | cons j js ih =>
    intro l e he
    rw [List.foldl_cons] at he
    rcases ih _ e he with hm | hm
    · by_cases hc : (!j.2.is_dep_only && !(janky.enables_features.contains j.1) : Bool) = true
      · rw [if_pos hc] at hm
        rcases mem_modifyS hm with hm | ⟨v, _, hm⟩
        · exact Or.inl hm
        · exact Or.inr ⟨v, congrArg Prod.snd hm⟩
      · rw [if_neg hc] at hm
        exact Or.inl hm
    · exact Or.inr hm

theorem keysS_parentFold (janky : Feature) :
    ∀ (js : List String) (l : List (String × Feature)),
      keysS (js.foldl (fun fs parent_key => modifyS parent_key (gpar janky) fs) l) = keysS l := by
  intro js
  induction js with
  | nil =>
    intro l
    rfl
  | cons j js ih =>
    intro l
    rw [List.foldl_cons, ih, keysS_modifyS]

theorem keysS_childFold (janky : Feature) :
    ∀ (js : List String) (l : List (String × Feature)),
      keysS (js.foldl (fun fs f => modifyS f (gchild janky) fs) l) = keysS l := by
  intro js
  induction js with
  | nil =>
    intro l
    rfl
  | cons j js ih =>
    intro l
    rw [List.foldl_cons, ih, keysS_modifyS]

theorem keysS_depsFold (janky : Feature) :
    ∀ (js : List (String × DepAction)) (l : List (String × Feature)),
      keysS (js.foldl (fun fs da =>
        if !da.2.is_dep_only && !(janky.enables_features.contains da.1) then
          modifyS da.1 (gdep janky) fs
        else fs) l) = keysS l := by
  intro js
  induction js with
  | nil =>
    intro l
    rfl
  | cons j js ih =>
    intro l
    rw [List.foldl_cons, ih]
    by_cases hc : (!j.2.is_dep_only && !(janky.enables_features.contains j.1) : Bool) = true
    · rw [if_pos hc, keysS_modifyS]
    · rw [if_neg hc]

/-- `f'` keeps every `enabled_by` member of `f` other than `h`. -/
def EbKeep (h : String) (f f' : Feature) : Prop :=
  ∀ y ∈ f.enabled_by, y ≠ h → y ∈ f'.enabled_by

theorem ebKeep_refl (h : String) (f : Feature) : EbKeep h f f :=
  fun y hy _ => hy

theorem ebKeep_trans {h : String} {a b c : Feature}
    (h1 : EbKeep h a b) (h2 : EbKeep h b c) : EbKeep h a c :=
  fun y hy hne => h2 y (h1 y hy hne) hne

theorem ebKeep_gpar {janky : Feature} {h : String} (hk : janky.key = h) (f : Feature) :
    EbKeep h f (gpar janky f) := by
  intro y hy hne
  rw [gpar_eb, hk]
  exact mem_eraseS_of_ne hne hy

theorem ebKeep_gchild {janky : Feature} {h : String} (hk : janky.key = h) (f : Feature) :
    EbKeep h f (gchild janky f) := by
  intro y hy hne
  rw [gchild_eb, hk]
  exact mem_eraseS_of_ne hne (mem_unionS_left hy)

theorem ebKeep_gdep {janky : Feature} {h : String} (hk : janky.key = h) (f : Feature) :
    EbKeep h f (gdep janky f) := by
  intro y hy hne
  rw [gdep_eb, hk]
  exact mem_eraseS_of_ne hne (mem_unionS_left hy)

theorem rel_parentFold {janky : Feature} {h : String} (hk : janky.key = h) :
    ∀ (js : List String) (l : List (String × Feature)) (k : String) (w : Feature),
      lookupS k (js.foldl (fun fs parent_key => modifyS parent_key (gpar janky) fs) l) = some w →
      ∃ v, lookupS k l = some v ∧ EbKeep h v w := by
  intro js
  induction js with
  | nil =>
    intro l k w hw
    exact ⟨w, hw, ebKeep_refl h w⟩
  | cons j js ih =>
    intro l k w hw
    rw [List.foldl_cons] at hw
    obtain ⟨v1, hv1, hkeep⟩ := ih _ k w hw
    rw [lookup_modifyS] at hv1
    by_cases hkj : k = j
    · rw [if_pos hkj] at hv1
      cases hl : lookupS k l with
      | none =>
        rw [hl] at hv1
        exact absurd hv1 (by simp)
      | some v =>
        rw [hl] at hv1
        injection hv1 with hv1
        exact ⟨v, rfl, ebKeep_trans (hv1 ▸ ebKeep_gpar hk v) hkeep⟩
    · rw [if_neg hkj] at hv1
      exact ⟨v1, hv1, hkeep⟩

theorem rel_childFold {janky : Feature} {h : String} (hk : janky.key = h) :
    ∀ (js : List String) (l : List (String × Feature)) (k : String) (w : Feature),
      lookupS k (js.foldl (fun fs f => modifyS f (gchild janky) fs) l) = some w →
      ∃ v, lookupS k l = some v ∧ EbKeep h v w := by
  intro js
  induction js with
  | nil =>
    intro l k w hw
    exact ⟨w, hw, ebKeep_refl h w⟩
  | cons j js ih =>
    intro l k w hw
    rw [List.foldl_cons] at hw
    obtain ⟨v1, hv1, hkeep⟩ := ih _ k w hw
    rw [lookup_modifyS] at hv1
    by_cases hkj : k = j
    · rw [if_pos hkj] at hv1
      cases hl : lookupS k l with
      | none =>
        rw [hl] at hv1
        exact absurd hv1 (by simp)
      | some v =>
        rw [hl] at hv1
        injection hv1 with hv1
        exact ⟨v, rfl, ebKeep_trans (hv1 ▸ ebKeep_gchild hk v) hkeep⟩
    · rw [if_neg hkj] at hv1
      exact ⟨v1, hv1, hkeep⟩

theorem rel_depsFold {janky : Feature} {h : String} (hk : janky.key = h) :
    ∀ (js : List (String × DepAction)) (l : List (String × Feature)) (k : String) (w : Feature),
      lookupS k (js.foldl (fun fs da =>
        if !da.2.is_dep_only && !(janky.enables_features.contains da.1) then
          modifyS da.1 (gdep janky) fs
        else fs) l) = some w →
      ∃ v, lookupS k l = some v ∧ EbKeep h v w := by
  intro js
  induction js with
  | nil =>
    intro l k w hw
    exact ⟨w, hw, ebKeep_refl h w⟩
  | cons j js ih =>
    intro l k w hw
    rw [List.foldl_cons] at hw
    obtain ⟨v1, hv1, hkeep⟩ := ih _ k w hw
    by_cases hc : (!j.2.is_dep_only && !(janky.enables_features.contains j.1) : Bool) = true
    · rw [if_pos hc, lookup_modifyS] at hv1
      by_cases hkj : k = j.1
      · rw [if_pos hkj] at hv1
        cases hl : lookupS k l with
        | none =>
          rw [hl] at hv1
          exact absurd hv1 (by simp)
        | some v =>
          rw [hl] at hv1
          injection hv1 with hv1
          exact ⟨v, rfl, ebKeep_trans (hv1 ▸ ebKeep_gdep hk v) hkeep⟩
      · rw [if_neg hkj] at hv1
        exact ⟨v1, hv1, hkeep⟩
    · rw [if_neg hc] at hv1
      exact ⟨v1, hv1, hkeep⟩

theorem nohit_parentFold (janky : Feature) :
    ∀ (js : List String) (l : List (String × Feature)) (k : String), k ∉ js →
      lookupS k (js.foldl (fun fs parent_key => modifyS parent_key (gpar janky) fs) l)
        = lookupS k l := by
  intro js
  induction js with
  | nil =>
    intro l k _
    rfl
  | cons j js ih =>
    intro l k hk
    rw [List.foldl_cons, ih _ k (fun hc => hk (List.mem_cons_of_mem j hc)), lookup_modifyS]
    rw [if_neg (show ¬(k = j) from fun hc => hk (hc ▸ List.mem_cons_self j js))]

theorem nohit_childFold (janky : Feature) :
    ∀ (js : List String) (l : List (String × Feature)) (k : String), k ∉ js →
      lookupS k (js.foldl (fun fs f => modifyS f (gchild janky) fs) l) = lookupS k l := by
  intro js
  induction js with
  | nil =>
    intro l k _
    rfl
  | cons j js ih =>
    intro l k hk
    rw [List.foldl_cons, ih _ k (fun hc => hk (List.mem_cons_of_mem j hc)), lookup_modifyS]
    rw [if_neg (show ¬(k = j) from fun hc => hk (hc ▸ List.mem_cons_self j js))]

theorem hit_parentFold (janky : Feature) :
    ∀ (js : List String) (l : List (String × Feature)) (k : String), k ∈ js →
      ∀ w, lookupS k (js.foldl (fun fs parent_key => modifyS parent_key (gpar janky) fs) l)
          = some w →
        ∃ v, w = gpar janky v := by
  intro js
  induction js with
  | nil =>
    intro l k hk
    exact absurd hk (List.not_mem_nil k)
  | cons j js ih =>
    intro l k hk w hw
    rw [List.foldl_cons] at hw
    by_cases hks : k ∈ js
    · exact ih _ k hks w hw
    · have hkj : k = j := by
        rcases List.mem_cons.mp hk with h | h
        · exact h
        · exact absurd h hks
      subst hkj
      rw [nohit_parentFold janky js _ k hks, lookup_modifyS, if_pos rfl] at hw
      cases hl : lookupS k l with
      | none =>
        rw [hl] at hw
        exact absurd hw (by simp)
      | some v =>
        rw [hl] at hw
        injection hw with hw
        exact ⟨v, hw.symm⟩

theorem hit_childFold (janky : Feature) :
    ∀ (js : List String) (l : List (String × Feature)) (k : String), k ∈ js →
      ∀ w, lookupS k (js.foldl (fun fs f => modifyS f (gchild janky) fs) l) = some w →
        ∃ v, w = gchild janky v := by
  intro js
  induction js with
  | nil =>
    intro l k hk
    exact absurd hk (List.not_mem_nil k)
  | cons j js ih =>
    intro l k hk w hw
    rw [List.foldl_cons] at hw
    by_cases hks : k ∈ js
    · exact ih _ k hks w hw
    · have hkj : k = j := by
        rcases List.mem_cons.mp hk with h | h
        · exact h
        · exact absurd h hks
      subst hkj
      rw [nohit_childFold janky js _ k hks, lookup_modifyS, if_pos rfl] at hw
      cases hl : lookupS k l with
      | none =>
        rw [hl] at hw
        exact absurd hw (by simp)
      | some v =>
        rw [hl] at hw
        injection hw with hw
        exact ⟨v, hw.symm⟩

theorem mem_modifyS_key {κ α : Type} [DecidableEq κ] {k : κ} {g : α → α} :
    ∀ {l : List (κ × α)} {e : κ × α}, e ∈ modifyS k g l →
      e ∈ l ∨ (e.1 = k ∧ ∃ v, (e.1, v) ∈ l ∧ e = (e.1, g v)) := by
  intro l
  induction l with
  | nil =>
    intro e he
    exact absurd he (List.not_mem_nil e)
  | cons a t ih =>
    intro e he
    unfold modifyS at he
    by_cases h1 : a.1 = k
    · rw [if_pos h1] at he
      rcases List.mem_cons.mp he with he | he
      · subst he
        exact Or.inr ⟨h1, a.2, List.mem_cons_self a t, rfl⟩
      · exact Or.inl (List.mem_cons_of_mem a he)
    · rw [if_neg h1] at he
      rcases List.mem_cons.mp he with he | he
      · exact Or.inl (he ▸ List.mem_cons_self a t)
      · rcases ih he with h | ⟨hk, v, hv, hev⟩
        · exact Or.inl (List.mem_cons_of_mem a h)
        · exact Or.inr ⟨hk, v, List.mem_cons_of_mem a hv, hev⟩

/-- Every stored feature's `key` field equals its map key. -/
def KC (l : List (String × Feature)) : Prop :=
  ∀ e ∈ l, e.2.key = e.1

theorem kc_modifyS (k : String) (g : Feature → Feature) (l : List (String × Feature))
    (hg : ∀ f, (g f).key = f.key) (h : KC l) : KC (modifyS k g l) := by
  intro e he
  rcases mem_modifyS he with hm | ⟨v, hv, hm⟩
  · exact h e hm
  · rw [hm]
    show (g v).key = e.1
    rw [hg v]
    exact h (e.1, v) hv

theorem kc_eraseKeyS (k : String) {l : List (String × Feature)} (h : KC l) :
    KC (eraseKeyS k l) :=
  fun e he => h e (mem_eraseKeyS he).1

/-- No stored feature enables `H` through `enables_features`. -/
def NoEF (H : String) (l : List (String × Feature)) : Prop :=
  ∀ e ∈ l, H ∉ e.2.enables_features

theorem noef_modifyS {H : String} (k : String) (g : Feature → Feature)
    (l : List (String × Feature))
    (hg : ∀ f, H ∉ f.enables_features → H ∉ (g f).enables_features)
    (h : NoEF H l) : NoEF H (modifyS k g l) := by
  intro e he
  rcases mem_modifyS he with hm | ⟨v, hv, hm⟩
  · exact h e hm
  · rw [hm]
    exact hg v (h (e.1, v) hv)

theorem kc_removeOneHidden (st : List (String × Feature) × List (String × List String))
    (key : String) (h : KC st.1) : KC (removeOneHidden st key).1 := by
  cases hl : lookupS key st.1 with
  | none =>
    unfold removeOneHidden
    rw [hl]
    exact h
  | some janky =>
    rw [removeOneHidden_some st key janky hl]
    show KC (depsFold janky (childFold janky (parentFold janky (eraseKeyS key st.1))))
    unfold depsFold childFold parentFold
    refine @foldl_preserves _ _ KC _ ?_ _ _
      (@foldl_preserves _ _ KC _ ?_ _ _
        (@foldl_preserves _ _ KC _ ?_ _ _ (kc_eraseKeyS key h)))
    · intro fs da hP
      by_cases hc : (!da.2.is_dep_only && !(janky.enables_features.contains da.1) : Bool) = true
      · rw [if_pos hc]
        exact kc_modifyS _ _ _ (gdep_key janky) hP
      · rw [if_neg hc]
        exact hP
    · intro fs f hP
      exact kc_modifyS _ _ _ (gchild_key janky) hP
    · intro fs pk hP
      exact kc_modifyS _ _ _ (gpar_key janky) hP

theorem nodupKeys_removeOneHidden (st : List (String × Feature) × List (String × List String))
    (key : String) (h : (keysS st.1).Nodup) : (keysS (removeOneHidden st key).1).Nodup := by
  cases hl : lookupS key st.1 with
  | none =>
    unfold removeOneHidden
    rw [hl]
    exact h
  | some janky =>
    rw [removeOneHidden_some st key janky hl]
    show (keysS (depsFold janky (childFold janky (parentFold janky (eraseKeyS key st.1))))).Nodup
    unfold depsFold childFold parentFold
    rw [keysS_depsFold, keysS_childFold, keysS_parentFold]
    exact nodupKeys_eraseKeyS key h

theorem noef_removeOneHidden {H : String}
    (st : List (String × Feature) × List (String × List String)) (key : String)
    (h : NoEF H st.1) : NoEF H (removeOneHidden st key).1 := by
  cases hl : lookupS key st.1 with
  | none =>
    unfold removeOneHidden
    rw [hl]
    exact h
  | some janky =>
    have hjef : H ∉ janky.enables_features := h (key, janky) (lookupS_mem hl)
    rw [removeOneHidden_some st key janky hl]
    show NoEF H (depsFold janky (childFold janky (parentFold janky (eraseKeyS key st.1))))
    unfold depsFold childFold parentFold
    refine @foldl_preserves _ _ (NoEF H) _ ?_ _ _
      (@foldl_preserves _ _ (NoEF H) _ ?_ _ _
        (@foldl_preserves _ _ (NoEF H) _ ?_ _ _
          (fun e he => h e (mem_eraseKeyS he).1)))
    · intro fs da hP
      by_cases hc : (!da.2.is_dep_only && !(janky.enables_features.contains da.1) : Bool) = true
      · rw [if_pos hc]
        refine noef_modifyS _ _ _ (fun f hf => ?_) hP
        rw [gdep_ef]
        exact hf
      · rw [if_neg hc]
        exact hP
    · intro fs f hP
      refine noef_modifyS _ _ _ (fun f hf => ?_) hP
      rw [gchild_ef]
      exact hf
    · intro fs pk hP
      refine noef_modifyS _ _ _ (fun f hf hc => ?_) hP
      rw [gpar_ef] at hc
      rcases mem_unionS (mem_eraseS hc).1 with hc | hc
      · exact hf hc
      · exact hjef hc

theorem purge_step (st : List (String × Feature) × List (String × List String))
    (h : String) (janky : Feature) (hl : lookupS h st.1 = some janky)
    (hkc : KC st.1) (hnd : (keysS st.1).Nodup)
    (hD : ∀ e ∈ st.1, h ∈ e.2.enables_features → ¬(e.1 = h) →
      ∃ jf, lookupS h st.1 = some jf ∧ e.1 ∈ jf.enabled_by) :
    NoEF h (removeOneHidden st h).1 := by
  have hjk : janky.key = h := hkc (h, janky) (lookupS_mem hl)
  rw [removeOneHidden_some st h janky hl]
  show NoEF h (depsFold janky (childFold janky (parentFold janky (eraseKeyS h st.1))))
  have hstep1 : NoEF h (parentFold janky (eraseKeyS h st.1)) := by
    unfold parentFold
    intro e he hef
    rcases mem_parentFold janky _ _ e he with hm | ⟨v, hv⟩
    · obtain ⟨hmem, hne⟩ := mem_eraseKeyS hm
      obtain ⟨jf, hjf, hpe⟩ := hD e hmem hef hne
      rw [hl] at hjf
      injection hjf with hjf
      subst hjf
      have hnd1 : (keysS (janky.enabled_by.foldl
          (fun fs parent_key => modifyS parent_key (gpar janky) fs)
          (eraseKeyS h st.1))).Nodup := by
        rw [keysS_parentFold]
        exact nodupKeys_eraseKeyS h hnd
      have hlook : lookupS e.1 (janky.enabled_by.foldl
          (fun fs parent_key => modifyS parent_key (gpar janky) fs)
          (eraseKeyS h st.1)) = some e.2 := lookup_of_mem_nodup hnd1 he
      obtain ⟨w, hw⟩ := hit_parentFold janky _ _ e.1 hpe e.2 hlook
      rw [hw, gpar_ef, hjk] at hef
      exact not_mem_eraseS_self hef
    · rw [hv, gpar_ef, hjk] at hef
      exact not_mem_eraseS_self hef
  unfold depsFold childFold
  refine @foldl_preserves _ _ (NoEF h) _ ?_ _ _
    (@foldl_preserves _ _ (NoEF h) _ ?_ _ _ hstep1)
  · intro fs da hP
    by_cases hc : (!da.2.is_dep_only && !(janky.enables_features.contains da.1) : Bool) = true
    · rw [if_pos hc]
      refine noef_modifyS _ _ _ (fun f hf => ?_) hP
      rw [gdep_ef]
      exact hf
    · rw [if_neg hc]
      exact hP
  · intro fs f hP
    refine noef_modifyS _ _ _ (fun f hf => ?_) hP
    rw [gchild_ef]
    exact hf

/-- Every feature's `enables_features` is bounded by its original set plus —
for predecessors of the hidden node — the hidden node's set. -/
def EfBound (base : List (String × Feature)) (janky : Feature)
    (l : List (String × Feature)) : Prop :=
  ∀ e ∈ l, ∃ v0, (e.1, v0) ∈ base ∧
    ∀ y ∈ e.2.enables_features, y ∈ v0.enables_features ∨
      (e.1 ∈ janky.enabled_by ∧ y ∈ janky.enables_features)

theorem efbound_parentFold (base : List (String × Feature)) (janky : Feature) :
    ∀ (js : List String), (∀ j ∈ js, j ∈ janky.enabled_by) →
      ∀ (l : List (String × Feature)), EfBound base janky l →
      EfBound base janky
        (js.foldl (fun fs parent_key => modifyS parent_key (gpar janky) fs) l) := by
  intro js
  induction js with
  | nil =>
    intro _ l h
    exact h
  | cons j js ih =>
    intro hjs l h
    rw [List.foldl_cons]
    refine ih (fun x hx => hjs x (List.mem_cons_of_mem j hx)) _ ?_
    intro e he
    rcases mem_modifyS_key he with hm | ⟨hek, v, hv, hev⟩
    · exact h e hm
    · obtain ⟨v0, hv0, hb⟩ := h (e.1, v) hv
      refine ⟨v0, hv0, ?_⟩
      have he2 : e.2 = gpar janky v := congrArg Prod.snd hev
      rw [he2, gpar_ef]
      intro y hy
      rcases mem_unionS (mem_eraseS hy).1 with hy | hy
      · exact hb y hy
      · refine Or.inr ⟨?_, hy⟩
        rw [hek]
        exact hjs j (List.mem_cons_self j js)

theorem efbound_childFold (base : List (String × Feature)) (janky : Feature) :
    ∀ (js : List String) (l : List (String × Feature)), EfBound base janky l →
      EfBound base janky (js.foldl (fun fs f => modifyS f (gchild janky) fs) l) := by
  intro js l h
  refine @foldl_preserves _ _ (EfBound base janky) _ ?_ js l h
  intro fs f hP e he
  rcases mem_modifyS he with hm | ⟨v, hv, hev⟩
  · exact hP e hm
  · obtain ⟨v0, hv0, hb⟩ := hP (e.1, v) hv
    refine ⟨v0, hv0, ?_⟩
    have he2 : e.2 = gchild janky v := congrArg Prod.snd hev
    rw [he2, gchild_ef]
    exact hb

theorem efbound_depsFold (base : List (String × Feature)) (janky : Feature) :
    ∀ (js : List (String × DepAction)) (l : List (String × Feature)), EfBound base janky l →
      EfBound base janky (js.foldl (fun fs da =>
        if !da.2.is_dep_only && !(janky.enables_features.contains da.1) then
          modifyS da.1 (gdep janky) fs
        else fs) l) := by
  intro js l h
  refine @foldl_preserves _ _ (EfBound base janky) _ ?_ js l h
  intro fs da hP
  by_cases hc : (!da.2.is_dep_only && !(janky.enables_features.contains da.1) : Bool) = true
  · rw [if_pos hc]
    intro e he
    rcases mem_modifyS he with hm | ⟨v, hv, hev⟩
    · exact hP e hm
    · obtain ⟨v0, hv0, hb⟩ := hP (e.1, v) hv
      refine ⟨v0, hv0, ?_⟩
      have he2 : e.2 = gdep janky v := congrArg Prod.snd hev
      rw [he2, gdep_ef]
      exact hb
  · rw [if_neg hc]
    exact hP

theorem backedge_step (st : List (String × Feature) × List (String × List String))
    (h h2 : String) (janky : Feature) (hl : lookupS h st.1 = some janky)
    (hkc : KC st.1) (hne : h2 ≠ h)
    (jf0 : Feature) (hjf0 : lookupS h2 st.1 = some jf0)
    (hD2 : ∀ e ∈ st.1, h2 ∈ e.2.enables_features → ¬(e.1 = h2) →
      ∃ jf, lookupS h2 st.1 = some jf ∧ e.1 ∈ jf.enabled_by) :
    ∀ e ∈ (removeOneHidden st h).1, h2 ∈ e.2.enables_features → ¬(e.1 = h2) →
      ∃ jf, lookupS h2 (removeOneHidden st h).1 = some jf ∧ e.1 ∈ jf.enabled_by := by
  have hjk : janky.key = h := hkc (h, janky) (lookupS_mem hl)
  rw [removeOneHidden_some st h janky hl]
  dsimp only
  unfold depsFold childFold parentFold
  have h00 : lookupS h2 (eraseKeyS h st.1) = some jf0 := by
    rw [lookup_eraseKeyS, if_neg hne]
    exact hjf0
  have hk0 : h2 ∈ keysS (eraseKeyS h st.1) :=
    lookup_isSome_iff_mem_keys.mp (by rw [h00]; rfl)
  have hk2 : h2 ∈ keysS (janky.enables_features.foldl
      (fun fs f => modifyS f (gchild janky) fs)
      (janky.enabled_by.foldl (fun fs parent_key => modifyS parent_key (gpar janky) fs)
        (eraseKeyS h st.1))) := by
    rw [keysS_childFold, keysS_parentFold]
    exact hk0
  have hk3 : h2 ∈ keysS (janky.enables_deps.foldl (fun fs da =>
      if !da.2.is_dep_only && !(janky.enables_features.contains da.1) then
        modifyS da.1 (gdep janky) fs
      else fs)
      (janky.enables_features.foldl (fun fs f => modifyS f (gchild janky) fs)
        (janky.enabled_by.foldl (fun fs parent_key => modifyS parent_key (gpar janky) fs)
          (eraseKeyS h st.1)))) := by
    rw [keysS_depsFold]
    exact hk2
  obtain ⟨jfN, hjfN⟩ := Option.isSome_iff_exists.mp (lookup_isSome_iff_mem_keys.mpr hk3)
  have hbase : EfBound st.1 janky (eraseKeyS h st.1) :=
    fun e he => ⟨e.2, (mem_eraseKeyS he).1, fun y hy => Or.inl hy⟩
  have hbound := efbound_depsFold st.1 janky janky.enables_deps _
    (efbound_childFold st.1 janky janky.enables_features _
      (efbound_parentFold st.1 janky janky.enabled_by (fun j hj => hj) _ hbase))
  have hhk : h ∉ keysS (eraseKeyS h st.1) := by
    intro hc
    obtain ⟨p, hp, hpe⟩ := List.mem_map.mp hc
    exact (mem_eraseKeyS hp).2 hpe
  obtain ⟨v2x, hv2x, k2x⟩ := rel_depsFold hjk _ _ _ _ hjfN
  intro e he hef hneq
  refine ⟨jfN, hjfN, ?_⟩
  have heh : e.1 ≠ h := by
    intro hc
    refine hhk ?_
    have hmem : e.1 ∈ keysS (janky.enables_deps.foldl (fun fs da =>
        if !da.2.is_dep_only && !(janky.enables_features.contains da.1) then
          modifyS da.1 (gdep janky) fs
        else fs)
        (janky.enables_features.foldl (fun fs f => modifyS f (gchild janky) fs)
          (janky.enabled_by.foldl (fun fs parent_key => modifyS parent_key (gpar janky) fs)
            (eraseKeyS h st.1)))) :=
      List.mem_map.mpr ⟨e, he, rfl⟩
    rw [keysS_depsFold, keysS_childFold, keysS_parentFold] at hmem
    exact hc ▸ hmem
  obtain ⟨v0, hv0mem, hb⟩ := hbound e he
  rcases hb h2 hef with hcase | ⟨hpe, hcef⟩
  · obtain ⟨jf, hjf, hin⟩ := hD2 (e.1, v0) hv0mem hcase hneq
    rw [hjf0] at hjf
    injection hjf with hjf
    obtain ⟨v1x, hv1x, k1x⟩ := rel_childFold hjk _ _ _ _ hv2x
    obtain ⟨v0x, hv0x, k0x⟩ := rel_parentFold hjk _ _ _ _ hv1x
    rw [h00] at hv0x
    injection hv0x with hv0x
    have hin0 : e.1 ∈ v0x.enabled_by := hv0x ▸ (hjf.symm ▸ hin)
    exact k2x e.1 (k1x e.1 (k0x e.1 hin0 heh) heh) heh
  · have hw2some : (lookupS h2 (janky.enables_features.foldl
        (fun fs f => modifyS f (gchild janky) fs)
        (janky.enabled_by.foldl (fun fs parent_key => modifyS parent_key (gpar janky) fs)
          (eraseKeyS h st.1)))).isSome = true :=
      lookup_isSome_iff_mem_keys.mpr hk2
    obtain ⟨w2, hw2⟩ := Option.isSome_iff_exists.mp hw2some
    obtain ⟨vc, hvc⟩ := hit_childFold janky _ _ h2 hcef w2 hw2
    have hin2 : e.1 ∈ w2.enabled_by := by
      rw [hvc, gchild_eb, hjk]
      exact mem_eraseS_of_ne heh (mem_unionS_right hpe)
    rw [hw2] at hv2x
    injection hv2x with hv2x
    exact k2x e.1 (hv2x ▸ hin2) heh

theorem removal_purge :
    ∀ (Q : List String) (st : List (String × Feature) × List (String × List String)),
      Q.Chain' (· < ·) →
      KC st.1 → (keysS st.1).Nodup →
      (∀ h ∈ Q, (lookupS h st.1).isSome = true) →
      (∀ h ∈ Q, ∀ e ∈ st.1, h ∈ e.2.enables_features → ¬(e.1 = h) →
        ∃ jf, lookupS h st.1 = some jf ∧ e.1 ∈ jf.enabled_by) →
      ∀ h ∈ Q, NoEF h (Q.foldl removeOneHidden st).1 := by
  intro Q
  induction Q with
  | nil =>
    intro st _ _ _ _ _ h hh
    exact absurd hh (List.not_mem_nil h)
  | cons q Qt ih =>
    intro st hch hkc hnd hE hD h hh
    rw [List.foldl_cons]
    obtain ⟨janky, hjq⟩ := Option.isSome_iff_exists.mp (hE q (List.mem_cons_self q Qt))
    have hkc2 : KC (removeOneHidden st q).1 := kc_removeOneHidden st q hkc
    have hnd2 : (keysS (removeOneHidden st q).1).Nodup := nodupKeys_removeOneHidden st q hnd
    have hqt_ne : ∀ h2 ∈ Qt, h2 ≠ q := by
      intro h2 hh2 hc
      have hpair := List.chain'_iff_pairwise.mp hch
      have hlt := (List.pairwise_cons.mp hpair).1 h2 hh2
      exact absurd (hc ▸ hlt) (lt_irrefl h2)
    have hE2 : ∀ h2 ∈ Qt, (lookupS h2 (removeOneHidden st q).1).isSome = true := by
      intro h2 hh2
      obtain ⟨jf2, hjf2⟩ := Option.isSome_iff_exists.mp (hE h2 (List.mem_cons_of_mem q hh2))
      rw [removeOneHidden_some st q janky hjq]
      show (lookupS h2
        (depsFold janky (childFold janky (parentFold janky (eraseKeyS q st.1))))).isSome = true
      refine lookup_isSome_iff_mem_keys.mpr ?_
      unfold depsFold childFold parentFold
      rw [keysS_depsFold, keysS_childFold, keysS_parentFold]
      refine lookup_isSome_iff_mem_keys.mp ?_
      rw [lookup_eraseKeyS, if_neg (hqt_ne h2 hh2), hjf2]
      rfl
    have hD2 : ∀ h2 ∈ Qt, ∀ e ∈ (removeOneHidden st q).1, h2 ∈ e.2.enables_features →
        ¬(e.1 = h2) →
        ∃ jf, lookupS h2 (removeOneHidden st q).1 = some jf ∧ e.1 ∈ jf.enabled_by := by
      intro h2 hh2
      obtain ⟨jf0, hjf0⟩ := Option.isSome_iff_exists.mp (hE h2 (List.mem_cons_of_mem q hh2))
      exact backedge_step st q h2 janky hjq hkc (hqt_ne h2 hh2) jf0 hjf0
        (hD h2 (List.mem_cons_of_mem q hh2))
    rcases List.mem_cons.mp hh with rfl | hh
    · have hpurge : NoEF h (removeOneHidden st h).1 :=
        purge_step st h janky hjq hkc hnd (hD h (List.mem_cons_self h Qt))
      exact @foldl_preserves _ _
        (fun (st2 : List (String × Feature) × List (String × List String)) => NoEF h st2.1) _
        (fun st2 k hP => noef_removeOneHidden st2 k hP) Qt _ hpurge
    · exact ih _ hch.tail hkc2 hnd2 hE2 hD2 h hh

theorem kc_parseFeatures (l : List (String × List String)) (hd : Bool) :
    KC (parseFeatures l hd) := by
  unfold parseFeatures
  refine @foldl_preserves_mem _ _ (fun (acc : List (String × Feature)) => KC acc) _ _
    (fun acc x hx hP => ?_) _ (fun e he => absurd he (List.not_mem_nil e))
  intro e he
  rcases mem_alterS e he with hm | hm | ⟨v, _, hm⟩
  · exact hP e hm
  · rw [hm]
    obtain ⟨q, _, rfl⟩ := List.mem_map.mp hx
    rfl
  · rw [hm]
    obtain ⟨q, _, rfl⟩ := List.mem_map.mp hx
    rfl

theorem kc_addDependency (features : List (String × Feature))
    (deps : List (String × FeatureDependency)) (nud : Option Bool) (kind : Kind)
    (tgt : Option String) (key : String) (dep : Dependency)
    (h : KC features) : KC (addDependency features deps nud kind tgt key dep).1 := by
  unfold addDependency
  by_cases hret : (!dep.optional && nud.isNone && (lookupS key deps).isNone : Bool) = true
  · rw [if_pos hret]
    exact h
  · rw [if_neg hret]
    dsimp only
    by_cases hcond : (dep.optional && !(nud = some true : Bool) : Bool) = true
    · rw [if_pos hcond]
      intro e he
      rcases mem_alterS e he with hm | hm | ⟨v, hv, hm⟩
      · exact h e hm
      · rw [hm]
      · rw [hm]
        exact h (key, v) hv
    · rw [if_neg hcond]
      exact h

theorem kc_addImplied (features : List (String × Feature))
    (deps : List (String × FeatureDependency)) (crate_deps : List (String × Dependency))
    (named : List (String × Bool)) (kind : Kind) (tgt : Option String)
    (h : KC features) :
    KC (addImpliedOptionalDeps features deps crate_deps named kind tgt).1 := by
  unfold addImpliedOptionalDeps
  refine @foldl_preserves _ _
    (fun (st : List (String × Feature) × List (String × FeatureDependency)) => KC st.1)
    _ ?_ _ _ h
  intro st e hP
  exact kc_addDependency st.1 st.2 _ _ _ _ _ hP

theorem kc_addDependencies (named : List (String × Bool))
    (features : List (String × Feature)) (m : Manifest) (h : KC features) :
    KC (addDependencies named features m).1 := by
  unfold addDependencies
  have hTgt1 : ∀ (tl : List (String × TargetDeps))
      (st : List (String × Feature) × List (String × FeatureDependency)), KC st.1 →
      KC ((tl.foldl (fun st tgt =>
        let st := addImpliedOptionalDeps st.1 st.2 tgt.2.dependencies named Kind.Normal
          (some tgt.1)
        addImpliedOptionalDeps st.1 st.2 tgt.2.build_dependencies named Kind.Build
          (some tgt.1)) st)).1 := by
    intro tl st h0
    refine @foldl_preserves _ _
      (fun (st : List (String × Feature) × List (String × FeatureDependency)) => KC st.1)
      _ ?_ tl st h0
    intro st tgt hP
    exact kc_addImplied _ _ _ _ _ _ (kc_addImplied _ _ _ _ _ _ hP)
  have hTgt2 : ∀ (tl : List (String × TargetDeps))
      (st : List (String × Feature) × List (String × FeatureDependency)), KC st.1 →
      KC ((tl.foldl (fun st tgt =>
        addImpliedOptionalDeps st.1 st.2 tgt.2.dev_dependencies named Kind.Dev
          (some tgt.1)) st)).1 := by
    intro tl st h0
    refine @foldl_preserves _ _
      (fun (st : List (String × Feature) × List (String × FeatureDependency)) => KC st.1)
      _ ?_ tl st h0
    intro st tgt hP
    exact kc_addImplied _ _ _ _ _ _ hP
  exact hTgt2 m.target _
    (kc_addImplied _ _ _ _ _ _
      (hTgt1 m.target _
        (kc_addImplied _ _ _ _ _ _
          (kc_addImplied _ _ _ _ _ _ h))))

theorem kc_setRequiredByBins (features : List (String × Feature))
    (bin : List Product) (pn : String) (h : KC features) :
    KC (setRequiredByBins features bin pn) := by
  unfold setRequiredByBins
  refine @foldl_preserves _ _ (fun (fs : List (String × Feature)) => KC fs) _ ?_ _ _ h
  intro fs b hP
  refine @foldl_preserves _ _ (fun (fs : List (String × Feature)) => KC fs) _ ?_ _ _ hP
  intro fs2 f hP2
  exact kc_modifyS _ _ _ (fun _ => rfl) hP2

theorem kc_removeRedundant (features : List (String × Feature))
    (deps : List (String × FeatureDependency)) (h : KC features) :
    KC (removeRedundantDepActionFeatures features deps) := by
  intro e he
  obtain ⟨q, hq, rfl⟩ := List.mem_map.mp he
  show ({ q.2 with enables_deps := _ } : Feature).key = q.1
  exact h q hq

theorem kc_setEnabledBy (entries features : List (String × Feature))
    (h : KC features) : KC (setEnabledBy entries features) := by
  unfold setEnabledBy
  refine @foldl_preserves _ _ (fun (fs : List (String × Feature)) => KC fs) _ ?_ _ _ h
  intro fs e hP
  exact kc_modifyS _ _ _ (fun _ => rfl) hP

theorem kc_linked (m : Manifest) : KC (linkedFeatures m) := by
  unfold linkedFeatures
  refine kc_setEnabledBy _ _ ?_
  unfold preLinkFeatures
  exact kc_removeRedundant _ _
    (kc_setRequiredByBins _ _ _
      (kc_addDependencies _ _ m (kc_parseFeatures _ _)))

theorem keysS_mapValS {κ α : Type} (g : κ → α → α) :
    ∀ l : List (κ × α), keysS (mapValS g l) = keysS l := by
  intro l
  induction l with
  | nil => rfl
  | cons e t ih =>
    show e.1 :: keysS (mapValS g t) = e.1 :: keysS t
    rw [ih]

theorem keysSorted_modifyS {κ α : Type} [DecidableEq κ] [LinearOrder κ]
    (k : κ) (g : α → α) (l : List (κ × α)) (h : KeysSorted l) :
    KeysSorted (modifyS k g l) := by
  show (keysS (modifyS k g l)).Chain' (· < ·)
  rw [keysS_modifyS]
  exact h

theorem keysSorted_addDependency (features : List (String × Feature))
    (deps : List (String × FeatureDependency)) (nud : Option Bool) (kind : Kind)
    (tgt : Option String) (key : String) (dep : Dependency)
    (h : KeysSorted features) :
    KeysSorted (addDependency features deps nud kind tgt key dep).1 := by
  unfold addDependency
  by_cases hret : (!dep.optional && nud.isNone && (lookupS key deps).isNone : Bool) = true
  · rw [if_pos hret]
    exact h
  · rw [if_neg hret]
    dsimp only
    by_cases hcond : (dep.optional && !(nud = some true : Bool) : Bool) = true
    · rw [if_pos hcond]
      exact keysSorted_alterS _ _ _ h
    · rw [if_neg hcond]
      exact h

theorem keysSorted_addImplied (features : List (String × Feature))
    (deps : List (String × FeatureDependency)) (crate_deps : List (String × Dependency))
    (named : List (String × Bool)) (kind : Kind) (tgt : Option String)
    (h : KeysSorted features) :
    KeysSorted (addImpliedOptionalDeps features deps crate_deps named kind tgt).1 := by
  unfold addImpliedOptionalDeps
  refine @foldl_preserves _ _
    (fun (st : List (String × Feature) × List (String × FeatureDependency)) =>
      KeysSorted st.1) _ ?_ _ _ h
  intro st e hP
  exact keysSorted_addDependency st.1 st.2 _ _ _ _ _ hP

theorem keysSorted_addDependencies (named : List (String × Bool))
    (features : List (String × Feature)) (m : Manifest) (h : KeysSorted features) :
    KeysSorted (addDependencies named features m).1 := by
  unfold addDependencies
  have hTgt1 : ∀ (tl : List (String × TargetDeps))
      (st : List (String × Feature) × List (String × FeatureDependency)), KeysSorted st.1 →
      KeysSorted ((tl.foldl (fun st tgt =>
        let st := addImpliedOptionalDeps st.1 st.2 tgt.2.dependencies named Kind.Normal
          (some tgt.1)
        addImpliedOptionalDeps st.1 st.2 tgt.2.build_dependencies named Kind.Build
          (some tgt.1)) st)).1 := by
    intro tl st h0
    refine @foldl_preserves _ _
      (fun (st : List (String × Feature) × List (String × FeatureDependency)) =>
        KeysSorted st.1) _ ?_ tl st h0
    intro st tgt hP
    exact keysSorted_addImplied _ _ _ _ _ _ (keysSorted_addImplied _ _ _ _ _ _ hP)
  have hTgt2 : ∀ (tl : List (String × TargetDeps))
      (st : List (String × Feature) × List (String × FeatureDependency)), KeysSorted st.1 →
      KeysSorted ((tl.foldl (fun st tgt =>
        addImpliedOptionalDeps st.1 st.2 tgt.2.dev_dependencies named Kind.Dev
          (some tgt.1)) st)).1 := by
    intro tl st h0
    refine @foldl_preserves _ _
      (fun (st : List (String × Feature) × List (String × FeatureDependency)) =>
        KeysSorted st.1) _ ?_ tl st h0
    intro st tgt hP
    exact keysSorted_addImplied _ _ _ _ _ _ hP
  exact hTgt2 m.target _
    (keysSorted_addImplied _ _ _ _ _ _
      (hTgt1 m.target _
        (keysSorted_addImplied _ _ _ _ _ _
          (keysSorted_addImplied _ _ _ _ _ _ h))))

theorem keysSorted_linked (m : Manifest) : KeysSorted (linkedFeatures m) := by
  unfold linkedFeatures setEnabledBy
  refine @foldl_preserves _ _ (fun (fs : List (String × Feature)) => KeysSorted fs) _ ?_ _ _ ?_
  · intro fs e hP
    exact keysSorted_modifyS _ _ _ hP
  · unfold preLinkFeatures
    show KeysSorted (removeRedundantDepActionFeatures _ _)
    unfold removeRedundantDepActionFeatures
    show (keysS (mapValS _ _)).Chain' (· < ·)
    rw [keysS_mapValS]
    refine ?_
    show KeysSorted (setRequiredByBins _ _ _)
    unfold setRequiredByBins
    refine @foldl_preserves _ _ (fun (fs : List (String × Feature)) => KeysSorted fs) _ ?_ _ _ ?_
    · intro fs b hP
      refine @foldl_preserves _ _ (fun (fs : List (String × Feature)) => KeysSorted fs) _ ?_ _ _ hP
      intro fs2 f hP2
      exact keysSorted_modifyS _ _ _ hP2
    · exact keysSorted_addDependencies _ _ m (keysSorted_parseFeatures _ _)

theorem head_insSorted {κ : Type} [DecidableEq κ] [LinearOrder κ] [LtB κ] (k : κ) :
    ∀ t : List κ, (insSorted k t).head? = some k ∨ (insSorted k t).head? = t.head? := by
  intro t
  cases t with
  | nil => exact Or.inl rfl
  | cons x t =>
    unfold insSorted
    by_cases h1 : LtB.ltb k x = true
    · rw [if_pos h1]
      exact Or.inl rfl
    · rw [if_neg h1]
      by_cases h2 : k = x
      · rw [if_pos h2]
        exact Or.inr rfl
      · rw [if_neg h2]
        exact Or.inr rfl

theorem chain_insSorted {κ : Type} [DecidableEq κ] [LinearOrder κ] [LtB κ] (k : κ) :
    ∀ l : List κ, l.Chain' (· < ·) → (insSorted k l).Chain' (· < ·) := by
  intro l
  induction l with
  | nil =>
    intro _
    simp [insSorted]
  | cons x t ih =>
    intro hch
    unfold insSorted
    by_cases h1 : LtB.ltb k x = true
    · rw [if_pos h1]
      exact List.chain'_cons.mpr ⟨ltb_iff_lt.mp h1, hch⟩
    · rw [if_neg h1]
      by_cases h2 : k = x
      · rw [if_pos h2]
        exact hch
      · rw [if_neg h2]
        have hxk : x < k := by
          rcases lt_trichotomy k x with hlt | heq | hgt
          · exact absurd (ltb_iff_lt.mpr hlt) h1
          · exact absurd heq h2
          · exact hgt
        refine List.chain'_cons'.mpr ⟨?_, ih (List.chain'_cons'.mp hch).2⟩
        intro y hy
        rcases head_insSorted k t with hh | hh
        · rw [hh] at hy
          injection hy with hy
          rw [← hy]
          exact hxk
        · rw [hh] at hy
          exact (List.chain'_cons'.mp hch).1 y hy

theorem chain_hidden_fold (r : Resolver) :
    ∀ (ks : List String) (acc : List String), acc.Chain' (· < ·) →
      (ks.foldl (fun acc k =>
        if kIsHidden k && !((r.always_keep).elim false (fun cb => cb k)) then insSorted k acc
        else acc) acc).Chain' (· < ·) := by
  intro ks acc h
  refine @foldl_preserves _ _ (fun (acc : List String) => acc.Chain' (· < ·)) _ ?_ ks acc h
  intro a k hP
  by_cases hc : (kIsHidden k && !((r.always_keep).elim false (fun cb => cb k)) : Bool) = true
  · rw [if_pos hc]
    exact chain_insSorted k a hP
  · rw [if_neg hc]
    exact hP

theorem mem_hidden_fold (r : Resolver) :
    ∀ (ks : List String) (acc : List String) (x : String),
      x ∈ ks.foldl (fun acc k =>
        if kIsHidden k && !((r.always_keep).elim false (fun cb => cb k)) then insSorted k acc
        else acc) acc →
      x ∈ ks ∨ x ∈ acc := by
  intro ks
  induction ks with
  | nil =>
    intro acc x hx
    exact Or.inr hx
  | cons k ks ih =>
    intro acc x hx
    rw [List.foldl_cons] at hx
    rcases ih _ x hx with hm | hm
    · exact Or.inl (List.mem_cons_of_mem k hm)
    · by_cases hc : (kIsHidden k && !((r.always_keep).elim false (fun cb => cb k)) : Bool) = true
      · rw [if_pos hc] at hm
        rcases (mem_insSorted k x acc).mp hm with hm | hm
        · exact Or.inl (hm ▸ List.mem_cons_self k ks)
        · exact Or.inr hm
      · rw [if_neg hc] at hm
        exact Or.inr hm

theorem backedge_init (m : Manifest) (h2 : String)
    (hpres : (lookupS h2 (linkedFeatures m)).isSome = true) :
    ∀ e ∈ linkedFeatures m, h2 ∈ e.2.enables_features → ¬(e.1 = h2) →
      ∃ jf, lookupS h2 (linkedFeatures m) = some jf ∧ e.1 ∈ jf.enabled_by := by
  intro e he hef hne
  obtain ⟨jf, hjf⟩ := Option.isSome_iff_exists.mp hpres
  refine ⟨jf, hjf, ?_⟩
  have hEB : EBEmpty (preLinkFeatures m) := ebempty_preLink m
  have hndA : (keysS (allEnabledBy (preLinkFeatures m))).Nodup :=
    keysSorted_nodup (keysSorted_allEnabledBy _)
  have hch := lookup_setEB_fold (allEnabledBy (preLinkFeatures m)) (preLinkFeatures m)
    hndA h2 jf hjf
  have heb : jf.enabled_by = (lookupS h2 (allEnabledBy (preLinkFeatures m))).getD [] := by
    rcases hch with ⟨v, hv, g, hg, hfg⟩ | ⟨hA, hfs⟩
    · rw [hfg, hv]
      rfl
    · rw [hA]
      exact hEB (h2, jf) (lookupS_mem hfs)
  rw [heb, mem_allEnabledBy]
  have hex : ∃ p ∈ preLinkFeatures m, p.1 = e.1 ∧ h2 ∈ p.2.enables_features :=
    (@exists_mem_setEB (fun p => p.1 = e.1 ∧ h2 ∈ p.2.enables_features)
      (fun a v w => Iff.rfl) (allEnabledBy (preLinkFeatures m)) (preLinkFeatures m)).mp
      ⟨e, he, rfl, hef⟩
  obtain ⟨p, hp, hp1, hpef⟩ := hex
  rw [List.any_eq_true]
  refine ⟨p, hp, ?_⟩
  simp only [Bool.and_eq_true, decide_eq_true_eq, enablesKeyB, Bool.or_eq_true,
    List.any_eq_true, Bool.not_eq_true', decide_eq_false_iff_not]
  exact ⟨hp1.symm, Or.inl ⟨h2, hpef, fun hc => hne (hp1.symm.trans hc.symm), rfl⟩⟩

theorem snd_keys_removeOneHidden (st : List (String × Feature) × List (String × List String))
    (key : String) (hkc : KC st.1) :
    ∀ x ∈ keysS (removeOneHidden st key).2, x ∈ keysS st.2 ∨ x = key := by
  cases hl : lookupS key st.1 with
  | none =>
    unfold removeOneHidden
    rw [hl]
    exact fun x hx => Or.inl hx
  | some janky =>
    rw [removeOneHidden_some st key janky hl]
    intro x hx
    obtain ⟨p, hp, hpe⟩ := List.mem_map.mp hx
    rcases mem_alterS p hp with hm | hm | ⟨v, _, hm⟩
    · exact Or.inl (List.mem_map.mpr ⟨p, hm, hpe⟩)
    · refine Or.inr ?_
      rw [← hpe, hm]
      exact hkc (key, janky) (lookupS_mem hl)
    · refine Or.inr ?_
      rw [← hpe, hm]
      exact hkc (key, janky) (lookupS_mem hl)

theorem snd_keys_removal_fold :
    ∀ (Q : List String) (st : List (String × Feature) × List (String × List String)),
      KC st.1 →
      ∀ x ∈ keysS (Q.foldl removeOneHidden st).2, x ∈ keysS st.2 ∨ x ∈ Q := by
  intro Q
  induction Q with
  | nil =>
    intro st _ x hx
    exact Or.inl hx
  | cons q Qt ih =>
    intro st hkc x hx
    rw [List.foldl_cons] at hx
    rcases ih _ (kc_removeOneHidden st q hkc) x hx with hm | hm
    · rcases snd_keys_removeOneHidden st q hkc x hm with hm | hm
      · exact Or.inl hm
      · exact Or.inr (hm ▸ List.mem_cons_self q Qt)
    · exact Or.inr (List.mem_cons_of_mem q hm)

/-- C1 (amended): the hidden-node inliner fully purges removed hidden keys
from every remaining feature's `enables_features` set (the claim's
`enables_deps`-keys and `enabled_by` parts are refuted by the
counterexample). -/
theorem C1_amended (r : Resolver) (m : Manifest) (H : String)
    (hH : containsKeyS H (r.parse m).hidden_features = true) :
    ∀ e ∈ (r.parse m).features, H ∉ e.2.enables_features := by
  rw [parse_features_eq]
  rw [parse_hidden_eq] at hH
  unfold removeHiddenFeatures at hH ⊢
  by_cases he : ((keysS (linkedFeatures m)).foldl (fun acc k =>
      if kIsHidden k && !((r.always_keep).elim false (fun cb => cb k)) then insSorted k acc
      else acc) []).isEmpty = true
  · rw [if_pos he] at hH
    exact absurd hH (by simp [containsKeyS, lookupS])
  · rw [if_neg he] at hH ⊢
    have hkc : KC (linkedFeatures m) := kc_linked m
    have hHR : H ∈ ((keysS (linkedFeatures m)).foldl (fun acc k =>
        if kIsHidden k && !((r.always_keep).elim false (fun cb => cb k)) then insSorted k acc
        else acc) []) := by
      have hmemk := lookup_isSome_iff_mem_keys.mp hH
      rcases snd_keys_removal_fold _ (linkedFeatures m, []) hkc H hmemk with hm | hm
      · exact absurd hm (by simp [keysS])
      · exact hm
    have hchain := chain_hidden_fold r (keysS (linkedFeatures m)) [] (by simp)
    have hnd : (keysS (linkedFeatures m)).Nodup := keysSorted_nodup (keysSorted_linked m)
    have hE : ∀ h ∈ ((keysS (linkedFeatures m)).foldl (fun acc k =>
        if kIsHidden k && !((r.always_keep).elim false (fun cb => cb k)) then insSorted k acc
        else acc) []), (lookupS h (linkedFeatures m)).isSome = true := by
      intro h hh
      rcases mem_hidden_fold r _ [] h hh with hm | hm
      · exact lookup_isSome_iff_mem_keys.mpr hm
      · exact absurd hm (List.not_mem_nil h)
    exact removal_purge _ (linkedFeatures m, []) hchain hkc hnd hE
      (fun h hh => backedge_init m h (hE h hh)) H hHR

/-- C1 counterexample manifest: hidden chain `__z = ["__a", "dep:c"]`,
`__a = ["c/f"]`, `__h` isolated, explicit `c`, and `f = ["__h/sub"]`
referencing the hidden `__h` through a dep-action; `c` is an optional
dependency. -/
def c1m : Manifest :=
  Manifest.mk "p"
    [("__a", ["c/f"]), ("__h", []), ("__z", ["__a", "dep:c"]), ("c", []), ("f", ["__h/sub"])]
    [("c", Dependency.Detailed (DependencyDetail.mk none true true []))] [] [] [] []

/-- C1 counterexample: hidden keys `__h` and `__z` are both removed
(present in `hidden_features`), yet the remaining feature `f` keeps `__h`
among its `enables_deps` keys and the remaining feature `c` keeps `__z` in
its `enabled_by` set. -/
theorem C1_counterexample :
    containsKeyS "__h" ((Resolver.mk none).parse c1m).hidden_features = true ∧
    containsKeyS "__z" ((Resolver.mk none).parse c1m).hidden_features = true ∧
    (∃ e ∈ ((Resolver.mk none).parse c1m).features,
      containsKeyS "__h" e.2.enables_deps = true) ∧
    (∃ e ∈ ((Resolver.mk none).parse c1m).features, "__z" ∈ e.2.enabled_by) := by
  exact ⟨by decide, by decide, by decide, by decide⟩

/-- Witness for the amended C1 at a concrete input: `__h` is removed and no
remaining feature holds it in `enables_features`. -/
theorem C1_amended_witness :
    containsKeyS "__h" ((Resolver.mk none).parse c1m).hidden_features = true ∧
    ∀ e ∈ ((Resolver.mk none).parse c1m).features, "__h" ∉ e.2.enables_features :=
  ⟨by decide, C1_amended (Resolver.mk none) c1m "__h" (by decide)⟩

/-! ## Claim C9 — determinism / hash-order independence -/

theorem sorted_plain_ext {κ : Type} [LinearOrder κ] :
    ∀ {l1 l2 : List κ}, l1.Chain' (· < ·) → l2.Chain' (· < ·) →
      (∀ x, x ∈ l1 ↔ x ∈ l2) → l1 = l2 := by
  intro l1
  induction l1 with
  | nil =>
    intro l2 _ _ hm
    cases l2 with
    | nil => rfl
    | cons y t2 => exact absurd ((hm y).mpr (List.mem_cons_self y t2)) (List.not_mem_nil y)
  | cons x t1 ih =>
    intro l2 h1 h2 hm
    cases l2 with
    | nil => exact absurd ((hm x).mp (List.mem_cons_self x t1)) (List.not_mem_nil x)
    | cons y t2 =>
      have hp1 := List.chain'_iff_pairwise.mp h1
      have hp2 := List.chain'_iff_pairwise.mp h2
      have hxy : x = y := by
        rcases List.mem_cons.mp ((hm x).mp (List.mem_cons_self x t1)) with h | h
        · exact h
        · rcases List.mem_cons.mp ((hm y).mpr (List.mem_cons_self y t2)) with h' | h'
          · exact h'.symm
          · have hyx := (List.pairwise_cons.mp hp1).1 y h'
            have hxy2 := (List.pairwise_cons.mp hp2).1 x h
            exact absurd (lt_trans hyx hxy2) (lt_irrefl x)
      subst hxy
      have hteq : t1 = t2 := by
        refine ih (List.chain'_cons'.mp h1).2 (List.chain'_cons'.mp h2).2 ?_
        intro z
        constructor
        · intro hz
          have hxz := (List.pairwise_cons.mp hp1).1 z hz
          rcases List.mem_cons.mp ((hm z).mp (List.mem_cons_of_mem x hz)) with h | h
          · exact absurd (h ▸ hxz) (lt_irrefl x)
          · exact h
        · intro hz
          have hxz := (List.pairwise_cons.mp hp2).1 z hz
          rcases List.mem_cons.mp ((hm z).mpr (List.mem_cons_of_mem x hz)) with h | h
          · exact absurd (h ▸ hxz) (lt_irrefl x)
          · exact h
      rw [hteq]

theorem lookup_head_sorted_none {κ α : Type} [DecidableEq κ] [LinearOrder κ]
    {e : κ × α} {t : List (κ × α)} (h : KeysSorted (e :: t)) :
    lookupS e.1 t = none := by
  refine lookupS_eq_none_of_all_ne ?_
  intro p hp hc
  have hpair := List.chain'_iff_pairwise.mp h
  have := (List.pairwise_cons.mp hpair).1 p.1 (List.mem_map.mpr ⟨p, hp, rfl⟩)
  exact absurd (hc ▸ this) (lt_irrefl e.1)

theorem sorted_ext {κ α : Type} [DecidableEq κ] [LinearOrder κ] :
    ∀ {l1 l2 : List (κ × α)}, KeysSorted l1 → KeysSorted l2 →
      (∀ k, lookupS k l1 = lookupS k l2) → l1 = l2 := by
  intro l1
  induction l1 with
  | nil =>
    intro l2 _ _ hm
    cases l2 with
    | nil => rfl
    | cons y t2 =>
      have := hm y.1
      rw [show lookupS y.1 (y :: t2) = some y.2 from by
        show (if y.1 = y.1 then some y.2 else lookupS y.1 t2) = some y.2
        rw [if_pos rfl]] at this
      exact absurd this (by simp [lookupS])
  | cons x t1 ih =>
    intro l2 h1 h2 hm
    cases l2 with
    | nil =>
      have := hm x.1
      rw [show lookupS x.1 (x :: t1) = some x.2 from by
        show (if x.1 = x.1 then some x.2 else lookupS x.1 t1) = some x.2
        rw [if_pos rfl]] at this
      exact absurd this (by simp [lookupS])
    | cons y t2 =>
      have hk1 : (keysS (x :: t1)).Nodup := keysSorted_nodup h1
      have hk2 : (keysS (y :: t2)).Nodup := keysSorted_nodup h2
      have hkeys : x.1 = y.1 := by
        by_contra hne
        have hx2 : lookupS x.1 (y :: t2) = some x.2 := by
          rw [← hm x.1]
          show (if x.1 = x.1 then some x.2 else lookupS x.1 t1) = some x.2
          rw [if_pos rfl]
        have hy1 : lookupS y.1 (x :: t1) = some y.2 := by
          rw [hm y.1]
          show (if y.1 = y.1 then some y.2 else lookupS y.1 t2) = some y.2
          rw [if_pos rfl]
        have hxm : x.1 ∈ keysS (y :: t2) :=
          lookup_isSome_iff_mem_keys.mp (by rw [hx2]; rfl)
        have hym : y.1 ∈ keysS (x :: t1) :=
          lookup_isSome_iff_mem_keys.mp (by rw [hy1]; rfl)
        have hp1 := List.chain'_iff_pairwise.mp h1
        have hp2 := List.chain'_iff_pairwise.mp h2
        have hxy : x.1 < y.1 := by
          rcases List.mem_cons.mp hym with h | h
          · exact absurd h.symm hne
          · exact (List.pairwise_cons.mp hp1).1 y.1 h
        have hyx : y.1 < x.1 := by
          rcases List.mem_cons.mp hxm with h | h
          · exact absurd h hne
          · exact (List.pairwise_cons.mp hp2).1 x.1 h
        exact absurd (lt_trans hxy hyx) (lt_irrefl x.1)
      have hvals : x.2 = y.2 := by
        have := hm x.1
        rw [show lookupS x.1 (x :: t1) = some x.2 from by
          show (if x.1 = x.1 then some x.2 else lookupS x.1 t1) = some x.2
          rw [if_pos rfl]] at this
        rw [show lookupS x.1 (y :: t2) = some y.2 from by
          show (if x.1 = y.1 then some y.2 else lookupS x.1 t2) = some y.2
          rw [if_pos hkeys]] at this
        injection this
      have hteq : t1 = t2 := by
        refine ih (List.chain'_cons'.mp h1).2 (List.chain'_cons'.mp h2).2 ?_
        intro k
        by_cases hke : k = x.1
        · rw [hke]
          rw [lookup_head_sorted_none h1]
          rw [show x.1 = y.1 from hkeys, lookup_head_sorted_none h2]
        · have := hm k
          rw [show lookupS k (x :: t1) = lookupS k t1 from by
            show (if k = x.1 then some x.2 else lookupS k t1) = lookupS k t1
            rw [if_neg hke]] at this
          rw [show lookupS k (y :: t2) = lookupS k t2 from by
            show (if k = y.1 then some y.2 else lookupS k t2) = lookupS k t2
            rw [if_neg (hkeys ▸ hke)]] at this
          exact this
      calc x :: t1 = (x.1, x.2) :: t1 := rfl
        _ = (y.1, y.2) :: t2 := by rw [hkeys, hvals, hteq]
        _ = y :: t2 := rfl

theorem perm_foldl_inv {α β : Type} (P : α → Prop) (f : α → β → α)
    (hpres : ∀ a x, P a → P (f a x))
    (hcomm : ∀ a x y, P a → f (f a x) y = f (f a y) x) :
    ∀ {l1 l2 : List β}, l1.Perm l2 → ∀ a, P a → l1.foldl f a = l2.foldl f a := by
  intro l1 l2 hp
  induction hp with
  | nil =>
    intro a _
    rfl
  | cons x hp ih =>
    intro a ha
    rw [List.foldl_cons, List.foldl_cons]
    exact ih _ (hpres a x ha)
  | swap x y l =>
    intro a ha
    rw [List.foldl_cons, List.foldl_cons, List.foldl_cons, List.foldl_cons, hcomm a y x ha]
  | trans h12 h23 ih1 ih2 =>
    intro a ha
    exact (ih1 a ha).trans (ih2 a ha)

theorem alter_comm_ne {κ α : Type} [DecidableEq κ] [LinearOrder κ] [LtB κ]
    {k1 k2 : κ} (f1 f2 : Option α → α) (l : List (κ × α)) (hs : KeysSorted l)
    (hne : k1 ≠ k2) :
    alterS k1 f1 (alterS k2 f2 l) = alterS k2 f2 (alterS k1 f1 l) := by
  refine sorted_ext (keysSorted_alterS _ _ _ (keysSorted_alterS _ _ _ hs))
    (keysSorted_alterS _ _ _ (keysSorted_alterS _ _ _ hs)) ?_
  intro k
  by_cases h1 : k = k1
  · subst h1
    rw [lookup_alterS_self k f1 _ (keysSorted_alterS _ _ _ hs),
      lookup_alterS_ne hne f2 l,
      lookup_alterS_ne hne f2 (alterS k f1 l),
      lookup_alterS_self k f1 l hs]
  · by_cases h2 : k = k2
    · subst h2
      rw [lookup_alterS_ne h1 f1 (alterS k f2 l),
        lookup_alterS_self k f2 l hs,
        lookup_alterS_self k f2 _ (keysSorted_alterS _ _ _ hs),
        lookup_alterS_ne h1 f1 l]
    · rw [lookup_alterS_ne h1 f1 _, lookup_alterS_ne h2 f2 l,
        lookup_alterS_ne h2 f2 _, lookup_alterS_ne h1 f1 l]

theorem alter_comm_same {κ α : Type} [DecidableEq κ] [LinearOrder κ] [LtB κ]
    {k : κ} (f1 f2 : Option α → α) (l : List (κ × α)) (hs : KeysSorted l)
    (hfg : f1 (some (f2 (lookupS k l))) = f2 (some (f1 (lookupS k l)))) :
    alterS k f1 (alterS k f2 l) = alterS k f2 (alterS k f1 l) := by
  refine sorted_ext (keysSorted_alterS _ _ _ (keysSorted_alterS _ _ _ hs))
    (keysSorted_alterS _ _ _ (keysSorted_alterS _ _ _ hs)) ?_
  intro k2
  by_cases h1 : k2 = k
  · subst h1
    rw [lookup_alterS_self k2 f1 _ (keysSorted_alterS _ _ _ hs),
      lookup_alterS_self k2 f2 l hs,
      lookup_alterS_self k2 f2 _ (keysSorted_alterS _ _ _ hs),
      lookup_alterS_self k2 f1 l hs, hfg]
  · rw [lookup_alterS_ne h1 f1 _, lookup_alterS_ne h1 f2 l,
      lookup_alterS_ne h1 f2 _, lookup_alterS_ne h1 f1 l]

theorem insSorted_comm {κ : Type} [DecidableEq κ] [LinearOrder κ] [LtB κ]
    (a b : κ) (l : List κ) (hs : l.Chain' (· < ·)) :
    insSorted a (insSorted b l) = insSorted b (insSorted a l) := by
  refine sorted_plain_ext (chain_insSorted a _ (chain_insSorted b l hs))
    (chain_insSorted b _ (chain_insSorted a l hs)) ?_
  intro x
  rw [mem_insSorted, mem_insSorted, mem_insSorted, mem_insSorted]
  tauto

theorem named_perm {entries1 entries2 : List (String × Feature)}
    (hp : entries1.Perm entries2) :
    namedUsingDepSyn entries1 = namedUsingDepSyn entries2 := by
  unfold namedUsingDepSyn
  have hseed : entries1.foldl (fun acc e => insertS e.1 false acc) []
      = entries2.foldl (fun acc e => insertS e.1 false acc) [] := by
    refine perm_foldl_inv KeysSorted _ ?_ ?_ hp [] keysSorted_nil
    · intro a x ha
      exact keysSorted_alterS _ _ _ ha
    · intro a x y ha
      by_cases hxy : x.1 = y.1
      · rw [hxy]
      · exact alter_comm_ne _ _ a ha (fun hc => hxy hc.symm)
  rw [hseed]
  have hsorted : KeysSorted (entries2.foldl (fun acc e => insertS e.1 false acc) []) := by
    refine @foldl_preserves _ _
      (fun (acc : List (String × Bool)) => KeysSorted acc) _ ?_ _ _ keysSorted_nil
    intro a e ha
    exact keysSorted_alterS _ _ _ ha
  have hflat : ∀ (es : List (String × Feature)) (acc : List (String × Bool)),
      es.foldl (fun acc e =>
        e.2.enables_deps.foldl
          (fun acc da =>
            alterS da.1
              (fun o =>
                match o with
                | some v => v || da.2.is_dep_only
                | none => da.2.is_dep_only) acc)
          acc) acc
      = (es.map (fun e => e.2.enables_deps)).flatten.foldl
          (fun acc da =>
            alterS da.1
              (fun o =>
                match o with
                | some v => v || da.2.is_dep_only
                | none => da.2.is_dep_only) acc) acc := by
    intro es acc
    rw [List.foldl_flatten, List.foldl_map]
  rw [hflat, hflat]
  refine perm_foldl_inv KeysSorted _ ?_ ?_
    ((List.Perm.map (fun e => e.2.enables_deps) hp).flatten) _ hsorted
  · intro a x ha
    exact keysSorted_alterS _ _ _ ha
  · intro a x y ha
    by_cases hxy : x.1 = y.1
    · rw [hxy]
      refine alter_comm_same _ _ a ha ?_
      cases lookupS y.1 a with
      | none =>
        show (x.2.is_dep_only || y.2.is_dep_only : Bool) = (y.2.is_dep_only || x.2.is_dep_only)
        rw [Bool.or_comm]
      | some v =>
        show (v || x.2.is_dep_only || y.2.is_dep_only : Bool)
          = (v || y.2.is_dep_only || x.2.is_dep_only)
        rw [Bool.or_assoc, Bool.or_assoc, Bool.or_comm x.2.is_dep_only]
    · exact alter_comm_ne _ _ a ha (fun hc => hxy hc.symm)

theorem foldl_guard_filter_map {α β γ : Type} (c : β → Bool) (t : β → γ) (g : α → γ → α) :
    ∀ (js : List β) (a : α),
      js.foldl (fun a j => if c j = true then g a (t j) else a) a
        = ((js.filter c).map t).foldl g a := by
  intro js
  induction js with
  | nil =>
    intro a
    rfl
  | cons j js ih =>
    intro a
    rw [List.foldl_cons]
    by_cases hc : c j = true
    · rw [if_pos hc, List.filter_cons_of_pos hc, List.map_cons, List.foldl_cons, ih]
    · rw [if_neg hc, List.filter_cons_of_neg (by simpa using hc), ih]

/-- The update stream of `all_enabled_by` contributed by one features entry:
pairs (affected key, enabling key). -/
def aebOps (e : String × Feature) : List (String × String) :=
  (e.2.enables_features.filter (fun a => !(a = e.1 : Bool))).map (fun a => (a, e.1)) ++
  (e.2.enables_deps.filter (fun da =>
    !da.2.is_conditional && !da.2.is_dep_only && !(da.1 = e.1 : Bool))).map
    (fun da => (da.1, e.1))

theorem aeb_entry_eq (e : String × Feature) (acc : List (String × List String)) :
    (e.2.enables_deps.foldl (fun acc da =>
        if !da.2.is_conditional && !da.2.is_dep_only && !(da.1 = e.1 : Bool) then
          alterS da.1 (fun o => insSorted e.1 (o.getD [])) acc
        else acc)
      (e.2.enables_features.foldl (fun acc a =>
        if !(a = e.1 : Bool) then alterS a (fun o => insSorted e.1 (o.getD [])) acc
        else acc) acc))
    = (aebOps e).foldl
        (fun acc p => alterS p.1 (fun o => insSorted p.2 (o.getD [])) acc) acc := by
  unfold aebOps
  rw [List.foldl_append]
  have h1 := foldl_guard_filter_map (fun a => !(a = e.1 : Bool)) (fun a => ((a, e.1) : String × String))
    (fun acc p => alterS p.1 (fun o => insSorted p.2 (o.getD [])) acc)
    e.2.enables_features acc
  dsimp only at h1
  rw [← h1]
  have h2 := foldl_guard_filter_map
    (fun (da : String × DepAction) =>
      !da.2.is_conditional && !da.2.is_dep_only && !(da.1 = e.1 : Bool))
    (fun da => ((da.1, e.1) : String × String))
    (fun acc p => alterS p.1 (fun o => insSorted p.2 (o.getD [])) acc)
    e.2.enables_deps
    (e.2.enables_features.foldl (fun acc a =>
      if !(a = e.1 : Bool) then alterS a (fun o => insSorted e.1 (o.getD [])) acc
      else acc) acc)
  dsimp only at h2
  rw [← h2]

theorem allEnabledBy_ops :
    ∀ (entries : List (String × Feature)) (acc : List (String × List String)),
      entries.foldl (fun acc e =>
        e.2.enables_deps.foldl (fun acc da =>
          if !da.2.is_conditional && !da.2.is_dep_only && !(da.1 = e.1 : Bool) then
            alterS da.1 (fun o => insSorted e.1 (o.getD [])) acc
          else acc)
          (e.2.enables_features.foldl (fun acc a =>
            if !(a = e.1 : Bool) then alterS a (fun o => insSorted e.1 (o.getD [])) acc
            else acc) acc)) acc
      = ((entries.map aebOps).flatten).foldl
          (fun acc p => alterS p.1 (fun o => insSorted p.2 (o.getD [])) acc) acc := by
  intro entries
  induction entries with
  | nil =>
    intro acc
    rfl
  | cons e es ih =>
    intro acc
    rw [List.foldl_cons, List.map_cons, List.flatten_cons, List.foldl_append, ih,
      aeb_entry_eq]

/-- Accumulator invariant for the `all_enabled_by` update stream: a sorted
map whose values are sorted sets. -/
def AebInv (acc : List (String × List String)) : Prop :=
  KeysSorted acc ∧ ∀ e ∈ acc, e.2.Chain' (· < ·)

theorem aebInv_step (acc : List (String × List String)) (p : String × String)
    (h : AebInv acc) :
    AebInv (alterS p.1 (fun o => insSorted p.2 (o.getD [])) acc) := by
  refine ⟨keysSorted_alterS _ _ _ h.1, ?_⟩
  intro e he
  rcases mem_alterS e he with hm | hm | ⟨v, hv, hm⟩
  · exact h.2 e hm
  · rw [hm]
    exact chain_insSorted _ _ (by simp)
  · rw [hm]
    exact chain_insSorted _ _ (h.2 (p.1, v) hv)

theorem aeb_comm (a : List (String × List String)) (x y : String × String)
    (ha : AebInv a) :
    alterS y.1 (fun o => insSorted y.2 (o.getD []))
      (alterS x.1 (fun o => insSorted x.2 (o.getD [])) a)
    = alterS x.1 (fun o => insSorted x.2 (o.getD []))
        (alterS y.1 (fun o => insSorted y.2 (o.getD [])) a) := by
  by_cases hxy : y.1 = x.1
  · rw [hxy]
    refine alter_comm_same _ _ a ha.1 ?_
    cases ho : lookupS x.1 a with
    | none =>
      show insSorted y.2 (insSorted x.2 []) = insSorted x.2 (insSorted y.2 [])
      exact insSorted_comm _ _ [] (by simp)
    | some v =>
      show insSorted y.2 (insSorted x.2 v) = insSorted x.2 (insSorted y.2 v)
      exact insSorted_comm _ _ v (ha.2 (x.1, v) (lookupS_mem ho))
  · exact alter_comm_ne _ _ a ha.1 hxy

theorem allEnabledBy_perm {entries1 entries2 : List (String × Feature)}
    (hp : entries1.Perm entries2) :
    allEnabledBy entries1 = allEnabledBy entries2 := by
  unfold allEnabledBy
  rw [allEnabledBy_ops, allEnabledBy_ops]
  refine perm_foldl_inv AebInv _ (fun a x ha => aebInv_step a x ha)
    (fun a x y ha => aeb_comm a x y ha)
    ((List.Perm.map aebOps hp).flatten) [] ⟨keysSorted_nil, by simp⟩

theorem setEnabledBy_perm {entries1 entries2 features : List (String × Feature)}
    (hp : entries1.Perm entries2) :
    setEnabledBy entries1 features = setEnabledBy entries2 features := by
  unfold setEnabledBy
  rw [allEnabledBy_perm hp]

theorem hidden_set_perm (r : Resolver) {ks1 ks2 : List String} (hp : ks1.Perm ks2) :
    ks1.foldl (fun acc k =>
      if kIsHidden k && !((r.always_keep).elim false (fun cb => cb k)) then insSorted k acc
      else acc) []
    = ks2.foldl (fun acc k =>
      if kIsHidden k && !((r.always_keep).elim false (fun cb => cb k)) then insSorted k acc
      else acc) [] := by
  refine perm_foldl_inv (fun (acc : List String) => acc.Chain' (· < ·)) _ ?_ ?_ hp []
    (by simp)
  · intro a k ha
    by_cases hc : (kIsHidden k && !((r.always_keep).elim false (fun cb => cb k)) : Bool) = true
    · rw [if_pos hc]
      exact chain_insSorted k a ha
    · rw [if_neg hc]
      exact ha
  · intro a x y ha
    by_cases hcx : (kIsHidden x && !((r.always_keep).elim false (fun cb => cb x)) : Bool) = true
    · by_cases hcy : (kIsHidden y && !((r.always_keep).elim false (fun cb => cb y)) : Bool) = true
      · simp only [if_pos hcx, if_pos hcy]
        exact insSorted_comm y x a ha
      · simp only [if_pos hcx, if_neg hcy]
    · by_cases hcy : (kIsHidden y && !((r.always_keep).elim false (fun cb => cb y)) : Bool) = true
      · simp only [if_neg hcx, if_pos hcy]
      · simp only [if_neg hcx, if_neg hcy]

theorem removeHidden_perm (r : Resolver) {ks1 ks2 : List String} (hp : ks1.Perm ks2)
    (fs : List (String × Feature)) :
    removeHiddenFeatures r ks1 fs = removeHiddenFeatures r ks2 fs := by
  unfold removeHiddenFeatures
  rw [hidden_set_perm r hp]

/-- C9: `parse` is independent of the three hash-map iteration orders: any
choice of permutation-producing iteration functions for
`named_using_dep_syntax`, `set_enabled_by`, and `remove_hidden_features`
yields exactly the canonical result, key-wise and value-wise.  Two runs on
equal input therefore return equal results. -/
theorem C9_hash_order_independence (r : Resolver) (m : Manifest)
    (σn σe : List (String × Feature) → List (String × Feature))
    (σh : List String → List String)
    (hn : ∀ l, (σn l).Perm l) (he : ∀ l, (σe l).Perm l) (hh : ∀ l, (σh l).Perm l) :
    r.parseWith σn σe σh m = r.parse m := by
  unfold Resolver.parse Resolver.parseWith
  simp only [id_eq]
  rw [named_perm (hn _), setEnabledBy_perm (he _), removeHidden_perm r (hh _)]

/-- C9 witness manifest: a hidden feature among explicit ones, so all three
iteration sites run. -/
def c9m : Manifest :=
  Manifest.mk "p" [("__h", ["b"]), ("a", ["__h"]), ("b", [])] [] [] [] [] []

/-- Witness for C9 at a concrete input: iterating every hash site in
reversed order yields the canonical parse result. -/
theorem C9_witness :
    Resolver.parseWith (Resolver.mk none) List.reverse List.reverse List.reverse c9m
      = (Resolver.mk none).parse c9m :=
  C9_hash_order_independence (Resolver.mk none) c9m List.reverse List.reverse List.reverse
    (fun l => List.reverse_perm l) (fun l => List.reverse_perm l)
    (fun l => List.reverse_perm l)
